import Mathlib

/-!
# Verification of the factorio-llm-docs documentation pipeline

This file is a shallow embedding, in Lean 4, of the core of the
factorio-llm-docs repository: the generator `tools/factorio-api-docs-to-llm.ts`
(catalog, cross-reference resolver, renderer, chunk emitter) and the retrieval
CLI `tools/search.ts` (version listing, scored search, snippet extraction,
anchor-based Markdown section extraction).

Strings are modelled as `List Char` (`Str`), and each TypeScript function is
translated into a Lean function of the same name.  JavaScript-specific
behaviour is modelled as follows and noted at the definition site:

* `String.prototype.toLowerCase` is modelled with `Char.toLower` per character
  (length preserving; the corpus is ASCII).
* the JS whitespace class `\s` is modelled by the ASCII whitespace characters
  (space, tab, LF, CR, vertical tab, form feed) plus NBSP.
* `String.prototype.localeCompare` and the default `Array.prototype.sort`
  string order are modelled as lexicographic order on UTF-16 code units
  (`strLeB`).
* `Array.prototype.sort(cmp)` is modelled by the stable `List.mergeSort`.
* JSON numbers are modelled as `Int` (no claim depends on float formatting).
-/

/-- Strings of the modelled programs, as lists of characters. -/
abbrev Str := List Char

/-- Conversion from Lean string literals to the model. -/
def str (s : String) : Str := s.data

/-- The JS whitespace class `\s`, restricted to the characters that occur in
this corpus (ASCII whitespace and NBSP). -/
def isWsChar (c : Char) : Bool :=
  c = ' ' ∨ c = '\t' ∨ c = '\n' ∨ c = '\r' ∨ c = Char.ofNat 11 ∨ c = Char.ofNat 12 ∨
    c = Char.ofNat 160

/-- `String.prototype.toLowerCase`, character-wise. -/
def toLowerS (s : Str) : Str := s.map Char.toLower

/-- Left trim: drop leading whitespace. -/
def ltrimS (s : Str) : Str := s.dropWhile isWsChar

/-- Right trim: drop trailing whitespace. -/
def rtrimS (s : Str) : Str := (s.reverse.dropWhile isWsChar).reverse

/-- `String.prototype.trim`. -/
def trimS (s : Str) : Str := ltrimS (rtrimS s)

/-- `String.prototype.trimEnd`. -/
def trimEndS (s : Str) : Str := rtrimS s

/-- Split a string on a separator character (`String.prototype.split` with a
single-character separator): `splitOnC ',' "a,,b" = ["a", "", "b"]`. -/
def splitOnC (sep : Char) : Str → List Str
  | [] => [[]]
  | c :: rest =>
    let r := splitOnC sep rest
    if c = sep then [] :: r
    else (c :: r.headI) :: r.tail

/-- Join a list of strings with a separator character (`Array.prototype.join`
with a one-character separator). -/
def joinC (sep : Char) : List Str → Str
  | [] => []
  | [s] => s
  | s :: rest => s ++ sep :: joinC sep rest

/-- Join a list of strings with a separator string. -/
def joinS (sep : Str) : List Str → Str
  | [] => []
  | [s] => s
  | s :: rest => s ++ sep ++ joinS sep rest

/-- First index at which `needle` occurs in `haystack`
(`String.prototype.indexOf`, with `none` for `-1`).  An empty needle occurs at
index 0, as in JS. -/
def indexOfSub (haystack needle : Str) : Option Nat :=
  match haystack with
  | [] => if needle = [] then some 0 else none
  | _ :: rest =>
    if needle.isPrefixOf haystack then some 0
    else (indexOfSub rest needle).map (· + 1)

/-- `String.prototype.includes`. -/
def containsSub (haystack needle : Str) : Bool := (indexOfSub haystack needle).isSome

/-- First index of a character (`String.prototype.indexOf` with a
one-character argument). -/
def indexOfC (hay : Str) (c : Char) : Option Nat := indexOfSub hay [c]

/-- Decimal representation of a natural number, as used by JS template
interpolation of a number. -/
def natToStr (n : Nat) : Str := (Nat.repr n).data

/-- Decimal representation of an integer. -/
def intToStr (n : Int) : Str := (Int.repr n).data

/-- Normalize newlines: `s.replace(/\r\n?/g, "\n")`
(`tools/search.ts` `extractMarkdownSectionByAnchor`, and `normalizeNewlines`
in `tools/factorio-api-docs-to-llm.ts`). -/
def normalizeNewlines (s : Str) : Str :=
  match s with
  | [] => []
  | c :: rest =>
    if c = '\r' then
      match rest with
      | [] => ['\n']
      | d :: rest' =>
        if d = '\n' then '\n' :: normalizeNewlines rest'
        else '\n' :: normalizeNewlines (d :: rest')
    else c :: normalizeNewlines rest

/-- Split into lines on `'\n'` (after `normalizeNewlines`, as in both tools). -/
def splitLines (s : Str) : List Str := splitOnC '\n' s

/-- Join lines with `'\n'` (`lines.join("\n")`). -/
def joinLines (lines : List Str) : Str := joinC '\n' lines

/-- Replace every maximal run of characters satisfying `p` with the single
character `out`, scanning left to right; `inRun` records whether the previous
character belonged to a run (the global-replace semantics of
`s.replace(/X+/g, out)`). -/
def collapseRuns (p : Char → Bool) (out : Char) : Bool → Str → Str
  | _, [] => []
  | inRun, c :: rest =>
    if p c then
      if inRun then collapseRuns p out true rest
      else out :: collapseRuns p out true rest
    else c :: collapseRuns p out false rest

/-- Collapse every maximal whitespace run into a single space:
`s.replace(/\s+/g, " ")`. -/
def collapseWs (s : Str) : Str := collapseRuns isWsChar ' ' false s

/-- Lexicographic order on strings, modelling the UTF-16 code-unit order used
by JS default string sorting and (for this ASCII corpus) `localeCompare`. -/
def strLeB : Str → Str → Bool
  | [], _ => true
  | _ :: _, [] => false
  | a :: as, b :: bs => if a < b then true else if a = b then strLeB as bs else false

/-- `countOccurrences` (`tools/search.ts` lines 118-128): counts
non-overlapping occurrences of `needle` in `haystack`, scanning left to
right. -/
def countOccurrences (haystack needle : Str) : Nat :=
  if h : needle = [] then 0
  else
    match hidx : indexOfSub haystack needle with
    | none => 0
    | some idx => 1 + countOccurrences (haystack.drop (idx + needle.length)) needle
termination_by haystack.length
decreasing_by
  -- the match succeeded, so the haystack is nonempty and the drop is proper
  have hne : haystack ≠ [] := by
    intro hnil
    rw [hnil] at hidx
    simp [indexOfSub, h] at hidx
  have hlen : 0 < haystack.length := List.length_pos.mpr hne
  have : haystack.length - (idx + needle.length) < haystack.length := by
    have hn : 0 < needle.length := List.length_pos.mpr h
    omega
  simpa using this

/-! ## Retrieval CLI (`tools/search.ts`) -/

/-- `parseCsvFlag` (`tools/search.ts` lines 82-87): split a flag value on
commas, trim each entry, drop empty entries (`filter(Boolean)`).  A missing
flag (`value ?? ""`) yields the empty list. -/
def parseCsvFlag (value : Option Str) : List Str :=
  ((splitOnC ',' (value.getD [])).map trimS).filter (fun s => s ≠ [])

/-- `normalizeFilterValue` (`tools/search.ts` lines 89-91). -/
def normalizeFilterValue (value : Str) : Str := toLowerS (trimS value)

/-- The decimal value of a digit string, modelling JS `Number(p)` on the
`\d+` components produced by the semantic-version pattern (the only strings
this model applies it to; `Number` of a junk string would be `NaN`, which the
surrounding code never produces because version names are filtered by
`/^\d+\.\d+\.\d+$/` before being compared). -/
def digitsVal (s : Str) : Nat :=
  s.foldl (fun acc c => acc * 10 + (c.toNat - 48)) 0

/-- `compareVersions` (`tools/search.ts` lines 93-102): split both names on
dots, compare componentwise as numbers, padding the shorter list with 0. -/
def compareVersions (a b : Str) : Int :=
  let pa := (splitOnC '.' a).map (fun p => (digitsVal p : Int))
  let pb := (splitOnC '.' b).map (fun p => (digitsVal p : Int))
  let rec go (i : Nat) (fuel : Nat) : Int :=
    match fuel with
    | 0 => 0
    | fuel + 1 =>
      let da := (pa.get? i).getD 0
      let db := (pb.get? i).getD 0
      if da ≠ db then da - db else go (i + 1) fuel
  go 0 (max pa.length pb.length)

/-- Does a string consist only of decimal digits and is nonempty (`\d+`)? -/
def allDigits (s : Str) : Bool := s ≠ [] ∧ s.all (fun c => '0' ≤ c ∧ c ≤ '9')

/-- The pattern `/^\d+\.\d+\.\d+$/` used by `listVersions`: exactly three
dot-separated nonempty digit runs. -/
def semverPat (s : Str) : Bool :=
  match splitOnC '.' s with
  | [a, b, c] => allDigits a ∧ allDigits b ∧ allDigits c
  | _ => false

/-- A directory entry, as seen through `readdir(root, {withFileTypes: true})`. -/
structure DirEnt where
  name : Str
  isDirectory : Bool
deriving DecidableEq, Repr

/-- `listVersions` (`tools/search.ts` lines 104-110): keep directory entries
whose name matches the three-part numeric pattern, then sort ascending with
`compareVersions`. -/
def listVersions (entries : List DirEnt) : List Str :=
  (((entries.filter (fun e => e.isDirectory ∧ semverPat e.name)).map DirEnt.name).mergeSort
    (fun a b => compareVersions a b ≤ 0))

/-- `makeSnippet` (`tools/search.ts` lines 130-138): clamp the given index
into the whitespace-collapsed text and return the window from 60 characters
before it to `queryLen + 120` characters after it, with an ellipsis on each
truncated side. -/
def makeSnippet (text : Str) (idx : Nat) (queryLen : Nat) : Str :=
  let clean := trimS (collapseWs text)
  let i := min idx clean.length
  let start := i - 60
  let e := min clean.length (i + queryLen + 120)
  let head := if start > 0 then str "…" else []
  let tail := if e < clean.length then str "…" else []
  head ++ ((clean.drop start).take (e - start)) ++ tail

/-- Replace every whitespace run with a single hyphen (the whitespace pass of
`githubSlugBase`). -/
def wsToHyphen (s : Str) : Str := collapseRuns isWsChar '-' false s

/-- Replace every hyphen run with a single hyphen (the hyphen pass of
`githubSlugBase`). -/
def collapseHyphens (s : Str) : Str := collapseRuns (· = '-') '-' false s

/-- Remove one leading and one trailing hyphen (the final pass of
`githubSlugBase`; after `collapseHyphens` there is at most one of each). -/
def trimOneHyphen (s : Str) : Str :=
  let s' := match s with
    | '-' :: rest => rest
    | other => other
  match s'.getLast? with
  | some '-' => s'.dropLast
  | _ => s'

/-- `githubSlugBase` (`tools/search.ts` lines 180-188): trim, lowercase,
strip the fixed punctuation set, collapse whitespace runs to hyphens,
collapse hyphen runs, and trim one leading and one trailing hyphen. -/
def githubSlugBase (input : Str) : Str :=
  let punct := str "`~!@#$%^&*()+=\x7b\x7d[]|\\:;\"\x27<>,.?/"
  let s1 := toLowerS (trimS input)
  let s2 := s1.filter (fun c => ¬ punct.contains c)
  trimOneHyphen (collapseHyphens (wsToHyphen s2))

/-- Parse a heading line against `/^(#{1,6})\s+(.+?)\s*$/` (first scan loop in
`extractMarkdownSectionByAnchor`).  The regex matches iff the line starts with
1-6 `#` followed by a whitespace character and at least one further character;
the captured text, after the `.trim()` the caller applies, is the remainder
trimmed on both sides.  Returns `(level, trimmed heading text)`. -/
def parseHeading (l : Str) : Option (Nat × Str) :=
  let hashes := l.takeWhile (· = '#')
  let n := hashes.length
  let rest := l.drop n
  if 1 ≤ n ∧ n ≤ 6 ∧ 2 ≤ rest.length ∧ (rest.headI |> isWsChar) then
    some (n, trimS rest)
  else none

/-- Parse a line against `/^(#{1,6})\s+/` (section-terminator loop in
`extractMarkdownSectionByAnchor`): 1-6 `#` followed by a whitespace
character. -/
def parseHeadingLoose (l : Str) : Option Nat :=
  let n := (l.takeWhile (· = '#')).length
  let rest := l.drop n
  if 1 ≤ n ∧ n ≤ 6 ∧ 1 ≤ rest.length ∧ (rest.headI |> isWsChar) then some n
  else none

/-- A JS `Map` keyed by strings, with `get` returning the most recent `set`. -/
def MapS (α : Type) := List (Str × α)

/-- `Map.prototype.get`. -/
def mget {α} (m : MapS α) (k : Str) : Option α :=
  (List.find? (fun p => p.1 = k) m).map Prod.snd

/-- `Map.prototype.set` (later sets shadow earlier ones for `mget`). -/
def mset {α} (m : MapS α) (k : Str) (v : α) : MapS α := (k, v) :: m

/-- The slug computed for one heading occurrence, given the count map state:
the base slug for the first occurrence of a base, `base-(n-1)` for the n-th,
and `""` when the base is empty (`extractMarkdownSectionByAnchor`
lines 205-208). -/
def slugOfState (counts : MapS Nat) (base : Str) : Str :=
  let nextCount := (mget counts base).getD 0 + 1
  if base ≠ [] then
    (if nextCount = 1 then base else base ++ '-' :: natToStr (nextCount - 1))
  else []

/-- The heading-scan loop of `extractMarkdownSectionByAnchor`
(lines 199-215): walk the lines in order, maintaining the per-page slug-count
map; return the index (relative to the whole page) and level of the first
heading whose trimmed text or computed slug equals the trimmed anchor. -/
def scanForAnchor (anchorT : Str) : List Str → MapS Nat → Nat → Option (Nat × Nat)
  | [], _, _ => none
  | l :: rest, counts, i =>
    match parseHeading l with
    | none => scanForAnchor anchorT rest counts (i + 1)
    | some (level, heading) =>
      let base := githubSlugBase heading
      let nextCount := (mget counts base).getD 0 + 1
      let slug := slugOfState counts base
      if heading = anchorT ∨ slug = anchorT then some (i, level)
      else scanForAnchor anchorT rest (mset counts base nextCount) (i + 1)

/-- `extractMarkdownSectionByAnchor` (`tools/search.ts` lines 190-232):
normalize newlines, split into lines, find the first heading matching the
trimmed anchor by raw text or computed slug, then return the lines from the
matched heading up to (but not including) the next heading of level ≤ the
matched level (per the loose heading pattern), joined, right-trimmed, with a
trailing newline; `none` when the anchor is blank, no heading matches, or the
section trims to nothing. -/
def extractMarkdownSectionByAnchor (markdown anchor : Str) : Option Str :=
  let lines := splitLines (normalizeNewlines markdown)
  let anchorTrimmed := trimS anchor
  if anchorTrimmed = [] then none
  else
    match scanForAnchor anchorTrimmed lines [] 0 with
    | none => none
    | some (startIdx, startLevel) =>
      let tail := lines.drop (startIdx + 1)
      let sectionRest := tail.takeWhile (fun l =>
        match parseHeadingLoose l with
        | some level => ¬ (level ≤ startLevel)
        | none => true)
      let out := trimEndS (joinLines ((lines.drop startIdx).take 1 ++ sectionRest))
      if out = [] then none else some (out ++ ['\n'])

/-- A chunk record as decoded by the search CLI (`ChunkRecordSchema` in
`tools/effect-json.ts` lines 83-96; optional fields are `Option`). -/
structure ChunkRecordS where
  id : Str
  version : Str
  stage : Str
  kind : Str
  name : Str
  member : Option Str := none
  relPath : Option Str := none
  anchor : Option Str := none
  call : Option Str := none
  takes_table : Option Bool := none
  table_optional : Option Bool := none
  text : Str
deriving DecidableEq, Repr

/-- The filter sets built in `tools/search.ts` `main` (lines 284-287) from the
`--stage`, `--kind`, `--name` and `--member` CSV flags. -/
structure SearchFilters where
  stageSet : List Str := []
  kindSet : List Str := []
  nameSet : List Str := []
  memberSet : List Str := []
deriving Repr

/-- Build the filter sets from the raw flag values (lines 284-287). -/
def mkSearchFilters (stage kind name member : Option Str) : SearchFilters where
  stageSet := (parseCsvFlag stage).map normalizeFilterValue
  kindSet := (parseCsvFlag kind).map normalizeFilterValue
  nameSet := (parseCsvFlag name).map normalizeFilterValue
  memberSet := (parseCsvFlag member).map normalizeFilterValue

/-- The `member` filter test of the search loop (lines 357-358): normalize a
missing `member` to the empty string, then require membership in the filter
set whenever the set is non-empty.  `true` means the record survives this
filter. -/
def passesMemberFilter (memberSet : List Str) (r : ChunkRecordS) : Bool :=
  let memberLower := (r.member.map toLowerS).getD []
  ¬ (memberSet ≠ [] ∧ ¬ memberSet.contains memberLower)

/-- All four filter tests of the search loop (lines 348-358). -/
def passesFilters (f : SearchFilters) (r : ChunkRecordS) : Bool :=
  (¬ (f.stageSet ≠ [] ∧ ¬ f.stageSet.contains (toLowerS r.stage))) ∧
  (¬ (f.kindSet ≠ [] ∧ ¬ f.kindSet.contains (toLowerS r.kind))) ∧
  (¬ (f.nameSet ≠ [] ∧ ¬ f.nameSet.contains (toLowerS r.name))) ∧
  passesMemberFilter f.memberSet r

/-- The score computed for one record in the search loop (lines 360-370),
with `q` the lowercased query: 20 when the lowercased id contains `q`, plus
10 for the name, plus 8 for the member, plus `min(20, count) * 2` when the
lowercased text contains `q` at all. -/
def chunkScore (q : Str) (r : ChunkRecordS) : Nat :=
  let idLower := toLowerS r.id
  let nameLower := toLowerS r.name
  let memberLower := (r.member.map toLowerS).getD []
  let textLower := toLowerS r.text
  let idx := indexOfSub textLower q
  let count := countOccurrences textLower q
  (if containsSub idLower q then 20 else 0) +
    (if containsSub nameLower q then 10 else 0) +
    (if containsSub memberLower q then 8 else 0) +
    (if idx.isSome then (min 20 count) * 2 else 0)

/-- The snippet computed for one record in the search loop (lines 363-374):
`makeSnippet` around the index of the first occurrence of `q` in the
lowercased (uncollapsed) text when there is one, else the first 140
characters of the whitespace-collapsed text (without trimming). -/
def searchSnippet (q : Str) (r : ChunkRecordS) : Str :=
  match indexOfSub (toLowerS r.text) q with
  | some idx => makeSnippet r.text idx q.length
  | none => (collapseWs r.text).take 140

/-- A search hit (the object pushed in lines 375-385). -/
structure SearchHit where
  score : Nat
  id : Str
  stage : Str
  kind : Str
  name : Str
  member : Option Str
  relPath : Option Str
  anchor : Option Str
  snippet : Str
deriving DecidableEq, Repr

/-- The hit built from a surviving record (lines 375-385). -/
def mkHit (q : Str) (r : ChunkRecordS) : SearchHit where
  score := chunkScore q r
  id := r.id
  stage := r.stage
  kind := r.kind
  name := r.name
  member := r.member
  relPath := r.relPath
  anchor := r.anchor
  snippet := searchSnippet q r

/-- The hit comparator `(a, b) => b.score - a.score || a.id.localeCompare(b.id)`
(line 387), as the boolean relation "`a` may come before `b`": higher score
first, ties by id ascending. -/
def hitLE (a b : SearchHit) : Bool :=
  if a.score = b.score then strLeB a.id b.id else b.score < a.score

/-- One iteration of the search loop (lines 347-389): drop the record on a
failed filter or a non-positive score, otherwise push its hit, re-sort, and
truncate to `limit` entries. -/
def searchStep (q : Str) (f : SearchFilters) (limit : Nat)
    (hits : List SearchHit) (r : ChunkRecordS) : List SearchHit :=
  if ¬ passesFilters f r then hits
  else if chunkScore q r = 0 then hits
  else ((hits ++ [mkHit q r]).mergeSort hitLE).take limit

/-- The complete search loop over the streamed records. -/
def searchHits (q : Str) (f : SearchFilters) (limit : Nat)
    (records : List ChunkRecordS) : List SearchHit :=
  records.foldl (searchStep q f limit) []

/-! ## Cross-reference resolver (`tools/factorio-api-docs-to-llm.ts`) -/

/-- A catalog entry (`ResolverEntry`, line 8-10). -/
structure ResolverEntry where
  relPath : Str
deriving DecidableEq, Repr

/-- A resolved link (`ResolveResult`, lines 12-15). -/
structure ResolveResult where
  relPath : Str
  anchor : Option Str := none
deriving DecidableEq, Repr

/-- `rest.split("::", 2)`: the part before the first `::` and the part
between the first and second `::` (JS `split` with a limit truncates the
fully split list). -/
def splitTwoColons (rest : Str) : Str × Option Str :=
  match indexOfSub rest (str "::") with
  | none => (rest, none)
  | some i =>
    let after := rest.drop (i + 2)
    match indexOfSub after (str "::") with
    | none => (rest.take i, some after)
    | some j => (rest.take i, some (after.take j))

/-- `makeResolve` (`tools/factorio-api-docs-to-llm.ts` lines 401-428).  The
catalog is any string-keyed map.  Splits the token at its first colon; an
empty remainder resolves to `none`; `defines.` paths resolve the group with
the remaining dotted segments as the anchor; `Base::Member` paths resolve the
base (falling back to an auxiliary key) with the member as the anchor; other
tokens are looked up directly, falling back to an auxiliary key. -/
def makeResolve (m : MapS ResolverEntry) (target : Str) : Option ResolveResult :=
  let firstColon := indexOfC target ':'
  let stage := match firstColon with
    | none => []
    | some i => target.take i
  let rest := match firstColon with
    | none => []
    | some i => target.drop (i + 1)
  if rest = [] then none
  else if (stage = str "runtime" ∨ stage = str "prototype") ∧
      (str "defines.").isPrefixOf rest then
    let parts := splitOnC '.' (rest.drop (str "defines.").length)
    let defineName := parts.headI
    match mget m (stage ++ str ":defines." ++ defineName) with
    | none => none
    | some entry =>
      let anchor := if parts.length > 1 then some (joinC '.' parts.tail) else none
      some { relPath := entry.relPath, anchor := anchor }
  else if (stage = str "runtime" ∨ stage = str "prototype") ∧
      containsSub rest (str "::") then
    let bm := splitTwoColons rest
    match mget m (stage ++ ':' :: bm.1) |>.orElse
        (fun _ => mget m (str "auxiliary:" ++ bm.1)) with
    | none => none
    | some entry => some { relPath := entry.relPath, anchor := bm.2 }
  else
    match (mget m target).orElse (fun _ => mget m (str "auxiliary:" ++ rest)) with
    | none => none
    | some entry => some { relPath := entry.relPath }

/-! ## JSON values and JavaScript coercions

The generator walks the untyped JSON of `runtime-api.json` /
`prototype-api.json`.  `Json` models parsed JSON values (numbers as `Int`;
no claim depends on float formatting). -/

inductive Json where
  | str (s : Str)
  | num (n : Int)
  | bool (b : Bool)
  | null
  | arr (elems : List Json)
  | obj (fields : List (Str × Json))

/-- Property lookup on a parsed JSON object (keys are unique after JSON
parsing, so first match suffices). -/
def jget (fields : List (Str × Json)) (k : Str) : Option Json :=
  (fields.find? (fun p => p.1 = k)).map Prod.snd

/-- Optional-chained property access `p?.k`: `none` when `p` is not an
object or lacks the property (JS yields `undefined` in both cases for the
values that occur here). -/
def jfield (p : Json) (k : Str) : Option Json :=
  match p with
  | .obj fields => jget fields k
  | _ => none

/-- The JS nullish coalescing view of a property: `x ?? y` skips both
`undefined` (absent) and `null`. -/
def jnn (o : Option Json) : Option Json :=
  match o with
  | some .null => none
  | x => x

/-- JS truthiness of a JSON value. -/
def jsTruthy (j : Json) : Bool :=
  match j with
  | .str s => s ≠ []
  | .num n => n ≠ 0
  | .bool b => b
  | .null => false
  | .arr _ => true
  | .obj _ => true

/-- JS truthiness of an optionally-present JSON value. -/
def jsTruthyOpt (o : Option Json) : Bool := (o.map jsTruthy).getD false

/-- JSON string escaping as performed by `JSON.stringify`. -/
def escJson (c : Char) : Str :=
  if c = '"' then str "\\\""
  else if c = '\\' then str "\\\\"
  else if c = '\n' then str "\\n"
  else if c = '\r' then str "\\r"
  else if c = '\t' then str "\\t"
  else if c = Char.ofNat 8 then str "\\b"
  else if c = Char.ofNat 12 then str "\\f"
  else if c.toNat < 32 then
    str "\\u00" ++ [hexDigit (c.toNat / 16), hexDigit (c.toNat % 16)]
  else [c]
where
  hexDigit (n : Nat) : Char := if n < 10 then Char.ofNat (48 + n) else Char.ofNat (87 + n)

mutual

/-- `JSON.stringify` (no indentation), as called by `typeToString` for
literal types and for objects without a string `complex_type`. -/
def jsonStringify : Json → Str
  | .str s => '"' :: (s.flatMap escJson) ++ ['"']
  | .num n => intToStr n
  | .bool true => str "true"
  | .bool false => str "false"
  | .null => str "null"
  | .arr elems => '[' :: joinS (str ",") (jsonStringifyList elems) ++ [']']
  | .obj fields => Char.ofNat 123 :: joinS (str ",") (jsonStringifyFields fields) ++ [Char.ofNat 125]

def jsonStringifyList : List Json → List Str
  | [] => []
  | j :: rest => jsonStringify j :: jsonStringifyList rest

def jsonStringifyFields : List (Str × Json) → List Str
  | [] => []
  | (k, v) :: rest =>
    ('"' :: (k.flatMap escJson) ++ ['"'] ++ ':' :: jsonStringify v) :: jsonStringifyFields rest

end

mutual

/-- The JS `ToString` coercion applied by template interpolation
(`` `${v}` ``): strings stay, arrays join their elements with commas
(`null` elements become empty), objects become `[object Object]`. -/
def jsToString : Json → Str
  | .str s => s
  | .num n => intToStr n
  | .bool true => str "true"
  | .bool false => str "false"
  | .null => str "null"
  | .arr elems => joinS (str ",") (jsToStringElems elems)
  | .obj _ => str "[object Object]"

def jsToStringElems : List Json → List Str
  | [] => []
  | j :: rest =>
    (match j with
      | .null => []
      | other => jsToString other) :: jsToStringElems rest

end

/-- The JS coercion of an optionally-present value in a template:
`undefined` prints as `"undefined"`. -/
def jsToStringU (o : Option Json) : Str :=
  match o with
  | none => str "undefined"
  | some j => jsToString j

mutual

/-- A size measure on JSON values dominating the recursion depth of
`typeToString`. -/
def jsonSize : Json → Nat
  | .str _ | .num _ | .bool _ | .null => 1
  | .arr elems => 1 + jsonSizeList elems
  | .obj fields => 1 + jsonSizeFields fields

def jsonSizeList : List Json → Nat
  | [] => 0
  | j :: rest => 1 + jsonSize j + jsonSizeList rest

def jsonSizeFields : List (Str × Json) → Nat
  | [] => 0
  | (_, v) :: rest => 1 + jsonSize v + jsonSizeFields rest

end

/-- `Array.isArray(x) ? x : []` for an optionally-present value. -/
def jarrElems (o : Option Json) : List Json :=
  match o with
  | some (.arr l) => l
  | _ => []

mutual

/-- Fuel-bounded body of `typeToString`
(`tools/factorio-api-docs-to-llm.ts` lines 159-215).  The recursion of the
original descends into a proper JSON subvalue at every call, so its depth is
dominated by `jsonSize`; the fuel-exhausted branch is unreachable when run
through the `typeToString` wrapper below. -/
def typeToStringGo (fuel : Nat) (t : Json) : Str :=
  match fuel with
  | 0 => []
  | fuel + 1 =>
    match t with
    | .str s => s
    | .num n => intToStr n
    | .bool true => str "true"
    | .bool false => str "false"
    | .null => str "null"
    | .arr elems => jsonStringify (.arr elems)
    | .obj fields =>
      match jget fields (str "complex_type") with
      | some (.str ct) =>
        if ct = str "array" then
          str "Array<" ++ typeToStringUGo fuel (jget fields (str "value")) ++ str ">"
        else if ct = str "dictionary" then
          str "Dict<" ++ typeToStringUGo fuel (jget fields (str "key")) ++ str ", " ++
            typeToStringUGo fuel (jget fields (str "value")) ++ str ">"
        else if ct = str "tuple" then
          str "Tuple<" ++
            joinS (str ", ") ((jarrElems (jget fields (str "values"))).map
              (typeToStringGo fuel)) ++ str ">"
        else if ct = str "union" then
          let j := joinS (str " | ")
            ((jarrElems (jget fields (str "options"))).map (typeToStringGo fuel))
          if j = [] then str "union" else j
        else if ct = str "literal" then
          match jget fields (str "value") with
          | some v => jsonStringify v
          | none => str "undefined"
        else if ct = str "table" then
          let params := jarrElems (jget fields (str "parameters"))
          let pieces := params.map (fun p =>
            jsToString ((jnn (jfield p (str "name"))).getD (.str (str "value"))) ++
              (if jsTruthyOpt (jfield p (str "optional")) then str "?" else []) ++
              str ": " ++ typeToStringUGo fuel (jfield p (str "type")))
          [Char.ofNat 123, ' '] ++ joinS (str ", ") pieces ++ [' ', Char.ofNat 125]
        else if ct = str "function" then
          let params := jarrElems (jget fields (str "parameters"))
          let returns := jarrElems (jget fields (str "return_values"))
          let ret := if returns.isEmpty then []
            else str " -> " ++ joinS (str ", ") (returns.map (typeToStringGo fuel))
          str "function(" ++ joinS (str ", ") (params.map (typeToStringGo fuel)) ++
            str ")" ++ ret
        else if ct = str "type" then
          typeToStringUGo fuel (jget fields (str "value"))
        else if ct = str "LuaStruct" then
          let attrs := jarrElems (jget fields (str "attributes"))
          let pieces := attrs.map (fun a =>
            jsToStringU (jfield a (str "name")) ++
              (if jsTruthyOpt (jfield a (str "optional")) then str "?" else []) ++
              str ": " ++
              jsToString (((jnn (jfield a (str "read_type"))).orElse
                (fun _ => jnn (jfield a (str "write_type")))).getD
                  (.str (str "unknown"))))
          str "LuaStruct" ++ [Char.ofNat 123, ' '] ++ joinS (str ", ") pieces ++
            [' ', Char.ofNat 125]
        else if ct = str "LuaCustomTable" then
          str "LuaCustomTable<" ++ typeToStringUGo fuel (jget fields (str "key")) ++
            str ", " ++ typeToStringUGo fuel (jget fields (str "value")) ++ str ">"
        else if ct = str "LuaLazyLoadedValue" then
          str "LuaLazyLoadedValue<" ++ typeToStringUGo fuel (jget fields (str "value")) ++
            str ">"
        else if ct = str "builtin" then str "builtin"
        else if ct = str "struct" then str "struct"
        else ct
      | _ => jsonStringify (.obj fields)

/-- Fuel-bounded `typeToString` of an optionally-present value
(`typeToString(undefined)` falls into the `String(t)` branch and prints
`"undefined"`). -/
def typeToStringUGo (fuel : Nat) (o : Option Json) : Str :=
  match o with
  | none => str "undefined"
  | some j => typeToStringGo fuel j

end

/-- `typeToString` (`tools/factorio-api-docs-to-llm.ts` lines 159-215). -/
def typeToString (t : Json) : Str := typeToStringGo (jsonSize t) t

/-- `typeToString` applied to an optionally-present JSON value. -/
def typeToStringU (o : Option Json) : Str :=
  match o with
  | none => str "undefined"
  | some j => typeToString j

/-! ## Link rewriting (`convertInternalLinks` / `convertSiteHtmlLinks`)

`String.prototype.replace` with a global regex is modelled by a left-to-right
scanner: at each position it attempts the pattern; on a match it emits the
replacement and continues after the matched text, otherwise it emits one
character and moves on. -/

/-- Generic global-replace scanner.  `try1` returns the replacement and the
length of the matched text when the pattern matches at the current position
(all patterns here match at least one character). -/
def replaceScan (try1 : Str → Option (Str × Nat)) (s : Str) : Str :=
  match s with
  | [] => []
  | c :: rest =>
    match try1 (c :: rest) with
    | some (repl, consumed) => repl ++ replaceScan try1 ((c :: rest).drop (max consumed 1))
    | none => c :: replaceScan try1 rest
termination_by s.length
decreasing_by
  · have hm : 1 ≤ max consumed 1 := Nat.le_max_right _ _
    simp only [List.length_drop, List.length_cons]
    omega
  · simp

/-- `path.posix.dirname` for the normalized relative paths this export uses. -/
def posixDirname (p : Str) : Str :=
  match (p.reverse.findIdx? (· = '/')) with
  | none => str "."
  | some ri =>
    let i := p.length - 1 - ri
    if i = 0 then str "/" else p.take i

/-- `path.posix.basename` for the normalized relative paths this export uses. -/
def posixBasename (p : Str) : Str := (splitOnC '/' p).getLastD []

/-- Path segments, ignoring empty and `.` segments (as `path.posix.resolve`
normalization would). -/
def pathSegs (p : Str) : List Str :=
  (splitOnC '/' p).filter (fun s => s ≠ [] ∧ s ≠ str ".")

/-- Length of the common prefix of two segment lists. -/
def commonPrefixLen : List Str → List Str → Nat
  | a :: as, b :: bs => if a = b then 1 + commonPrefixLen as bs else 0
  | _, _ => 0

/-- `path.posix.relative` for the normalized relative paths this export uses
(both arguments are resolved against the same working directory, which
cancels): pop the common prefix, go up with `..` for what remains of `from`,
then descend into the rest of `to`. -/
def posixRelative (fromP toP : Str) : Str :=
  let fa := pathSegs fromP
  let ta := pathSegs toP
  let k := commonPrefixLen fa ta
  joinC '/' (List.replicate (fa.length - k) (str "..") ++ ta.drop k)

/-- `relLink` (`tools/factorio-api-docs-to-llm.ts` lines 148-152). -/
def relLink (fromRelPath toRelPath : Str) : Str :=
  let rel := posixRelative (posixDirname fromRelPath) toRelPath
  if rel.isEmpty then posixBasename toRelPath else rel

/-- The replacement produced for one symbolic cross-reference token
(the arrow function body of `convertInternalLinks`, lines 227-233): an
unresolvable token is reproduced verbatim, a resolvable one becomes a
relative link with the resolved anchor. -/
def internalLinkReplacer (resolve : Str → Option ResolveResult) (fromRelPath : Str)
    (label stage rest : Str) : Str :=
  let target := stage ++ ':' :: rest
  match resolve target with
  | none => '[' :: label ++ str "](" ++ target ++ str ")"
  | some resolved =>
    let href := relLink fromRelPath resolved.relPath ++
      (match resolved.anchor with
        | some a => '#' :: a
        | none => [])
    '[' :: label ++ str "](" ++ href ++ str ")"

/-- Match the pattern of `convertInternalLinks`,
a bracketed label followed by `(runtime:...)` or `(prototype:...)`, at the
current position: label = maximal nonempty run without `]`, then `](`, then
the stage literal and colon, then a maximal nonempty run without `)`, then
`)`. -/
def tryInternalLink (resolve : Str → Option ResolveResult) (fromRelPath : Str)
    (s : Str) : Option (Str × Nat) :=
  match s with
  | [] => none
  | c :: t =>
    if c = '[' then
      let label := t.takeWhile (· ≠ ']')
      if label.isEmpty then none
      else
        match t.drop label.length with
        | d1 :: d2 :: u =>
          if d1 = ']' ∧ d2 = '(' then
            let stage :=
              if (str "runtime:").isPrefixOf u then some (str "runtime")
              else if (str "prototype:").isPrefixOf u then some (str "prototype")
              else none
            match stage with
            | none => none
            | some stage =>
              let v := u.drop (stage.length + 1)
              let rest := v.takeWhile (· ≠ ')')
              if rest.isEmpty then none
              else
                match v.drop rest.length with
                | e :: _ =>
                  if e = ')' then
                    some (internalLinkReplacer resolve fromRelPath label stage rest,
                      1 + label.length + 2 + stage.length + 1 + rest.length + 1)
                  else none
                | [] => none
          else none
        | _ => none
    else none

/-- `convertInternalLinks` (`tools/factorio-api-docs-to-llm.ts`
lines 226-234). -/
def convertInternalLinks (md fromRelPath : Str)
    (resolve : Str → Option ResolveResult) : Str :=
  replaceScan (tryInternalLink resolve fromRelPath) md

/-- The pattern `^([a-z0-9-]+)\.html$` (case-insensitive) of the auxiliary
branch of `convertSiteHtmlLinks`: returns the base name (original case). -/
def auxHtmlBase (rawPath : Str) : Option Str :=
  if 6 ≤ rawPath.length ∧ toLowerS (rawPath.drop (rawPath.length - 5)) = str ".html" then
    let base := rawPath.take (rawPath.length - 5)
    if base.all (fun c =>
        ('a' ≤ c.toLower ∧ c.toLower ≤ 'z') ∨ ('0' ≤ c ∧ c ≤ '9') ∨ c = '-') then
      some base
    else none
  else none

/-- The overview-page pattern of `convertSiteHtmlLinks`
(optionally `../`, then one of the six overview names, then `.html`,
case-insensitive): returns the matched kind (original case). -/
def overviewHtmlKind (rawPath : Str) : Option Str :=
  let core := if (str "../").isPrefixOf rawPath then rawPath.drop 3 else rawPath
  if 6 ≤ core.length ∧ toLowerS (core.drop (core.length - 5)) = str ".html" then
    let kind := core.take (core.length - 5)
    if [str "classes", str "concepts", str "events", str "prototypes", str "types",
        str "defines"].contains (toLowerS kind) then
      some kind
    else none
  else none

/-- The member-page pattern of `convertSiteHtmlLinks`
(`../<kind>/<name>.html`, case-insensitive, `<name>` nonempty without `/`):
returns kind and name (original case). -/
def memberHtmlMatch (rawPath : Str) : Option (Str × Str) :=
  if (str "../").isPrefixOf rawPath then
    let core := rawPath.drop 3
    let kind := core.takeWhile (· ≠ '/')
    match core.drop kind.length with
    | '/' :: rest =>
      if [str "classes", str "concepts", str "events", str "prototypes",
          str "types"].contains (toLowerS kind) ∧
          ¬ rest.contains '/' ∧ 6 ≤ rest.length ∧
          toLowerS (rest.drop (rest.length - 5)) = str ".html" then
        some (kind, rest.take (rest.length - 5))
      else none
    | _ => none
  else none

/-- The replacement produced for one legacy hyperlink (the arrow function
body of `convertSiteHtmlLinks`, lines 237-283).  `href` is split at its first
`#` into `rawPath` and `rawHash` (JS `split("#", 2)` keeps the part between
the first and second `#`); every branch reproduces the original link when the
resolver fails. -/
def siteHtmlLinkReplacer (resolve : Str → Option ResolveResult) (fromRelPath : Str)
    (label href : Str) : Str :=
  let parts := splitOnC '#' href
  let rawPath := parts.headI
  let rawHash : Option Str := parts.tail.head?
  let hash := match rawHash with
    | some h => if h.isEmpty then [] else '#' :: h
    | none => []
  let orig := '[' :: label ++ str "](" ++ href ++ str ")"
  match auxHtmlBase rawPath with
  | some base =>
    match resolve (str "auxiliary:" ++ base) with
    | some resolved =>
      '[' :: label ++ str "](" ++ relLink fromRelPath resolved.relPath ++ hash ++ str ")"
    | none => orig
  | none =>
    if (rawPath = str "defines.html" ∨ rawPath = str "../defines.html") ∧
        ((rawHash.map (fun h => (str "defines.").isPrefixOf h)).getD false = true) then
      let parts2 := splitOnC '.' (rawHash.getD [])
      let defineName := (parts2.get? 1).getD []
      let suffix := if 2 < parts2.length then '#' :: joinC '.' (parts2.drop 2) else []
      let stageHint := if containsSub fromRelPath (str "/prototype/") then str "prototype"
        else str "runtime"
      match resolve (stageHint ++ str ":defines." ++ defineName) with
      | some resolved =>
        '[' :: label ++ str "](" ++ relLink fromRelPath resolved.relPath ++ suffix ++ str ")"
      | none => orig
    else
      match overviewHtmlKind rawPath with
      | some kind =>
        let stageHint := if kind = str "prototypes" ∨ kind = str "types" then str "prototype"
          else str "runtime"
        match resolve (stageHint ++ ':' :: kind) with
        | some resolved =>
          '[' :: label ++ str "](" ++ relLink fromRelPath resolved.relPath ++ hash ++ str ")"
        | none => orig
      | none =>
        match memberHtmlMatch rawPath with
        | some km =>
          let stageHint := if km.1 = str "prototypes" ∨ km.1 = str "types" then
              str "prototype"
            else str "runtime"
          match resolve (stageHint ++ ':' :: km.2) with
          | some resolved =>
            '[' :: label ++ str "](" ++ relLink fromRelPath resolved.relPath ++ hash ++
              str ")"
          | none => orig
        | none => orig

/-- Match the pattern of `convertSiteHtmlLinks`,
a bracketed label followed by a parenthesized href without whitespace or `)`,
at the current position. -/
def trySiteHtmlLink (resolve : Str → Option ResolveResult) (fromRelPath : Str)
    (s : Str) : Option (Str × Nat) :=
  match s with
  | [] => none
  | c :: t =>
    if c = '[' then
      let label := t.takeWhile (· ≠ ']')
      if label.isEmpty then none
      else
        match t.drop label.length with
        | d1 :: d2 :: u =>
          if d1 = ']' ∧ d2 = '(' then
            let href := u.takeWhile (fun c => c ≠ ')' ∧ ¬ isWsChar c)
            if href.isEmpty then none
            else
              match u.drop href.length with
              | e :: _ =>
                if e = ')' then
                  some (siteHtmlLinkReplacer resolve fromRelPath label href,
                    1 + label.length + 2 + href.length + 1)
                else none
              | [] => none
          else none
        | _ => none
    else none

/-- `convertSiteHtmlLinks` (`tools/factorio-api-docs-to-llm.ts`
lines 236-284). -/
def convertSiteHtmlLinks (md fromRelPath : Str)
    (resolve : Str → Option ResolveResult) : Str :=
  replaceScan (trySiteHtmlLink resolve fromRelPath) md

/-- The resolver key that `convertSiteHtmlLinks` looks up for a legacy
`.html` href (auxiliary page, `defines.html#defines.x`, overview page, or
member page), or `none` when the href matches none of the four legacy
patterns; it mirrors the key computation of `siteHtmlLinkReplacer` branch by
branch. -/
def siteHtmlKey (fromRelPath href : Str) : Option Str :=
  let parts := splitOnC '#' href
  let rawPath := parts.headI
  let rawHash : Option Str := parts.tail.head?
  match auxHtmlBase rawPath with
  | some base => some (str "auxiliary:" ++ base)
  | none =>
    if (rawPath = str "defines.html" ∨ rawPath = str "../defines.html") ∧
        ((rawHash.map (fun h => (str "defines.").isPrefixOf h)).getD false = true) then
      let parts2 := splitOnC '.' (rawHash.getD [])
      let defineName := (parts2.get? 1).getD []
      let stageHint := if containsSub fromRelPath (str "/prototype/") then str "prototype"
        else str "runtime"
      some (stageHint ++ str ":defines." ++ defineName)
    else
      match overviewHtmlKind rawPath with
      | some kind =>
        let stageHint := if kind = str "prototypes" ∨ kind = str "types" then str "prototype"
          else str "runtime"
        some (stageHint ++ ':' :: kind)
      | none =>
        match memberHtmlMatch rawPath with
        | some km =>
          let stageHint := if km.1 = str "prototypes" ∨ km.1 = str "types" then
              str "prototype"
            else str "runtime"
          some (stageHint ++ ':' :: km.2)
        | none => none

/-! ## Generator input model

Typed views of the JSON collections that
`tools/factorio-api-docs-to-llm.ts` walks.  `Option` models both an absent
property and JSON `null` (the code checks these with `?? `/`!= null`);
boolean flags model JS truthiness of the corresponding property. -/

/-- JS truthiness of an optional string (`if (x)` on a `?? `-style field). -/
def jsTruthyStr (o : Option Str) : Bool := (o.getD []) ≠ []

/-- `String(!!x)`. -/
def boolStr (b : Bool) : Str := if b then str "true" else str "false"

/-- A method/function parameter or an event-data field. -/
structure RtParameter where
  name : Str
  optional : Bool := false
  ptype : Option Json := none
  description : Option Str := none
  order : Option Int := none

/-- A method/function return value. -/
structure RtReturn where
  rtype : Option Json := none
  optional : Bool := false
  description : Option Str := none
  order : Option Int := none

/-- A runtime class attribute. -/
structure RtAttribute where
  name : Str
  read_type : Option Json := none
  write_type : Option Json := none
  optional : Bool := false
  description : Option Str := none
  order : Option Int := none

/-- A runtime class method. -/
structure RtMethod where
  name : Str
  parameters : List RtParameter := []
  return_values : List RtReturn := []
  description : Option Str := none
  order : Option Int := none

/-- A runtime class. -/
structure RtClass where
  name : Str
  description : Option Str := none
  parent : Option Str := none
  attributes : List RtAttribute := []
  methods : List RtMethod := []

/-- A runtime concept. -/
structure RtConcept where
  name : Str
  description : Option Str := none
  ctype : Option Json := none

/-- A runtime event. -/
structure RtEvent where
  name : Str
  description : Option Str := none
  data : List RtParameter := []
  examples : List Str := []

/-- One value of a defines group. -/
structure DefineValue where
  name : Str
  description : Option Str := none
  order : Option Int := none

/-- A defines group (runtime or prototype). -/
structure RtDefine where
  name : Str
  description : Option Str := none
  values : List DefineValue := []

/-- A runtime global function. -/
structure GlobalFunction where
  name : Str
  description : Option Str := none
  parameters : List RtParameter := []
  return_values : List RtReturn := []

/-- A runtime global object. -/
structure GlobalObject where
  name : Str
  otype : Option Json := none
  description : Option Str := none

/-- The decoded `runtime-api.json` collections (each `?? []` in the code). -/
structure RuntimeDoc where
  classes : List RtClass := []
  concepts : List RtConcept := []
  events : List RtEvent := []
  defines : List RtDefine := []
  global_functions : List GlobalFunction := []
  global_objects : List GlobalObject := []

/-- A prototype or prototype-type property. -/
structure ProtoProperty where
  name : Str
  ptype : Option Json := none
  optional : Bool := false
  override : Bool := false
  description : Option Str := none
  examples : List Str := []
  order : Option Int := none

/-- A prototype. -/
structure Prototype where
  name : Str
  description : Option Str := none
  parent : Option Str := none
  properties : List ProtoProperty := []

/-- A prototype-stage type. -/
structure ProtoType where
  name : Str
  description : Option Str := none
  ttype : Option Json := none
  properties : List ProtoProperty := []

/-- The decoded `prototype-api.json` collections. -/
structure PrototypeDoc where
  prototypes : List Prototype := []
  types : List ProtoType := []
  defines : List RtDefine := []

/-- An auxiliary page.  `md` models the result of `htmlToMarkdown` on the
page's HTML source; the HTML-to-Markdown conversion itself is outside the
claims under verification, so the converted Markdown is taken as input. -/
structure AuxPage where
  base : Str
  md : Str

/-- One generation run's inputs: the detected version, the output directory
(`--out`, default `llm-docs`), the optional source documents, the auxiliary
pages, and the `--only` stage selection (all three by default). -/
structure GenInput where
  version : Str
  outDir : Str := str "llm-docs"
  runtimeDoc : Option RuntimeDoc := none
  prototypeDoc : Option PrototypeDoc := none
  auxPages : List AuxPage := []
  onlyRuntime : Bool := true
  onlyPrototype : Bool := true
  onlyAuxiliary : Bool := true

/-- `.slice().sort((a, b) => (a.order ?? 0) - (b.order ?? 0))`: a stable
ascending sort on the numeric `order` field. -/
def sortByOrder {α} (ord : α → Option Int) (l : List α) : List α :=
  l.mergeSort (fun a b => (ord a).getD 0 ≤ (ord b).getD 0)

/-- Split a string on runs of the characters accepted by `p`, dropping empty
pieces (models `split(/[-_]+/g)` followed by `filter(Boolean)`). -/
def splitOnP (p : Char → Bool) (s : Str) : List Str :=
  ((splitOnC '\x00' (s.map (fun c => if p c then '\x00' else c)))).filter (fun w => w ≠ [])

/-- `toTitleCaseFromSlug` (`tools/factorio-api-docs-to-llm.ts` lines 29-35). -/
def toTitleCaseFromSlug (slug : Str) : Str :=
  joinS (str " ") ((splitOnP (fun c => c = '-' ∨ c = '_') slug).map (fun w =>
    match w with
    | [] => []
    | c :: rest => c.toUpper :: rest))

/-- `auxiliaryTitle` (lines 37-41). -/
def auxiliaryTitle (base : Str) : Str :=
  if base = str "json-docs-runtime" then str "Runtime JSON Format"
  else if base = str "json-docs-prototype" then str "Prototype JSON Format"
  else toTitleCaseFromSlug base

/-- `stripLeadingDuplicateHeading` (lines 43-63): skip leading blank lines;
when the first non-blank line is exactly `## title` or `# title`, drop it and
the following blank lines and return the remainder re-trimmed with a final
newline; otherwise return the input unchanged. -/
def stripLeadingDuplicateHeading (md title : Str) : Str :=
  let t := trimS title
  let lines := splitLines (normalizeNewlines md)
  let rest := lines.dropWhile (fun l => trimS l = [])
  match rest with
  | l :: rest' =>
    if l = str "## " ++ t ∨ l = str "# " ++ t then
      trimS (joinLines (rest'.dropWhile (fun l => trimS l = []))) ++ str "\n"
    else md
  | [] => md

/-- `indexTitle` (lines 65-69). -/
def indexTitle (stageIsRuntime : Bool) (kind : Str) : Str :=
  (if stageIsRuntime then str "Runtime" else str "Prototype") ++ str " " ++
    toTitleCaseFromSlug kind

/-- `renderFrontmatter` (lines 154-157), with the entries already stringified
in object-insertion order. -/
def renderFrontmatter (entries : List (Str × Str)) : Str :=
  str "---\n" ++ joinC '\n' (entries.map (fun kv => kv.1 ++ str ": " ++ kv.2)) ++
    str "\n---\n"

/-- `renderSignature` (lines 217-224); parameters and returns in input
(unsorted) order, as at the call sites. -/
def renderSignature (name : Str) (parameters : List RtParameter)
    (returnValues : List RtReturn) : Str :=
  let params := parameters.map (fun p =>
    p.name ++ (if p.optional then str "?" else []) ++ str ": " ++ typeToStringU p.ptype)
  let rets := returnValues.map (fun r =>
    typeToStringU r.rtype ++ (if r.optional then str "?" else []))
  name ++ str "(" ++ joinS (str ", ") params ++ str ")" ++
    (if rets.isEmpty then [] else str " -> " ++ joinS (str ", ") rets)

/-- `mdSection` (lines 537-539). -/
def mdSection (title : Str) : Str := str "\n## " ++ title ++ str "\n"

/-- An item of `mdFieldList` (the `type` string is always supplied by the
callers, via `typeToString`). -/
structure FieldItem where
  name : Str
  ftype : Str
  optional : Bool
  description : Option Str

/-- `mdFieldList` (lines 574-579). -/
def mdFieldList (items : List FieldItem) : Str :=
  if items.isEmpty then []
  else
    joinC '\n' (items.map (fun i =>
      str "- `" ++ i.name ++ (if i.optional then str "?" else []) ++ str "`: `" ++
        i.ftype ++ str "`" ++
        (if jsTruthyStr i.description then str " — " ++ i.description.getD [] else [])))

/-! ## Catalog construction and the generation run

Output paths are produced with `path.posix.join` on clean segments, which for
this export is plain `/`-joining (no `.`/`..` segments are introduced by the
generator itself). -/

/-- `path.posix.join` on the clean segments used by the generator. -/
def pjoin (segs : List Str) : Str := joinC '/' segs

/-- The version output root relative to the working directory:
`<outDir>/<version>`. -/
def outVersionRel (inp : GenInput) : Str := inp.outDir ++ '/' :: inp.version

/-- `buildResolverMaps` (`tools/factorio-api-docs-to-llm.ts` lines 381-399):
each auxiliary page under all three stage prefixes, then the fixed overview
entries. -/
def buildResolverMaps (ovr : Str) (auxiliaryBasenames : List Str) : MapS ResolverEntry :=
  let m : MapS ResolverEntry := []
  let m := auxiliaryBasenames.foldl (fun m name =>
    let p : ResolverEntry := ⟨pjoin [ovr, str "auxiliary", name ++ str ".md"]⟩
    mset (mset (mset m (str "auxiliary:" ++ name) p) (str "runtime:" ++ name) p)
      (str "prototype:" ++ name) p) m
  let m := mset m (str "runtime:classes") ⟨pjoin [ovr, str "runtime", str "classes", str "index.md"]⟩
  let m := mset m (str "runtime:concepts") ⟨pjoin [ovr, str "runtime", str "concepts", str "index.md"]⟩
  let m := mset m (str "runtime:events") ⟨pjoin [ovr, str "runtime", str "events", str "index.md"]⟩
  let m := mset m (str "runtime:defines") ⟨pjoin [ovr, str "runtime", str "defines", str "index.md"]⟩
  let m := mset m (str "prototype:prototypes") ⟨pjoin [ovr, str "prototype", str "prototypes", str "index.md"]⟩
  let m := mset m (str "prototype:types") ⟨pjoin [ovr, str "prototype", str "types", str "index.md"]⟩
  let m := mset m (str "prototype:defines") ⟨pjoin [ovr, str "prototype", str "defines", str "index.md"]⟩
  m

/-- The fully populated resolver map (lines 474-489): the base maps plus one
entry per named symbol of each collection present in the source documents. -/
def populatedResolverMap (inp : GenInput) : MapS ResolverEntry :=
  let ovr := outVersionRel inp
  let m := buildResolverMaps ovr ((inp.auxPages.mergeSort
    (fun a b => strLeB a.base b.base)).map AuxPage.base)
  let m := match inp.runtimeDoc with
    | none => m
    | some rt =>
      let m := rt.classes.foldl (fun m c =>
        mset m (str "runtime:" ++ c.name)
          ⟨pjoin [ovr, str "runtime", str "classes", c.name ++ str ".md"]⟩) m
      let m := rt.concepts.foldl (fun m c =>
        mset m (str "runtime:" ++ c.name)
          ⟨pjoin [ovr, str "runtime", str "concepts", c.name ++ str ".md"]⟩) m
      let m := rt.events.foldl (fun m e =>
        mset m (str "runtime:" ++ e.name)
          ⟨pjoin [ovr, str "runtime", str "events", e.name ++ str ".md"]⟩) m
      let m := rt.defines.foldl (fun m d =>
        mset m (str "runtime:defines." ++ d.name)
          ⟨pjoin [ovr, str "runtime", str "defines", d.name ++ str ".md"]⟩) m
      let m := rt.global_functions.foldl (fun m f =>
        mset m (str "runtime:" ++ f.name)
          ⟨pjoin [ovr, str "runtime", str "global_functions", f.name ++ str ".md"]⟩) m
      let m := rt.global_objects.foldl (fun m o =>
        mset m (str "runtime:" ++ o.name)
          ⟨pjoin [ovr, str "runtime", str "global_objects", o.name ++ str ".md"]⟩) m
      m
  let m := match inp.prototypeDoc with
    | none => m
    | some pt =>
      let m := pt.prototypes.foldl (fun m p =>
        mset m (str "prototype:" ++ p.name)
          ⟨pjoin [ovr, str "prototype", str "prototypes", p.name ++ str ".md"]⟩) m
      let m := pt.types.foldl (fun m t =>
        mset m (str "prototype:" ++ t.name)
          ⟨pjoin [ovr, str "prototype", str "types", t.name ++ str ".md"]⟩) m
      let m := pt.defines.foldl (fun m d =>
        mset m (str "prototype:defines." ++ d.name)
          ⟨pjoin [ovr, str "prototype", str "defines", d.name ++ str ".md"]⟩) m
      m
  m

/-- The resolver used by one generation run. -/
def genResolve (inp : GenInput) : Str → Option ResolveResult :=
  makeResolve (populatedResolverMap inp)

/-- `resolverMap.get(key)!.relPath` at the render sites (the key was always
populated immediately before rendering; the default is never reached). -/
def lookupRel (inp : GenInput) (key : Str) : Str :=
  ((mget (populatedResolverMap inp) key).map ResolverEntry.relPath).getD []

/-- A chunk record as the generator writes it (`ChunkRecord`,
`tools/factorio-api-docs-to-llm.ts` lines 17-27; note the page-path field is
`relMarkdownPath`). -/
structure ChunkRecordG where
  id : Str
  version : Str
  stage : Str
  kind : Str
  name : Str
  member : Option Str := none
  relMarkdownPath : Option Str := none
  anchor : Option Str := none
  text : Str
deriving DecidableEq, Repr

/-- `writeChunk` (lines 514-520): when the record has a page path, rewrite
links in its text through both converters before emission. -/
def emitChunk (resolve : Str → Option ResolveResult) (rec : ChunkRecordG) : ChunkRecordG :=
  match rec.relMarkdownPath with
  | some rel =>
    { rec with
        text := convertSiteHtmlLinks (convertInternalLinks rec.text rel resolve) rel resolve }
  | none => rec

/-- The file content written by `writeSymbolMarkdown` (lines 522-535):
frontmatter, a blank line, then the body with links rewritten and trimmed,
and a final newline. -/
def writeSymbolMarkdownContent (inp : GenInput) (stage kind name relPath body srcName : Str) :
    Str :=
  let resolve := genResolve inp
  let convertedBody := convertSiteHtmlLinks (convertInternalLinks body relPath resolve)
    relPath resolve
  renderFrontmatter [(str "version", inp.version), (str "stage", stage),
    (str "kind", kind), (str "name", name), (str "source", srcName)] ++
    str "\n" ++ trimS convertedBody ++ str "\n"

/-! ## Renderer: per-family Markdown bodies and chunk records -/

/-- `a.read_type != null ? typeToString(a.read_type) : "unknown"`. -/
def attrReadType (a : RtAttribute) : Str :=
  match a.read_type with
  | some t => typeToString t
  | none => str "unknown"

/-- `a.write_type != null ? typeToString(a.write_type) : "unknown"`. -/
def attrWriteType (a : RtAttribute) : Str :=
  match a.write_type with
  | some t => typeToString t
  | none => str "unknown"

/-- One attribute sub-section of a class page (lines 633-640). -/
def classAttrSection (a : RtAttribute) : Str :=
  str "\n### " ++ a.name ++ str "\n\n" ++
    str "- Read: `" ++ attrReadType a ++ str "`\n" ++
    str "- Write: `" ++ attrWriteType a ++ str "`\n" ++
    str "- Optional: `" ++ boolStr a.optional ++ str "`\n\n" ++
    (if jsTruthyStr a.description then a.description.getD [] ++ str "\n" else [])

/-- The field list rendered for sorted parameters. -/
def paramFieldList (params : List RtParameter) : Str :=
  mdFieldList (params.map (fun p =>
    { name := p.name, optional := p.optional, ftype := typeToStringU p.ptype,
      description := p.description }))

/-- The bullet list rendered for sorted return values. -/
def returnsList (rvs : List RtReturn) : Str :=
  joinC '\n' (rvs.map (fun r =>
    str "- `" ++ typeToStringU r.rtype ++ (if r.optional then str "?" else []) ++ str "`" ++
      (if jsTruthyStr r.description then str " — " ++ r.description.getD [] else [])))

/-- One method sub-section of a class page (lines 659-674). -/
def classMethodSection (cname : Str) (m : RtMethod) : Str :=
  let sig := renderSignature (cname ++ '.' :: m.name) m.parameters m.return_values
  let params := sortByOrder RtParameter.order m.parameters
  let rvs := sortByOrder RtReturn.order m.return_values
  str "\n### " ++ m.name ++ str "\n\n" ++
    str "\n```lua\n" ++ sig ++ str "\n```\n\n" ++
    (if jsTruthyStr m.description then m.description.getD [] ++ str "\n\n" else []) ++
    (if params.isEmpty then []
      else mdSection (str "Parameters") ++ str "\n" ++ paramFieldList params ++ str "\n") ++
    (if rvs.isEmpty then []
      else mdSection (str "Returns") ++ str "\n" ++ returnsList rvs ++ str "\n")

/-- The Markdown body of one class page (lines 627-688). -/
def classMd (c : RtClass) : Str :=
  let attrs := sortByOrder RtAttribute.order c.attributes
  let methods := sortByOrder RtMethod.order c.methods
  str "# " ++ c.name ++ str "\n\n" ++ c.description.getD [] ++ str "\n" ++
    (if jsTruthyStr c.parent then
      mdSection (str "Parent") ++ str "\n- `" ++ c.parent.getD [] ++ str "`\n"
    else []) ++
    (if attrs.isEmpty then []
      else mdSection (str "Attributes") ++ attrs.flatMap classAttrSection) ++
    (if methods.isEmpty then []
      else mdSection (str "Methods") ++ methods.flatMap (classMethodSection c.name))

/-- The Markdown body of one concept page (lines 705-706). -/
def conceptMd (c : RtConcept) : Str :=
  str "# " ++ c.name ++ str "\n\n" ++ c.description.getD [] ++ str "\n" ++
    (match c.ctype with
      | some t =>
        if jsTruthy t then mdSection (str "Type") ++ str "\n`" ++ typeToString t ++ str "`\n"
        else []
      | none => [])

/-- The Markdown body of one event page (lines 722-732). -/
def eventMd (e : RtEvent) : Str :=
  let data := sortByOrder RtParameter.order e.data
  str "# " ++ e.name ++ str "\n\n" ++ e.description.getD [] ++ str "\n" ++
    (if data.isEmpty then []
      else mdSection (str "Event Data") ++ paramFieldList data ++ str "\n") ++
    (if e.examples.isEmpty then []
      else mdSection (str "Examples") ++ joinS (str "\n\n") e.examples ++ str "\n")

/-- One value sub-section of a defines page (line 753). -/
def defineValueSection (v : DefineValue) : Str :=
  str "\n### " ++ v.name ++ str "\n\n" ++ v.description.getD [] ++ str "\n"

/-- The Markdown body of one defines page (lines 748-766). -/
def defineMd (d : RtDefine) : Str :=
  let values := sortByOrder DefineValue.order d.values
  str "# defines." ++ d.name ++ str "\n\n" ++ d.description.getD [] ++ str "\n" ++
    (if values.isEmpty then []
      else mdSection (str "Values") ++ values.flatMap defineValueSection)

/-- The Markdown body of one global-function page (lines 782-793). -/
def globalFunctionMd (f : GlobalFunction) : Str :=
  let sig := renderSignature f.name f.parameters f.return_values
  let params := sortByOrder RtParameter.order f.parameters
  let rvs := sortByOrder RtReturn.order f.return_values
  str "# " ++ f.name ++ str "\n\n" ++ f.description.getD [] ++ str "\n\n```lua\n" ++ sig ++
    str "\n```\n" ++
    (if params.isEmpty then []
      else mdSection (str "Parameters") ++ str "\n" ++ paramFieldList params ++ str "\n") ++
    (if rvs.isEmpty then []
      else mdSection (str "Returns") ++ str "\n" ++ returnsList rvs ++ str "\n")

/-- The Markdown body of one global-object page (line 810). -/
def globalObjectMd (o : GlobalObject) : Str :=
  str "# " ++ o.name ++ str "\n\nType: `" ++ typeToStringU o.otype ++ str "`\n\n" ++
    o.description.getD [] ++ str "\n"

/-- One property sub-section of a prototype page (lines 850-858). -/
def protoPropSection (p : ProtoProperty) : Str :=
  str "\n### " ++ p.name ++ str "\n\n" ++
    str "- Type: `" ++ typeToStringU p.ptype ++ str "`\n" ++
    str "- Optional: `" ++ boolStr p.optional ++ str "`\n" ++
    str "- Override: `" ++ boolStr p.override ++ str "`\n\n" ++
    (if jsTruthyStr p.description then p.description.getD [] ++ str "\n\n" else []) ++
    (if p.examples.isEmpty then []
      else mdSection (str "Examples") ++ str "\n" ++ joinS (str "\n\n") p.examples ++ str "\n")

/-- The Markdown body of one prototype page (lines 844-872). -/
def prototypeMd (p : Prototype) : Str :=
  let props := sortByOrder ProtoProperty.order p.properties
  str "# " ++ p.name ++ str "\n\n" ++ p.description.getD [] ++ str "\n" ++
    (if jsTruthyStr p.parent then
      mdSection (str "Parent") ++ str "\n- `" ++ p.parent.getD [] ++ str "`\n"
    else []) ++
    (if props.isEmpty then []
      else mdSection (str "Properties") ++ props.flatMap protoPropSection)

/-- One property sub-section of a type page (lines 895-900). -/
def typePropSection (p : ProtoProperty) : Str :=
  str "\n### " ++ p.name ++ str "\n\n" ++
    str "- Type: `" ++ typeToStringU p.ptype ++ str "`\n" ++
    str "- Optional: `" ++ boolStr p.optional ++ str "`\n\n" ++
    (if jsTruthyStr p.description then p.description.getD [] ++ str "\n\n" else []) ++
    (if p.examples.isEmpty then []
      else mdSection (str "Examples") ++ str "\n" ++ joinS (str "\n\n") p.examples ++ str "\n")

/-- The Markdown body of one type page (lines 889-913). -/
def protoTypeMd (t : ProtoType) : Str :=
  let props := sortByOrder ProtoProperty.order t.properties
  str "# " ++ t.name ++ str "\n\n" ++ t.description.getD [] ++ str "\n" ++
    (match t.ttype with
      | some ty =>
        if jsTruthy ty then mdSection (str "Type") ++ str "\n`" ++ typeToString ty ++ str "`\n"
        else []
      | none => []) ++
    (if props.isEmpty then []
      else mdSection (str "Properties") ++ props.flatMap typePropSection)

/-- A `{name, description}` item of an index page. -/
structure NamedItem where
  name : Str
  description : Option Str

/-- The Markdown body of one index page (`writeIndex`, lines 541-571):
alphabetically sorted link rows with the first description line. -/
def indexMd (title : Str) (items : List NamedItem) : Str :=
  let rows := joinC '\n'
    ((items.mergeSort (fun a b => strLeB a.name b.name)).map (fun it =>
      let desc := trimS (splitLines (it.description.getD [])).headI
      str "- [`" ++ it.name ++ str "`](./" ++ it.name ++ str ".md)" ++
        (if desc ≠ [] then str " — " ++ desc else [])))
  str "# " ++ title ++ str "\n\n" ++ rows ++ str "\n"

/-! ## Chunk emission and page writes, in source order

`emittedChunks` lists every `writeChunk` call of one generation run, in
emission order; `writtenPages` lists every Markdown file write
(`writeSymbolMarkdown`) as `(relPath, content)`, in write order.  The version
root also receives `chunks.jsonl`, optionally the two copied source JSON
documents, `README.md`, `SEARCH.md` and `manifest.json`
(`topLevelOutputNames` below); those file names contain no `/` below the
version root and so never coincide with a Markdown page path. -/

/-- The attribute chunk of a runtime class (lines 642-652). -/
def classAttrChunk (inp : GenInput) (c : RtClass) (outRel : Str) (a : RtAttribute) :
    ChunkRecordG where
  id := inp.version ++ str "/runtime/class/" ++ c.name ++ '#' :: a.name
  version := inp.version
  stage := str "runtime"
  kind := str "class_attribute"
  name := c.name
  member := some a.name
  relMarkdownPath := some outRel
  anchor := some a.name
  text := str "# " ++ c.name ++ '.' :: a.name ++ str " (attribute)\n\n- Read: `" ++
    attrReadType a ++ str "`\n- Write: `" ++ attrWriteType a ++ str "`\n- Optional: `" ++
    boolStr a.optional ++ str "`\n\n" ++ a.description.getD [] ++ str "\n"

/-- The method chunk of a runtime class (lines 676-686). -/
def classMethodChunk (inp : GenInput) (c : RtClass) (outRel : Str) (m : RtMethod) :
    ChunkRecordG where
  id := inp.version ++ str "/runtime/class/" ++ c.name ++ '#' :: m.name
  version := inp.version
  stage := str "runtime"
  kind := str "class_method"
  name := c.name
  member := some m.name
  relMarkdownPath := some outRel
  anchor := some m.name
  text := str "# " ++ c.name ++ '.' :: m.name ++ str " (method)\n\n```lua\n" ++
    renderSignature (c.name ++ '.' :: m.name) m.parameters m.return_values ++
    str "\n```\n\n" ++ m.description.getD [] ++ str "\n"

/-- The chunks of one runtime class: sorted attribute chunks, sorted method
chunks, then the class root chunk (lines 623-699). -/
def classChunks (inp : GenInput) (c : RtClass) : List ChunkRecordG :=
  let outRel := lookupRel inp (str "runtime:" ++ c.name)
  ((sortByOrder RtAttribute.order c.attributes).map (classAttrChunk inp c outRel)) ++
    ((sortByOrder RtMethod.order c.methods).map (classMethodChunk inp c outRel)) ++
    [{ id := inp.version ++ str "/runtime/class/" ++ c.name
       version := inp.version
       stage := str "runtime"
       kind := str "class"
       name := c.name
       relMarkdownPath := some outRel
       text := str "# " ++ c.name ++ str "\n\n" ++ c.description.getD [] ++ str "\n" }]

/-- The chunk of one runtime concept (lines 708-716). -/
def conceptChunk (inp : GenInput) (c : RtConcept) : ChunkRecordG where
  id := inp.version ++ str "/runtime/concept/" ++ c.name
  version := inp.version
  stage := str "runtime"
  kind := str "concept"
  name := c.name
  relMarkdownPath := some (lookupRel inp (str "runtime:" ++ c.name))
  text := conceptMd c

/-- The chunk of one runtime event (lines 734-742). -/
def eventChunk (inp : GenInput) (e : RtEvent) : ChunkRecordG where
  id := inp.version ++ str "/runtime/event/" ++ e.name
  version := inp.version
  stage := str "runtime"
  kind := str "event"
  name := e.name
  relMarkdownPath := some (lookupRel inp (str "runtime:" ++ e.name))
  text := eventMd e

/-- The value chunk of a defines group (lines 754-764), parameterized over
the stage segment of the id (`runtime` or `prototype`). -/
def defineValueChunk (inp : GenInput) (stageStr : Str) (d : RtDefine) (outRel : Str)
    (v : DefineValue) : ChunkRecordG where
  id := inp.version ++ '/' :: stageStr ++ str "/define/" ++ d.name ++ '#' :: v.name
  version := inp.version
  stage := stageStr
  kind := str "define_value"
  name := str "defines." ++ d.name
  member := some v.name
  relMarkdownPath := some outRel
  anchor := some v.name
  text := str "# defines." ++ d.name ++ '.' :: v.name ++ str "\n\n" ++
    v.description.getD [] ++ str "\n"

/-- The chunks of one defines group: sorted value chunks, then the group root
chunk (lines 745-777 for runtime, 928-959 for prototype). -/
def defineChunks (inp : GenInput) (stageStr : Str) (outRel : Str) (d : RtDefine) :
    List ChunkRecordG :=
  ((sortByOrder DefineValue.order d.values).map (defineValueChunk inp stageStr d outRel)) ++
    [{ id := inp.version ++ '/' :: stageStr ++ str "/define/" ++ d.name
       version := inp.version
       stage := stageStr
       kind := str "define"
       name := str "defines." ++ d.name
       relMarkdownPath := some outRel
       text := defineMd d }]

/-- The chunk of one global function (lines 795-803). -/
def globalFunctionChunk (inp : GenInput) (f : GlobalFunction) : ChunkRecordG where
  id := inp.version ++ str "/runtime/global_function/" ++ f.name
  version := inp.version
  stage := str "runtime"
  kind := str "global_function"
  name := f.name
  relMarkdownPath := some (lookupRel inp (str "runtime:" ++ f.name))
  text := globalFunctionMd f

/-- The chunk of one global object (lines 812-820). -/
def globalObjectChunk (inp : GenInput) (o : GlobalObject) : ChunkRecordG where
  id := inp.version ++ str "/runtime/global_object/" ++ o.name
  version := inp.version
  stage := str "runtime"
  kind := str "global_object"
  name := o.name
  relMarkdownPath := some (lookupRel inp (str "runtime:" ++ o.name))
  text := globalObjectMd o

/-- The property chunk of a prototype (lines 860-870). -/
def protoPropChunk (inp : GenInput) (p : Prototype) (outRel : Str) (prop : ProtoProperty) :
    ChunkRecordG where
  id := inp.version ++ str "/prototype/prototype/" ++ p.name ++ '#' :: prop.name
  version := inp.version
  stage := str "prototype"
  kind := str "prototype_property"
  name := p.name
  member := some prop.name
  relMarkdownPath := some outRel
  anchor := some prop.name
  text := str "# " ++ p.name ++ '.' :: prop.name ++ str " (property)\n\n- Type: `" ++
    typeToStringU prop.ptype ++ str "`\n- Optional: `" ++ boolStr prop.optional ++
    str "`\n\n" ++ prop.description.getD [] ++ str "\n"

/-- The chunks of one prototype: sorted property chunks, then the root chunk
(lines 841-884). -/
def prototypeChunksOf (inp : GenInput) (p : Prototype) : List ChunkRecordG :=
  let outRel := lookupRel inp (str "prototype:" ++ p.name)
  ((sortByOrder ProtoProperty.order p.properties).map (protoPropChunk inp p outRel)) ++
    [{ id := inp.version ++ str "/prototype/prototype/" ++ p.name
       version := inp.version
       stage := str "prototype"
       kind := str "prototype"
       name := p.name
       relMarkdownPath := some outRel
       text := str "# " ++ p.name ++ str "\n\n" ++ p.description.getD [] ++ str "\n" }]

/-- The property chunk of a prototype type (lines 902-912). -/
def typePropChunk (inp : GenInput) (t : ProtoType) (outRel : Str) (prop : ProtoProperty) :
    ChunkRecordG where
  id := inp.version ++ str "/prototype/type/" ++ t.name ++ '#' :: prop.name
  version := inp.version
  stage := str "prototype"
  kind := str "type_property"
  name := t.name
  member := some prop.name
  relMarkdownPath := some outRel
  anchor := some prop.name
  text := str "# " ++ t.name ++ '.' :: prop.name ++ str " (property)\n\n- Type: `" ++
    typeToStringU prop.ptype ++ str "`\n- Optional: `" ++ boolStr prop.optional ++
    str "`\n\n" ++ prop.description.getD [] ++ str "\n"

/-- The chunks of one prototype type: sorted property chunks, then the root
chunk (lines 886-926; the type root chunk carries the full page body). -/
def typeChunksOf (inp : GenInput) (t : ProtoType) : List ChunkRecordG :=
  let outRel := lookupRel inp (str "prototype:" ++ t.name)
  ((sortByOrder ProtoProperty.order t.properties).map (typePropChunk inp t outRel)) ++
    [{ id := inp.version ++ str "/prototype/type/" ++ t.name
       version := inp.version
       stage := str "prototype"
       kind := str "type"
       name := t.name
       relMarkdownPath := some outRel
       text := protoTypeMd t }]

/-- The index chunk written by `writeIndex` (lines 563-571). -/
def indexChunk (inp : GenInput) (stageStr kind rel title md : Str) : ChunkRecordG where
  id := inp.version ++ '/' :: stageStr ++ '/' :: kind ++ str "/index"
  version := inp.version
  stage := stageStr
  kind := kind ++ str "_index"
  name := title
  relMarkdownPath := some rel
  text := md

/-- The relPath of an index page (lines 546-549). -/
def indexRel (inp : GenInput) (stageStr kind : Str) : Str :=
  pjoin [outVersionRel inp, stageStr, kind, str "index.md"]

/-- The auxiliary pages in the order the generator visits them (the directory
listing is sorted by base name, line 471). -/
def auxPagesSorted (inp : GenInput) : List AuxPage :=
  inp.auxPages.mergeSort (fun a b => strLeB a.base b.base)

/-- The body written for one auxiliary page (lines 582-588):
`# <title>` plus the converted Markdown with a duplicated leading heading
stripped. -/
def auxBody (p : AuxPage) : Str :=
  let title := auxiliaryTitle p.base
  str "# " ++ title ++ str "\n\n" ++ stripLeadingDuplicateHeading p.md title

/-- The chunk of one auxiliary page (lines 589-597). -/
def auxChunk (inp : GenInput) (p : AuxPage) : ChunkRecordG where
  id := inp.version ++ str "/auxiliary/" ++ p.base
  version := inp.version
  stage := str "auxiliary"
  kind := str "auxiliary"
  name := p.base
  relMarkdownPath := some (pjoin [outVersionRel inp, str "auxiliary", p.base ++ str ".md"])
  text := auxBody p

/-- All chunk records of the runtime block (lines 601-822), before link
conversion. -/
def runtimeRawChunks (inp : GenInput) (rt : RuntimeDoc) : List ChunkRecordG :=
  [indexChunk inp (str "runtime") (str "classes")
      (indexRel inp (str "runtime") (str "classes"))
      (indexTitle true (str "classes"))
      (indexMd (indexTitle true (str "classes"))
        (rt.classes.map (fun c => ⟨c.name, c.description⟩))),
    indexChunk inp (str "runtime") (str "concepts")
      (indexRel inp (str "runtime") (str "concepts"))
      (indexTitle true (str "concepts"))
      (indexMd (indexTitle true (str "concepts"))
        (rt.concepts.map (fun c => ⟨c.name, c.description⟩))),
    indexChunk inp (str "runtime") (str "events")
      (indexRel inp (str "runtime") (str "events"))
      (indexTitle true (str "events"))
      (indexMd (indexTitle true (str "events"))
        (rt.events.map (fun e => ⟨e.name, e.description⟩))),
    indexChunk inp (str "runtime") (str "defines")
      (indexRel inp (str "runtime") (str "defines"))
      (indexTitle true (str "defines"))
      (indexMd (indexTitle true (str "defines"))
        (rt.defines.map (fun d => ⟨d.name, d.description⟩)))] ++
  rt.classes.flatMap (classChunks inp) ++
  rt.concepts.map (conceptChunk inp) ++
  rt.events.map (eventChunk inp) ++
  rt.defines.flatMap (fun d =>
    defineChunks inp (str "runtime") (lookupRel inp (str "runtime:defines." ++ d.name)) d) ++
  rt.global_functions.map (globalFunctionChunk inp) ++
  rt.global_objects.map (globalObjectChunk inp)

/-- All chunk records of the prototype block (lines 824-961), before link
conversion. -/
def prototypeRawChunks (inp : GenInput) (pt : PrototypeDoc) : List ChunkRecordG :=
  [indexChunk inp (str "prototype") (str "prototypes")
      (indexRel inp (str "prototype") (str "prototypes"))
      (indexTitle false (str "prototypes"))
      (indexMd (indexTitle false (str "prototypes"))
        (pt.prototypes.map (fun p => ⟨p.name, p.description⟩))),
    indexChunk inp (str "prototype") (str "types")
      (indexRel inp (str "prototype") (str "types"))
      (indexTitle false (str "types"))
      (indexMd (indexTitle false (str "types"))
        (pt.types.map (fun t => ⟨t.name, t.description⟩))),
    indexChunk inp (str "prototype") (str "defines")
      (indexRel inp (str "prototype") (str "defines"))
      (indexTitle false (str "defines"))
      (indexMd (indexTitle false (str "defines"))
        (pt.defines.map (fun d => ⟨d.name, d.description⟩)))] ++
  pt.prototypes.flatMap (prototypeChunksOf inp) ++
  pt.types.flatMap (typeChunksOf inp) ++
  pt.defines.flatMap (fun d =>
    defineChunks inp (str "prototype") (lookupRel inp (str "prototype:defines." ++ d.name)) d)

/-- Every chunk record of one generation run, in emission order, after
`writeChunk`'s link conversion. -/
def emittedChunks (inp : GenInput) : List ChunkRecordG :=
  let resolve := genResolve inp
  ((if inp.onlyAuxiliary then (auxPagesSorted inp).map (auxChunk inp) else []) ++
    (match inp.runtimeDoc with
      | some rt => if inp.onlyRuntime then runtimeRawChunks inp rt else []
      | none => []) ++
    (match inp.prototypeDoc with
      | some pt => if inp.onlyPrototype then prototypeRawChunks inp pt else []
      | none => [])).map (emitChunk resolve)

/-- The ids of all emitted chunk records, in emission order. -/
def allChunkIds (inp : GenInput) : List Str := (emittedChunks inp).map ChunkRecordG.id

/-- One `writeSymbolMarkdown` write: `(relPath, stored content)`. -/
def pageWrite (inp : GenInput) (stage kind name relPath body srcName : Str) : Str × Str :=
  (relPath, writeSymbolMarkdownContent inp stage kind name relPath body srcName)

/-- The Markdown writes of the auxiliary block (lines 581-599), in order. -/
def auxPageWrites (inp : GenInput) : List (Str × Str) :=
  (auxPagesSorted inp).map (fun p =>
    pageWrite inp (str "auxiliary") (str "auxiliary") p.base
      (pjoin [outVersionRel inp, str "auxiliary", p.base ++ str ".md"])
      (auxBody p) (str "auxiliary/" ++ p.base ++ str ".html"))

/-- The Markdown write of one index page (`writeIndex`, lines 541-562). -/
def indexPageWrite (inp : GenInput) (stageIsRuntime : Bool) (kind : Str)
    (items : List NamedItem) : Str × Str :=
  let stageStr := if stageIsRuntime then str "runtime" else str "prototype"
  let title := indexTitle stageIsRuntime kind
  pageWrite inp stageStr (kind ++ str "_index") title (indexRel inp stageStr kind)
    (indexMd title items)
    (if stageIsRuntime then str "runtime-api.json" else str "prototype-api.json")

/-- The Markdown writes of the runtime block (lines 601-822), in order. -/
def runtimePageWrites (inp : GenInput) (rt : RuntimeDoc) : List (Str × Str) :=
  [indexPageWrite inp true (str "classes") (rt.classes.map (fun c => ⟨c.name, c.description⟩)),
    indexPageWrite inp true (str "concepts") (rt.concepts.map (fun c => ⟨c.name, c.description⟩)),
    indexPageWrite inp true (str "events") (rt.events.map (fun e => ⟨e.name, e.description⟩)),
    indexPageWrite inp true (str "defines") (rt.defines.map (fun d => ⟨d.name, d.description⟩))] ++
  rt.classes.map (fun c =>
    pageWrite inp (str "runtime") (str "class") c.name
      (lookupRel inp (str "runtime:" ++ c.name)) (classMd c) (str "runtime-api.json")) ++
  rt.concepts.map (fun c =>
    pageWrite inp (str "runtime") (str "concept") c.name
      (lookupRel inp (str "runtime:" ++ c.name)) (conceptMd c) (str "runtime-api.json")) ++
  rt.events.map (fun e =>
    pageWrite inp (str "runtime") (str "event") e.name
      (lookupRel inp (str "runtime:" ++ e.name)) (eventMd e) (str "runtime-api.json")) ++
  rt.defines.map (fun d =>
    pageWrite inp (str "runtime") (str "define") d.name
      (lookupRel inp (str "runtime:defines." ++ d.name)) (defineMd d)
      (str "runtime-api.json")) ++
  rt.global_functions.map (fun f =>
    pageWrite inp (str "runtime") (str "global_function") f.name
      (lookupRel inp (str "runtime:" ++ f.name)) (globalFunctionMd f)
      (str "runtime-api.json")) ++
  rt.global_objects.map (fun o =>
    pageWrite inp (str "runtime") (str "global_object") o.name
      (lookupRel inp (str "runtime:" ++ o.name)) (globalObjectMd o)
      (str "runtime-api.json"))

/-- The Markdown writes of the prototype block (lines 824-961), in order. -/
def prototypePageWrites (inp : GenInput) (pt : PrototypeDoc) : List (Str × Str) :=
  [indexPageWrite inp false (str "prototypes")
      (pt.prototypes.map (fun p => ⟨p.name, p.description⟩)),
    indexPageWrite inp false (str "types") (pt.types.map (fun t => ⟨t.name, t.description⟩)),
    indexPageWrite inp false (str "defines") (pt.defines.map (fun d => ⟨d.name, d.description⟩))] ++
  pt.prototypes.map (fun p =>
    pageWrite inp (str "prototype") (str "prototype") p.name
      (lookupRel inp (str "prototype:" ++ p.name)) (prototypeMd p)
      (str "prototype-api.json")) ++
  pt.types.map (fun t =>
    pageWrite inp (str "prototype") (str "type") t.name
      (lookupRel inp (str "prototype:" ++ t.name)) (protoTypeMd t)
      (str "prototype-api.json")) ++
  pt.defines.map (fun d =>
    pageWrite inp (str "prototype") (str "define") d.name
      (lookupRel inp (str "prototype:defines." ++ d.name)) (defineMd d)
      (str "prototype-api.json"))

/-- Every Markdown page write of one generation run, in write order. -/
def writtenPages (inp : GenInput) : List (Str × Str) :=
  (if inp.onlyAuxiliary then auxPageWrites inp else []) ++
    (match inp.runtimeDoc with
      | some rt => if inp.onlyRuntime then runtimePageWrites inp rt else []
      | none => []) ++
    (match inp.prototypeDoc with
      | some pt => if inp.onlyPrototype then prototypePageWrites inp pt else []
      | none => [])

/-- The content stored at a path after all writes: the last write wins. -/
def storedAt (writes : List (Str × Str)) (p : Str) : Option Str :=
  (List.find? (fun w => w.1 = p) writes.reverse).map Prod.snd

/-- The names of the files `main` writes directly into the version output
directory, in write order: the chunk stream opened at line 495-497, the two
copied source documents (lines 971-984, when present), `README.md`
(line 1009), `SEARCH.md` (line 1063) and `manifest.json` (line 1065). -/
def topLevelOutputNames (inp : GenInput) : List Str :=
  [str "chunks.jsonl"] ++
    (if inp.runtimeDoc.isSome then [str "runtime-api.json"] else []) ++
    (if inp.prototypeDoc.isSome then [str "prototype-api.json"] else []) ++
    [str "README.md", str "SEARCH.md", str "manifest.json"]

/-! ## Claim-side (specification) definitions

These definitions restate, in the words of the specification, the properties
the claims assert; the theorems below compare them with the translated
code. -/

/-- Split at the first `#`: the part before it and, when present, the part
after it. -/
def splitHashFirst (s : Str) : Str × Option Str :=
  match indexOfC s '#' with
  | none => (s, none)
  | some i => (s.take i, some (s.drop (i + 1)))

/-- The structural key of a chunk id below the version prefix: the leading
path segments and the last segment split at its first `#` into name and
member. -/
def keyOfTail (t : Str) : List Str × (Str × Option Str) :=
  let parts := splitOnC '/' t
  (parts.dropLast, splitHashFirst (parts.getLastD []))

/-- The structural key of a full chunk id of version `v`. -/
def idKey (v id : Str) : List Str × (Str × Option Str) :=
  keyOfTail (id.drop (v.length + 1))

/-- A name that embeds unambiguously into the id scheme: free of the two id
separators `/` and `#`. -/
def noSlashHash (s : Str) : Bool := ¬ s.contains '/' ∧ ¬ s.contains '#'

/-- Well-formedness of the runtime document for id uniqueness: separator-free
names, distinct names per collection, and per symbol distinct member names
(for a class, across its attributes and methods together). -/
def cleanRtDoc (rt : RuntimeDoc) : Prop :=
  ((rt.classes.map RtClass.name).Nodup ∧
    ∀ c ∈ rt.classes, noSlashHash c.name ∧
      ((c.attributes.map RtAttribute.name) ++ (c.methods.map RtMethod.name)).Nodup ∧
      (∀ a ∈ c.attributes, noSlashHash a.name) ∧
      (∀ m ∈ c.methods, noSlashHash m.name)) ∧
  ((rt.concepts.map RtConcept.name).Nodup ∧ ∀ c ∈ rt.concepts, noSlashHash c.name) ∧
  ((rt.events.map RtEvent.name).Nodup ∧ ∀ e ∈ rt.events, noSlashHash e.name) ∧
  ((rt.defines.map RtDefine.name).Nodup ∧
    ∀ d ∈ rt.defines, noSlashHash d.name ∧
      (d.values.map DefineValue.name).Nodup ∧
      ∀ v ∈ d.values, noSlashHash v.name) ∧
  ((rt.global_functions.map GlobalFunction.name).Nodup ∧
    ∀ f ∈ rt.global_functions, noSlashHash f.name) ∧
  ((rt.global_objects.map GlobalObject.name).Nodup ∧
    ∀ o ∈ rt.global_objects, noSlashHash o.name)

/-- Well-formedness of the prototype document for id uniqueness. -/
def cleanPtDoc (pt : PrototypeDoc) : Prop :=
  ((pt.prototypes.map Prototype.name).Nodup ∧
    ∀ p ∈ pt.prototypes, noSlashHash p.name ∧
      (p.properties.map ProtoProperty.name).Nodup ∧
      ∀ pr ∈ p.properties, noSlashHash pr.name) ∧
  ((pt.types.map ProtoType.name).Nodup ∧
    ∀ t ∈ pt.types, noSlashHash t.name ∧
      (t.properties.map ProtoProperty.name).Nodup ∧
      ∀ pr ∈ t.properties, noSlashHash pr.name) ∧
  ((pt.defines.map RtDefine.name).Nodup ∧
    ∀ d ∈ pt.defines, noSlashHash d.name ∧
      (d.values.map DefineValue.name).Nodup ∧
      ∀ v ∈ d.values, noSlashHash v.name)

/-- Well-formedness of a run's inputs for id uniqueness. -/
def CleanGen (inp : GenInput) : Prop :=
  ((inp.auxPages.map AuxPage.base).Nodup ∧ ∀ p ∈ inp.auxPages, noSlashHash p.base) ∧
  (∀ rt, inp.runtimeDoc = some rt → cleanRtDoc rt) ∧
  (∀ pt, inp.prototypeDoc = some pt → cleanPtDoc pt)

/-- A member name that renders as a findable Markdown heading and survives
link conversion: no line breaks, no link-delimiter brackets, and not blank
after trimming. -/
def cleanMemberName (s : Str) : Bool :=
  ¬ s.contains '\n' ∧ ¬ s.contains '\r' ∧ ¬ s.contains '[' ∧ ¬ s.contains ']' ∧
    trimS s ≠ []

/-- A page body free of `[`, on which both link converters act as the
identity. -/
def noBracket (s : Str) : Bool := ¬ s.contains '['

/-- Every span a single-replacement matcher fires on inside `s` consumes
newline-free text: no link of the page crosses a line break. -/
def singleLineSpans (try1 : Str → Option (Str × Nat)) (s : Str) : Prop :=
  ∀ i r k, try1 (s.drop i) = some (r, k) → '\n' ∉ (s.drop i).take k

/-- Every span a single-replacement matcher fires on inside `s` either copies
the consumed text, consumes newline-free text, or consumes a
`[label]...`-shaped span whose replacement keeps `[label` verbatim and whose
remainder past the label is newline-free. -/
def SpanOK (try1 : Str → Option (Str × Nat)) (s : Str) : Prop :=
  ∀ i r k, try1 (s.drop i) = some (r, k) →
    r = (s.drop i).take k ∨
    '\n' ∉ (s.drop i).take k ∨
    ∃ label t1 t2, (s.drop i).take k = ('[' :: label) ++ ']' :: t1 ∧
      r = ('[' :: label) ++ t2 ∧ '\n' ∉ (']' :: t1 : Str)

/-- The hypotheses of the amended anchor-extraction claim: every member that
receives an anchored chunk has a heading-safe bracket-free name, no internal
link of the five anchored page families crosses a line break, and no two
Markdown writes share a path. -/
def AnchorsWF (inp : GenInput) : Prop :=
  (∀ rt, inp.runtimeDoc = some rt →
    (∀ c ∈ rt.classes,
      singleLineSpans (tryInternalLink (genResolve inp)
        (lookupRel inp (str "runtime:" ++ c.name))) (classMd c) ∧
      (∀ a ∈ c.attributes, cleanMemberName a.name) ∧
      (∀ m ∈ c.methods, cleanMemberName m.name)) ∧
    (∀ d ∈ rt.defines,
      singleLineSpans (tryInternalLink (genResolve inp)
        (lookupRel inp (str "runtime:defines." ++ d.name))) (defineMd d) ∧
      ∀ v ∈ d.values, cleanMemberName v.name)) ∧
  (∀ pt, inp.prototypeDoc = some pt →
    (∀ p ∈ pt.prototypes,
      singleLineSpans (tryInternalLink (genResolve inp)
        (lookupRel inp (str "prototype:" ++ p.name))) (prototypeMd p) ∧
      ∀ pr ∈ p.properties, cleanMemberName pr.name) ∧
    (∀ t ∈ pt.types,
      singleLineSpans (tryInternalLink (genResolve inp)
        (lookupRel inp (str "prototype:" ++ t.name))) (protoTypeMd t) ∧
      ∀ pr ∈ t.properties, cleanMemberName pr.name) ∧
    (∀ d ∈ pt.defines,
      singleLineSpans (tryInternalLink (genResolve inp)
        (lookupRel inp (str "prototype:defines." ++ d.name))) (defineMd d) ∧
      ∀ v ∈ d.values, cleanMemberName v.name)) ∧
  ((writtenPages inp).map Prod.fst).Nodup

/-- The slug the specification assigns to the heading at line index `i`:
the base slug when no earlier heading shares the base, otherwise the base
with a numeric suffix counting the earlier occurrences. -/
def specSlugAt (lines : List Str) (i : Nat) : Str :=
  match (lines.get? i).bind parseHeading with
  | none => []
  | some lh =>
    let base := githubSlugBase lh.2
    let k := (((lines.take i).filterMap parseHeading).map
      (fun p => githubSlugBase p.2)).count base
    if base = [] then []
    else if k = 0 then base else base ++ '-' :: natToStr k

/-- The specification's matching relation: the line at `i` is a heading whose
text equals the anchor or whose assigned slug equals the anchor. -/
def specMatches (anchorT : Str) (lines : List Str) (i : Nat) : Prop :=
  ∃ lv h, (lines.get? i).bind parseHeading = some (lv, h) ∧
    (h = anchorT ∨ specSlugAt lines i = anchorT)

/-- The section the specification assigns to a matched heading at index `i`
of level `lv`: from the heading line up to (but not including) the next
heading of level at most `lv`, or the end of the page. -/
def specSection (lines : List Str) (i lv : Nat) : List Str :=
  (lines.drop i).take 1 ++
    (lines.drop (i + 1)).takeWhile (fun l =>
      match parseHeadingLoose l with
      | some level => ¬ (level ≤ lv)
      | none => true)

/-- The snippet as the claim words it: computed on the whitespace-collapsed
text around the first occurrence of the query in that collapsed text, up to
60 characters before it and `queryLength + 120` after it, with an ellipsis on
each truncated side; without an occurrence, the first 140 characters of the
collapsed text. -/
def snippetPerClaim (q : Str) (r : ChunkRecordS) : Str :=
  let clean := trimS (collapseWs r.text)
  match indexOfSub (toLowerS clean) q with
  | some i => makeSnippet r.text i q.length
  | none => (collapseWs r.text).take 140

/-- `needle` occurs in `haystack` at position `i`. -/
def occursAt (haystack needle : Str) (i : Nat) : Prop :=
  needle.isPrefixOf (haystack.drop i) = true

/-- The numeric components of a dotted version name. -/
def verParts (s : Str) : List Nat := (splitOnC '.' s).map digitsVal

/-- Component-wise numeric comparison of version component lists, padding the
shorter list with zeros. -/
def numListLe : List Nat → List Nat → Bool
  | [], [] => true
  | [], b :: bs => if b = 0 then numListLe [] bs else true
  | a :: as, [] => if a = 0 then numListLe as [] else false
  | a :: as, b :: bs => if a = b then numListLe as bs else a < b

/-- The claim's ordering on version names: numeric comparison of the dotted
components, not lexicographic string order. -/
def specVerLe (a b : Str) : Prop := numListLe (verParts a) (verParts b) = true

/-! ## Concrete inputs used by counterexamples and witnesses -/

/-- A run over a runtime document with one class `C` that has an attribute
and a method both named `x`. -/
def inpDupMember : GenInput :=
  { version := str "1.0.0"
    runtimeDoc := some
      { classes := [
          { name := str "C"
            attributes := [{ name := str "x" }]
            methods := [{ name := str "x" }] }] } }

/-- A run over a runtime document with one class `C` that has a single
attribute `a`. -/
def inpOneAttr : GenInput :=
  { version := str "1.0.0"
    runtimeDoc := some
      { classes := [{ name := str "C", attributes := [{ name := str "a" }] }] } }

/-- The class record of `inpOneAttr`. -/
def oneAttrClass : RtClass := { name := str "C", attributes := [{ name := str "a" }] }

/-- The attribute chunk emitted by `inpOneAttr` (its only anchored chunk). -/
def oneAttrChunk : ChunkRecordG :=
  classAttrChunk inpOneAttr { name := str "C", attributes := [{ name := str "a" }] }
    (str "llm-docs/1.0.0/runtime/classes/C.md") { name := str "a" }

/-- A populated resolver catalog holding exactly the key
`runtime:LuaEntity`. -/
def resolveC8 : Str → Option ResolveResult := fun t =>
  if t = str "runtime:LuaEntity" then
    some { relPath := str "runtime/classes/LuaEntity.md" }
  else none

/-- A chunk record whose text places the query after a long whitespace run:
the first-occurrence index in the raw text (200) exceeds the occurrence's
position in the whitespace-collapsed text (81). -/
def snippetShiftRec : ChunkRecordS :=
  { id := str "X", version := str "1.0.0", stage := str "runtime", kind := str "class",
    name := str "N",
    text := List.replicate 80 'x' ++ List.replicate 120 ' ' ++ str "qq" ++
      List.replicate 100 'y' }


theorem mem_ltrimS {x : Char} {a : Str} (hx : x ∈ a) (hw : ¬ isWsChar x) :
    x ∈ ltrimS a := by
  have := @List.takeWhile_append_dropWhile _ isWsChar a
  rw [← this] at hx
  rcases List.mem_append.mp hx with hm | hm
  · exact absurd (List.mem_takeWhile_imp hm) (by simpa using hw)
  · exact hm

theorem mem_rtrimS {x : Char} {a : Str} (hx : x ∈ a) (hw : ¬ isWsChar x) :
    x ∈ rtrimS a := by
  have : x ∈ a.reverse.dropWhile isWsChar :=
    mem_ltrimS (List.mem_reverse.mpr hx) hw
  simpa [rtrimS] using List.mem_reverse.mpr this

theorem mem_trimS {x : Char} {a : Str} (hx : x ∈ a) (hw : ¬ isWsChar x) :
    x ∈ trimS a :=
  mem_ltrimS (mem_rtrimS hx hw) hw

theorem trimS_ne_nil {a : Str} (h : ∃ x ∈ a, ¬ isWsChar x) : trimS a ≠ [] := by
  obtain ⟨x, hx, hw⟩ := h
  intro hnil
  have := mem_trimS hx hw
  rw [hnil] at this
  cases this

theorem rtrimS_ne_nil {a : Str} (h : ∃ x ∈ a, ¬ isWsChar x) : rtrimS a ≠ [] := by
  obtain ⟨x, hx, hw⟩ := h
  intro hnil
  have := mem_rtrimS hx hw
  rw [hnil] at this
  cases this

theorem ltrimS_cons_ws {c : Char} (s : Str) (h : isWsChar c) :
    ltrimS (c :: s) = ltrimS s := by
  simp [ltrimS, List.dropWhile_cons, h]

theorem ltrimS_cons_not_ws {c : Char} (s : Str) (h : ¬ isWsChar c) :
    ltrimS (c :: s) = c :: s := by
  simp [ltrimS, List.dropWhile_cons, h]

theorem ltrimS_append_of_not_ws {a : Str} (b : Str)
    (h : ∃ x ∈ a, ¬ isWsChar x) : ltrimS (a ++ b) = ltrimS a ++ b := by
  induction a with
  | nil => obtain ⟨x, hx, _⟩ := h; cases hx
  | cons c rest ih =>
    by_cases hc : isWsChar c
    · have hr : ∃ x ∈ rest, ¬ isWsChar x := by
        obtain ⟨x, hx, hxw⟩ := h
        rcases List.mem_cons.mp hx with rfl | hmem
        · exact absurd hc hxw
        · exact ⟨x, hmem, hxw⟩
      simp only [List.cons_append, ltrimS_cons_ws _ hc]
      exact ih hr
    · simp [List.cons_append, ltrimS_cons_not_ws _ hc]

theorem rtrimS_append_of_not_ws (a : Str) {b : Str}
    (h : ∃ x ∈ b, ¬ isWsChar x) : rtrimS (a ++ b) = a ++ rtrimS b := by
  have hrev : ∃ x ∈ b.reverse, ¬ isWsChar x := by
    obtain ⟨x, hx, hw⟩ := h; exact ⟨x, List.mem_reverse.mpr hx, hw⟩
  simp only [rtrimS]
  rw [List.reverse_append]
  show (ltrimS (b.reverse ++ a.reverse)).reverse = a ++ (ltrimS b.reverse).reverse
  rw [ltrimS_append_of_not_ws a.reverse hrev]
  simp

theorem rtrimS_append_all_ws (a : Str) {b : Str}
    (h : ∀ x ∈ b, isWsChar x) : rtrimS (a ++ b) = rtrimS a := by
  simp only [rtrimS, List.reverse_append]
  congr 1
  have : b.reverse.dropWhile isWsChar = [] := by
    apply List.dropWhile_eq_nil_iff.mpr
    intro x hx
    exact h x (List.mem_reverse.mp hx)
  calc (b.reverse ++ a.reverse).dropWhile isWsChar
      = if (b.reverse.dropWhile isWsChar).isEmpty then a.reverse.dropWhile isWsChar
          else b.reverse.dropWhile isWsChar ++ a.reverse := List.dropWhile_append
    _ = a.reverse.dropWhile isWsChar := by simp [this]

theorem splitOnC_ne_nil (c : Char) (s : Str) : splitOnC c s ≠ [] := by
  cases s with
  | nil => simp [splitOnC]
  | cons x rest =>
    simp only [splitOnC]
    split <;> simp

theorem splitOnC_append_sep (c : Char) (a b : Str) :
    splitOnC c (a ++ c :: b) = splitOnC c a ++ splitOnC c b := by
  induction a with
  | nil =>
    simp [splitOnC]
  | cons x a' ih =>
    by_cases hx : x = c
    · subst hx
      simp only [List.cons_append, splitOnC, List.append_eq]
      rw [ih]
      simp
    · have hne := splitOnC_ne_nil c a'
      cases hsp : splitOnC c a' with
      | nil => exact absurd hsp hne
      | cons l ls =>
        simp only [List.cons_append, splitOnC, List.append_eq, if_neg hx]
        rw [ih, hsp]
        simp

theorem splitOnC_eq_single {c : Char} {a : Str} (h : ∀ x ∈ a, x ≠ c) :
    splitOnC c a = [a] := by
  induction a with
  | nil => simp [splitOnC]
  | cons x a' ih =>
    have hx : x ≠ c := h x (by simp)
    have ih' := ih (fun y hy => h y (by simp [hy]))
    simp [splitOnC, hx, ih']

theorem occursAt_append (a n b : Str) : occursAt (a ++ n ++ b) n a.length := by
  simp only [occursAt]
  rw [List.append_assoc, List.drop_left]
  exact List.isPrefixOf_iff_prefix.mpr (List.prefix_append n b)

theorem indexOfSub_some_spec :
    ∀ {h n : Str} {i : Nat}, indexOfSub h n = some i →
      occursAt h n i ∧ ∀ j, j < i → ¬ occursAt h n j := by
  intro h
  induction h with
  | nil =>
    intro n i hi
    simp only [indexOfSub] at hi
    split at hi
    · next hn =>
      cases hi
      subst hn
      refine ⟨by simp [occursAt, List.isPrefixOf], by omega⟩
    · cases hi
  | cons c rest ih =>
    intro n i hi
    simp only [indexOfSub] at hi
    split at hi
    · next hpre =>
      cases hi
      exact ⟨by simpa [occursAt] using hpre, by omega⟩
    · next hpre =>
      cases hrec : indexOfSub rest n with
      | none => rw [hrec] at hi; cases hi
      | some i' =>
        rw [hrec] at hi
        simp only [Option.map] at hi
        cases hi
        obtain ⟨hocc, hleast⟩ := ih hrec
        refine ⟨by simpa [occursAt] using hocc, ?_⟩
        intro j hj
        cases j with
        | zero => simpa [occursAt] using hpre
        | succ j' =>
          have : j' < i' := by omega
          simpa [occursAt] using hleast j' this

theorem indexOfSub_none_spec :
    ∀ {h n : Str}, indexOfSub h n = none → ∀ j, ¬ occursAt h n j := by
  intro h
  induction h with
  | nil =>
    intro n hn j
    simp only [indexOfSub] at hn
    split at hn
    · cases hn
    · next hne =>
      simp only [occursAt, List.drop_nil]
      cases n with
      | nil => exact absurd rfl hne
      | cons c cs => simp [List.isPrefixOf]
  | cons c rest ih =>
    intro n hn j
    simp only [indexOfSub] at hn
    split at hn
    · cases hn
    · next hpre =>
      cases hrec : indexOfSub rest n with
      | some i' => rw [hrec] at hn; cases hn
      | none =>
        cases j with
        | zero => simpa [occursAt] using hpre
        | succ j' => simpa [occursAt] using ih hrec j'

theorem indexOfSub_of_least {h n : Str} {i : Nat} (hocc : occursAt h n i)
    (hleast : ∀ j, j < i → ¬ occursAt h n j) : indexOfSub h n = some i := by
  cases hidx : indexOfSub h n with
  | none => exact absurd hocc (indexOfSub_none_spec hidx i)
  | some k =>
    obtain ⟨hk, hkleast⟩ := indexOfSub_some_spec hidx
    congr 1
    rcases Nat.lt_trichotomy k i with hlt | heq | hgt
    · exact absurd hk (hleast k hlt)
    · exact heq
    · exact absurd hocc (hkleast i hgt)

theorem countOccurrences_eq_zero {h n : Str} (hn : indexOfSub h n = none) :
    countOccurrences h n = 0 := by
  rw [countOccurrences]
  split
  · rfl
  · split
    · rfl
    · next heq => rw [hn] at heq; cases heq

theorem normalizeNewlines_cons_of_ne {c : Char} (s : Str) (hc : c ≠ '\r') :
    normalizeNewlines (c :: s) = c :: normalizeNewlines s := by
  rw [normalizeNewlines.eq_def]
  simp [hc]

theorem normalizeNewlines_crlf (s : Str) :
    normalizeNewlines ('\r' :: '\n' :: s) = '\n' :: normalizeNewlines s := by
  rw [normalizeNewlines.eq_def]
  simp

theorem normalizeNewlines_cr_of_ne {d : Char} (t : Str) (hd : d ≠ '\n') :
    normalizeNewlines ('\r' :: d :: t) = '\n' :: normalizeNewlines (d :: t) := by
  rw [normalizeNewlines.eq_def]
  simp [hd]

theorem normalizeNewlines_clean_append {l : Str} (rest : Str)
    (h : ∀ c ∈ l, c ≠ '\r') :
    normalizeNewlines (l ++ rest) = l ++ normalizeNewlines rest := by
  induction l with
  | nil => simp
  | cons c t ih =>
    rw [List.cons_append, normalizeNewlines_cons_of_ne _ (h c (by simp)),
      ih (fun x hx => h x (by simp [hx]))]
    rfl

theorem normalizeNewlines_marker (x r : Str) :
    ∃ y, normalizeNewlines (x ++ '\n' :: r) = y ++ '\n' :: normalizeNewlines r := by
  induction x using normalizeNewlines.induct with
  | case1 =>
    refine ⟨[], ?_⟩
    rw [List.nil_append, normalizeNewlines_cons_of_ne _ (by decide)]
    rfl
  | case2 =>
    refine ⟨[], ?_⟩
    rw [List.cons_append, List.nil_append, normalizeNewlines_crlf]
    rfl
  | case3 rest' ih =>
    obtain ⟨y, hy⟩ := ih
    refine ⟨'\n' :: y, ?_⟩
    simp only [List.cons_append]
    rw [normalizeNewlines_crlf, hy]
  | case4 d rest' hd ih =>
    obtain ⟨y, hy⟩ := ih
    refine ⟨'\n' :: y, ?_⟩
    simp only [List.cons_append]
    rw [normalizeNewlines_cr_of_ne _ hd]
    simp only [List.cons_append] at hy
    rw [hy]
  | case5 c rest hc ih =>
    obtain ⟨y, hy⟩ := ih
    refine ⟨c :: y, ?_⟩
    rw [List.cons_append, normalizeNewlines_cons_of_ne _ hc, hy]
    rfl

theorem mem_splitLines_of_marker {s l : Str}
    (hl : ∀ c ∈ l, c ≠ '\r' ∧ c ≠ '\n')
    (h : ∃ x y, s = x ++ '\n' :: (l ++ '\n' :: y)) :
    l ∈ splitLines (normalizeNewlines s) := by
  obtain ⟨x, y, rfl⟩ := h
  obtain ⟨x', hx'⟩ := normalizeNewlines_marker x (l ++ '\n' :: y)
  rw [splitLines, hx',
    normalizeNewlines_clean_append ('\n' :: y) (fun c hc => (hl c hc).1),
    normalizeNewlines_cons_of_ne _ (by decide)]
  rw [splitOnC_append_sep, splitOnC_append_sep,
    splitOnC_eq_single (fun c hc => (hl c hc).2)]
  simp

theorem mem_joinC_head {l : Str} {rest : List Str} {c : Char} {x : Char}
    (hx : x ∈ l) : x ∈ joinC c (l :: rest) := by
  cases rest with
  | nil => simpa [joinC] using hx
  | cons r rs => simp [joinC, hx]

theorem parseHeading_hash_mem {l : Str} {lv : Nat} {h : Str}
    (hp : parseHeading l = some (lv, h)) : '#' ∈ l := by
  simp only [parseHeading] at hp
  split at hp
  · next hcond =>
    obtain ⟨h1, _, _, _⟩ := hcond
    have hne : l.takeWhile (· = '#') ≠ [] := by
      intro hnil
      rw [hnil] at h1
      simp at h1
    cases htk : l.takeWhile (· = '#') with
    | nil => exact absurd htk hne
    | cons a rest =>
      have ha : a ∈ l.takeWhile (· = '#') := by rw [htk]; simp
      have := List.mem_takeWhile_imp ha
      have hal : a ∈ l := List.takeWhile_subset _ ha
      simp only [decide_eq_true_eq] at this
      rwa [this] at hal
  · cases hp

theorem trimS_ws_cons {c : Char} (m : Str) (hc : isWsChar c) :
    trimS (c :: m) = trimS m := by
  by_cases hex : ∃ x ∈ m, ¬ isWsChar x
  · have h1 : rtrimS (c :: m) = c :: rtrimS m := by
      simpa using rtrimS_append_of_not_ws [c] hex
    rw [trimS, h1, ltrimS_cons_ws _ hc]
    rfl
  · push_neg at hex
    have hall : ∀ x ∈ (c :: m : Str), isWsChar x := by
      intro x hx
      rcases List.mem_cons.mp hx with rfl | hm
      · exact hc
      · simpa using hex x hm
    have h1 : rtrimS (c :: m) = [] := by
      simpa using rtrimS_append_all_ws ([] : Str) hall
    have h2 : rtrimS m = [] := by
      simpa using rtrimS_append_all_ws ([] : Str)
        (fun x hx => hall x (List.mem_cons_of_mem _ hx))
    rw [trimS, trimS, h1, h2]

theorem parseHeading_member_line {m : Str} (hm : m ≠ []) :
    parseHeading (str "### " ++ m) = some (3, trimS m) := by
  have htk : (str "### " ++ m).takeWhile (· = '#') = str "###" := by
    simp [str, List.takeWhile_cons]
  have h3 : (str "###").length = 3 := by decide
  have hdrop : (str "### " ++ m).drop 3 = ' ' :: m := by simp [str]
  have hmlen : 0 < m.length := List.length_pos.mpr hm
  simp only [parseHeading, htk, h3, hdrop]
  rw [if_pos]
  · rw [trimS_ws_cons m (by decide)]
  · exact ⟨by omega, by omega, by simp; omega, by rfl⟩

theorem scanForAnchor_isSome {anchorT : Str} :
    ∀ (lines : List Str) (counts : MapS Nat) (i : Nat),
      (∃ l ∈ lines, ∃ lv h, parseHeading l = some (lv, h) ∧ h = anchorT) →
      (scanForAnchor anchorT lines counts i).isSome := by
  intro lines
  induction lines with
  | nil =>
    intro counts i hex
    obtain ⟨l, hl, _⟩ := hex
    cases hl
  | cons l rest ih =>
    intro counts i hex
    simp only [scanForAnchor]
    cases hp : parseHeading l with
    | none =>
      dsimp only
      apply ih
      obtain ⟨l', hl', lv, h, hph, hh⟩ := hex
      rcases List.mem_cons.mp hl' with rfl | hm
      · rw [hp] at hph; cases hph
      · exact ⟨l', hm, lv, h, hph, hh⟩
    | some p =>
      obtain ⟨lv0, h0⟩ := p
      dsimp only
      by_cases hcond : h0 = anchorT ∨
          slugOfState counts (githubSlugBase h0) = anchorT
      · simp [hcond]
      · rw [if_neg hcond]
        apply ih
        obtain ⟨l', hl', lv, h, hph, hh⟩ := hex
        rcases List.mem_cons.mp hl' with rfl | hm
        · rw [hp] at hph
          cases hph
          exact absurd (Or.inl hh) hcond
        · exact ⟨l', hm, lv, h, hph, hh⟩

theorem scanForAnchor_some_line {anchorT : Str} :
    ∀ (lines : List Str) (counts : MapS Nat) (i0 : Nat) {j lv : Nat},
      scanForAnchor anchorT lines counts i0 = some (j, lv) →
      ∃ k l h, lines.get? k = some l ∧ j = i0 + k ∧ parseHeading l = some (lv, h) := by
  intro lines
  induction lines with
  | nil => intro counts i0 j lv hscan; cases hscan
  | cons l rest ih =>
    intro counts i0 j lv hscan
    simp only [scanForAnchor] at hscan
    cases hp : parseHeading l with
    | none =>
      rw [hp] at hscan
      dsimp only at hscan
      obtain ⟨k, l', h, hget, hj, hph⟩ := ih _ _ hscan
      exact ⟨k + 1, l', h, by simpa using hget, by omega, hph⟩
    | some p =>
      obtain ⟨lv0, h0⟩ := p
      rw [hp] at hscan
      dsimp only at hscan
      by_cases hcond : h0 = anchorT ∨
          slugOfState counts (githubSlugBase h0) = anchorT
      · rw [if_pos hcond] at hscan
        cases hscan
        exact ⟨0, l, h0, by simp, by omega, hp⟩
      · rw [if_neg hcond] at hscan
        obtain ⟨k, l', h, hget, hj, hph⟩ := ih _ _ hscan
        exact ⟨k + 1, l', h, by simpa using hget, by omega, hph⟩

theorem extractMarkdownSectionByAnchor_succeeds {md anchor : Str}
    (hline : ∃ l ∈ splitLines (normalizeNewlines md), ∃ lv h,
      parseHeading l = some (lv, h) ∧ h = trimS anchor)
    (ha : trimS anchor ≠ []) :
    ∃ out, extractMarkdownSectionByAnchor md anchor = some out ∧ out ≠ [] := by
  simp only [extractMarkdownSectionByAnchor]
  rw [if_neg ha]
  have hs := scanForAnchor_isSome (splitLines (normalizeNewlines md)) [] 0 hline
  cases hscan : scanForAnchor (trimS anchor) (splitLines (normalizeNewlines md)) [] 0 with
  | none => rw [hscan] at hs; cases hs
  | some p =>
    obtain ⟨j, lv⟩ := p
    obtain ⟨k, l, h, hget, hj, hph⟩ := scanForAnchor_some_line _ _ _ hscan
    have hk : j = k := by omega
    subst hk
    have hjlt : j < (splitLines (normalizeNewlines md)).length :=
      List.get?_eq_some.mp hget |>.1
    have hgetelem : (splitLines (normalizeNewlines md))[j] = l := by
      have := List.get?_eq_some.mp hget
      obtain ⟨hlt, hval⟩ := this
      simpa using hval
    have hdropj : (splitLines (normalizeNewlines md)).drop j =
        l :: (splitLines (normalizeNewlines md)).drop (j + 1) := by
      rw [List.drop_eq_getElem_cons hjlt, hgetelem]
    have hhash : '#' ∈ l := parseHeading_hash_mem hph
    have houtne : trimEndS (joinLines
        (((splitLines (normalizeNewlines md)).drop j).take 1 ++
          ((splitLines (normalizeNewlines md)).drop (j + 1)).takeWhile (fun l =>
            match parseHeadingLoose l with
            | some level => ¬ (level ≤ lv)
            | none => true))) ≠ [] := by
      rw [hdropj]
      simp only [List.take_succ_cons, List.take_zero, List.singleton_append]
      exact rtrimS_ne_nil ⟨'#', mem_joinC_head hhash, by decide⟩
    exact ⟨_, if_neg houtne, by simp⟩

theorem replaceScan_eq_self (try1 : Str → Option (Str × Nat))
    (h : ∀ s r k, try1 s = some (r, k) → r = s.take k ∧ 1 ≤ k)
    (s : Str) : replaceScan try1 s = s := by
  induction s using replaceScan.induct try1 with
  | case1 => rw [replaceScan.eq_def]
  | case2 c rest repl consumed heq ih =>
    obtain ⟨hr, hk⟩ := h _ _ _ heq
    rw [replaceScan.eq_def]
    simp only [heq]
    rw [ih, hr, Nat.max_eq_left hk]
    exact List.take_append_drop consumed (c :: rest)
  | case3 c rest heq ih =>
    rw [replaceScan.eq_def]
    simp only [heq]
    rw [ih]

theorem replaceScan_eq_self_of_none (try1 : Str → Option (Str × Nat))
    (h : ∀ c rest, c ≠ '[' → try1 (c :: rest) = none)
    (s : Str) (hs : '[' ∉ s) : replaceScan try1 s = s := by
  induction s with
  | nil => rw [replaceScan.eq_def]
  | cons c rest ih =>
    have hc : c ≠ '[' := fun hcc => hs (by simp [hcc])
    rw [replaceScan.eq_def]
    simp only [h c rest hc]
    rw [ih (fun hm => hs (List.mem_cons_of_mem _ hm))]

/-- `replaceScan` on the empty string. -/
theorem replaceScan_nil (try1 : Str → Option (Str × Nat)) :
    replaceScan try1 [] = [] := by
  rw [replaceScan.eq_def]

/-- `replaceScan` step when the matcher does not fire. -/
theorem replaceScan_cons_none (try1 : Str → Option (Str × Nat)) {c : Char} {t : Str}
    (h : try1 (c :: t) = none) :
    replaceScan try1 (c :: t) = c :: replaceScan try1 t := by
  rw [replaceScan.eq_def]
  simp only [h]

/-- `replaceScan` step when the matcher fires. -/
theorem replaceScan_cons_some (try1 : Str → Option (Str × Nat)) {c : Char} {t : Str}
    {r : Str} {k : Nat} (h : try1 (c :: t) = some (r, k)) :
    replaceScan try1 (c :: t) = r ++ replaceScan try1 ((c :: t).drop (max k 1)) := by
  rw [replaceScan.eq_def]
  simp only [h]

/-- `replaceScan` copies a leading segment on which a `[`-anchored matcher can never fire. -/
theorem replaceScan_copy (try1 : Str → Option (Str × Nat))
    (hfire : ∀ c rest, c ≠ '[' → try1 (c :: rest) = none)
    {Z : Str} (hZ : ∀ c ∈ Z, c ≠ '[') (w : Str) :
    replaceScan try1 (Z ++ w) = Z ++ replaceScan try1 w := by
  induction Z with
  | nil => simp
  | cons c t ih =>
    rw [List.cons_append,
      replaceScan_cons_none _ (hfire c _ (hZ c (List.mem_cons_self _ _))),
      ih (fun c2 h2 => hZ c2 (List.mem_cons_of_mem _ h2))]
    rfl

/-- `SpanOK` restricts to suffixes. -/
theorem spanOK_drop {try1 : Str → Option (Str × Nat)} {s : Str}
    (h : SpanOK try1 s) (n : Nat) : SpanOK try1 (s.drop n) := by
  intro i r k hh
  rw [List.drop_drop] at hh ⊢
  exact h _ r k hh

/-- Marker preservation: a bracket-free line-marker segment of the input survives `replaceScan` verbatim whenever every fired span copies, stays on one line, or keeps its bracketed label. -/
theorem replaceScan_marker (try1 : Str → Option (Str × Nat))
    (hfire : ∀ c rest, c ≠ '[' → try1 (c :: rest) = none)
    (hpos : ∀ s r k, try1 s = some (r, k) → 1 ≤ k)
    {Z : Str} (hbr : ∀ c ∈ ('\n' :: Z : Str), c ≠ '[' ∧ c ≠ ']') :
    ∀ (n : Nat) (x y : Str), (x ++ ('\n' :: Z) ++ y).length ≤ n →
      SpanOK try1 (x ++ ('\n' :: Z) ++ y) →
      ∃ x2 y2, replaceScan try1 (x ++ ('\n' :: Z) ++ y) =
        x2 ++ ('\n' :: Z) ++ y2 := by
  intro n
  induction n with
  | zero =>
    intro x y hlen hok
    exfalso
    simp at hlen
  | succ n ih =>
    intro x y hlen hok
    cases x with
    | nil =>
      refine ⟨[], replaceScan try1 y, ?_⟩
      simp only [List.nil_append]
      exact replaceScan_copy try1 hfire (fun c hc => (hbr c hc).1) y
    | cons c x' =>
      have hne : (c :: x') ++ ('\n' :: Z) ++ y = c :: (x' ++ ('\n' :: Z) ++ y) := by
        simp
      cases htry : try1 ((c :: x') ++ ('\n' :: Z) ++ y) with
      | none =>
        rw [hne] at htry
        obtain ⟨x2, y2, h2⟩ := ih x' y (by simp at hlen ⊢; omega)
          (by have := spanOK_drop hok 1; simpa using this)
        rw [hne, replaceScan_cons_none _ htry, h2]
        exact ⟨c :: x2, y2, by simp⟩
      | some rk =>
        obtain ⟨r, k⟩ := rk
        have hk1 : 1 ≤ k := hpos _ _ _ htry
        have hmax : max k 1 = k := by omega
        have hscan : replaceScan try1 ((c :: x') ++ ('\n' :: Z) ++ y) =
            r ++ replaceScan try1 (((c :: x') ++ ('\n' :: Z) ++ y).drop k) := by
          rw [hne] at htry
          rw [hne, replaceScan_cons_some _ htry, hmax, ← hne]
        have hok0 := hok 0 r k (by rw [List.drop_zero]; exact htry)
        rw [List.drop_zero] at hok0
        by_cases hkx : k ≤ (c :: x').length
        · have hdropk : ((c :: x') ++ ('\n' :: Z) ++ y).drop k =
              (c :: x').drop k ++ ('\n' :: Z) ++ y := by
            rw [List.append_assoc, List.drop_append_eq_append_drop,
              Nat.sub_eq_zero_of_le hkx, List.drop_zero, ← List.append_assoc]
          obtain ⟨x2, y2, h2⟩ := ih ((c :: x').drop k) y
            (by simp [List.length_drop] at hlen ⊢; omega)
            (by have := spanOK_drop hok k; rwa [hdropk] at this)
          rw [hscan, hdropk, h2]
          exact ⟨r ++ x2, y2, by simp⟩
        · push_neg at hkx
          have hCeq : ((c :: x') ++ ('\n' :: Z) ++ y).take k =
              (c :: x') ++ (('\n' :: Z) ++ y).take (k - (c :: x').length) := by
            rw [List.append_assoc, List.take_append_eq_append_take,
              List.take_all_of_le (by omega)]
          have hcbr : c = '[' := by
            by_contra hcne
            rw [hne, hfire c _ hcne] at htry
            exact Option.noConfusion htry
          subst hcbr
          have hdropk : (('[' :: x') ++ ('\n' :: Z) ++ y).drop k =
              (('\n' :: Z) ++ y).drop (k - ('[' :: x').length) := by
            rw [List.append_assoc, List.drop_append_eq_append_drop,
              List.drop_eq_nil_of_le (by omega), List.nil_append]
          have hThead : ∃ T', (('\n' :: Z) ++ y).take (k - ('[' :: x').length) =
              '\n' :: T' := by
            cases hj : k - ('[' :: x').length with
            | zero => omega
            | succ j' => exact ⟨(Z ++ y).take j', rfl⟩
          obtain ⟨T', hT'⟩ := hThead
          have hTD := List.take_append_drop (k - ('[' :: x').length) (('\n' :: Z) ++ y)
          generalize hTg : (('\n' :: Z) ++ y).take (k - ('[' :: x').length) = T
            at hCeq hT' hTD
          generalize hDg : (('\n' :: Z) ++ y).drop (k - ('[' :: x').length) = D
            at hdropk hTD
          rcases hok0 with hid | hnl | ⟨label, t1, t2, hC, hr, ht1⟩
          · rw [hscan, hid, hCeq, hdropk]
            rcases List.append_eq_append_iff.mp hTD with ⟨w, hw1, hw2⟩ | ⟨w, hw1, hw2⟩
            · have hwbr : ∀ ch ∈ w, ch ≠ '[' := by
                intro ch hch
                exact (hbr ch (by rw [hw1]; exact List.mem_append_right _ hch)).1
              rw [hw2, replaceScan_copy try1 hfire hwbr y, hw1]
              exact ⟨'[' :: x', replaceScan try1 y, by simp [List.append_assoc]⟩
            · rw [hw1]
              exact ⟨'[' :: x', w ++ replaceScan try1 D, by simp [List.append_assoc]⟩
          · exfalso
            rw [hCeq, hT'] at hnl
            exact hnl (List.mem_append_right _ (List.mem_cons_self _ _))
          · have hmain : label ++ ']' :: t1 = x' ++ T := by
              have h3 := hC.symm.trans hCeq
              simpa using h3
            rcases List.append_eq_append_iff.mp hmain with ⟨a', ha1, ha2⟩ |
              ⟨e, he1, he2⟩
            · exfalso
              apply ht1
              rw [ha2, hT']
              exact List.mem_append_right _ (List.mem_cons_self _ _)
            · have hEq2 : e ++ (']' :: t1 ++ D) = ('\n' :: Z) ++ y := by
                rw [← hTD, he2]
                simp [List.append_assoc]
              rcases List.append_eq_append_iff.mp hEq2 with ⟨e', he1', he2'⟩ |
                ⟨w, hw1', hw2'⟩
              · cases e' with
                | nil =>
                  rw [List.append_nil] at he1'
                  refine ⟨'[' :: x', t2 ++ replaceScan try1 D, ?_⟩
                  rw [hscan, hdropk, hr, he1, he1']
                  simp [List.append_assoc]
                | cons d e'' =>
                  exfalso
                  have hd : ']' :: (t1 ++ D) = d :: (e'' ++ y) := by
                    simpa using he2'
                  have hd2 : d = ']' := by
                    injection hd with h5 h6
                    exact h5.symm
                  subst hd2
                  exact (hbr ']' (by rw [he1']; exact
                    List.mem_append_right _ (List.mem_cons_self _ _))).2 rfl
              · refine ⟨'[' :: x', w ++ t2 ++ replaceScan try1 D, ?_⟩
                rw [hscan, hdropk, hr, he1, hw1']
                simp [List.append_assoc]

/-- Newline-free spans satisfy the span condition. -/
theorem spanOK_of_singleLineSpans {try1 : Str → Option (Str × Nat)} {s : Str}
    (h : singleLineSpans try1 s) : SpanOK try1 s :=
  fun i r k hh => Or.inr (Or.inl (h i r k hh))

/-- A `[`-anchored matcher fires nowhere on a bracket-free string. -/
theorem singleLineSpans_of_no_bracket {try1 : Str → Option (Str × Nat)}
    (hnil : try1 [] = none)
    (hfire : ∀ c rest, c ≠ '[' → try1 (c :: rest) = none) {s : Str}
    (hs : '[' ∉ s) : singleLineSpans try1 s := by
  intro i r k h
  exfalso
  cases hd : s.drop i with
  | nil =>
    rw [hd, hnil] at h
    exact Option.noConfusion h
  | cons c t =>
    have hc : c ∈ s := List.drop_subset _ _ (by rw [hd]; exact List.mem_cons_self _ _)
    rw [hd, hfire c t (fun hceq => hs (hceq ▸ hc))] at h
    exact Option.noConfusion h

theorem take_takeWhile_len {t : Str} (p : Char → Bool) :
    t.take (t.takeWhile p).length = t.takeWhile p :=
  (List.prefix_iff_eq_take.mp (List.takeWhile_prefix p)).symm

theorem isPrefixOf_decomp {a u : Str} (h : a.isPrefixOf u) :
    u = a ++ u.drop a.length := by
  have hp : a <+: u := List.isPrefixOf_iff_prefix.mp h
  conv_lhs => rw [← List.take_append_drop a.length u]
  rw [← List.prefix_iff_eq_take.mp hp]

theorem tryInternalLink_spec {resolve : Str → Option ResolveResult}
    {fromRelPath s r : Str} {k : Nat}
    (h : tryInternalLink resolve fromRelPath s = some (r, k)) :
    ∃ label stage rest w,
      s = '[' :: (label ++ ']' :: '(' :: (stage ++ ':' :: (rest ++ ')' :: w))) ∧
      k = 1 + label.length + 2 + stage.length + 1 + rest.length + 1 ∧
      r = internalLinkReplacer resolve fromRelPath label stage rest := by
  match s with
  | [] => simp [tryInternalLink] at h
  | c :: t =>
    rw [tryInternalLink] at h
    split at h
    case isFalse => exact Option.noConfusion h
    case isTrue hc =>
      subst hc
      simp only [] at h
      split at h
      case isTrue => exact Option.noConfusion h
      case isFalse hlab =>
        split at h
        case h_2 => exact Option.noConfusion h
        case h_1 d1 d2 u heq2 =>
          split at h
          case isFalse => exact Option.noConfusion h
          case isTrue hd =>
            obtain ⟨hd1, hd2⟩ := hd
            subst hd1; subst hd2
            generalize hL : t.takeWhile (· ≠ ']') = label at h heq2
            have httake : t.take label.length = label := by
              rw [← hL]; exact take_takeWhile_len _
            have ht : t = label ++ ']' :: '(' :: u := by
              conv_lhs => rw [← List.take_append_drop label.length t]
              rw [httake, heq2]
            by_cases hrt : (str "runtime:").isPrefixOf u
            · rw [if_pos hrt] at h
              dsimp only at h
              generalize hD : u.drop ((str "runtime").length + 1) = D at h
              generalize hR : D.takeWhile (· ≠ ')') = R at h
              have hlen : (str "runtime:").length = (str "runtime").length + 1 := rfl
              have hsplit : str "runtime:" = str "runtime" ++ [':'] := rfl
              have hu1 : u = str "runtime" ++ ':' :: D := by
                conv_lhs => rw [isPrefixOf_decomp hrt]
                rw [hlen, hD, hsplit, List.append_assoc]
                simp
              have hDtake : D.take R.length = R := by
                rw [← hR]; exact take_takeWhile_len _
              split at h
              · exact Option.noConfusion h
              · rename_i hrest
                split at h
                · rename_i e tail heq3
                  split at h
                  · rename_i he
                    subst he
                    injection h with h
                    injection h with hrv hkv
                    have hDr : D = R ++ ')' :: tail := by
                      conv_lhs => rw [← List.take_append_drop R.length D]
                      rw [hDtake, heq3]
                    refine ⟨label, str "runtime", R, tail, ?_, hkv.symm, hrv.symm⟩
                    rw [ht, hu1, hDr]
                  · exact Option.noConfusion h
                · exact Option.noConfusion h
            · rw [if_neg hrt] at h
              by_cases hpt : (str "prototype:").isPrefixOf u
              · rw [if_pos hpt] at h
                dsimp only at h
                generalize hD : u.drop ((str "prototype").length + 1) = D at h
                generalize hR : D.takeWhile (· ≠ ')') = R at h
                have hlen : (str "prototype:").length = (str "prototype").length + 1 := rfl
                have hsplit : str "prototype:" = str "prototype" ++ [':'] := rfl
                have hu1 : u = str "prototype" ++ ':' :: D := by
                  conv_lhs => rw [isPrefixOf_decomp hpt]
                  rw [hlen, hD, hsplit, List.append_assoc]
                  simp
                have hDtake : D.take R.length = R := by
                  rw [← hR]; exact take_takeWhile_len _
                split at h
                · exact Option.noConfusion h
                · rename_i hrest
                  split at h
                  · rename_i e tail heq3
                    split at h
                    · rename_i he
                      subst he
                      injection h with h
                      injection h with hrv hkv
                      have hDr : D = R ++ ')' :: tail := by
                        conv_lhs => rw [← List.take_append_drop R.length D]
                        rw [hDtake, heq3]
                      refine ⟨label, str "prototype", R, tail, ?_, hkv.symm, hrv.symm⟩
                      rw [ht, hu1, hDr]
                    · exact Option.noConfusion h
                  · exact Option.noConfusion h
              · rw [if_neg hpt] at h
                exact Option.noConfusion h

theorem trySiteHtmlLink_spec {resolve : Str → Option ResolveResult}
    {fromRelPath s r : Str} {k : Nat}
    (h : trySiteHtmlLink resolve fromRelPath s = some (r, k)) :
    ∃ label href w,
      s = '[' :: (label ++ ']' :: '(' :: (href ++ ')' :: w)) ∧
      k = 1 + label.length + 2 + href.length + 1 ∧
      r = siteHtmlLinkReplacer resolve fromRelPath label href := by
  match s with
  | [] => simp [trySiteHtmlLink] at h
  | c :: t =>
    rw [trySiteHtmlLink] at h
    split at h
    case isFalse => exact Option.noConfusion h
    case isTrue hc =>
      subst hc
      simp only [] at h
      split at h
      case isTrue => exact Option.noConfusion h
      case isFalse hlab =>
        split at h
        case h_2 => exact Option.noConfusion h
        case h_1 d1 d2 u heq2 =>
          split at h
          case isFalse => exact Option.noConfusion h
          case isTrue hd =>
            obtain ⟨hd1, hd2⟩ := hd
            subst hd1; subst hd2
            generalize hL : t.takeWhile (· ≠ ']') = label at h heq2
            have httake : t.take label.length = label := by
              rw [← hL]; exact take_takeWhile_len _
            have ht : t = label ++ ']' :: '(' :: u := by
              conv_lhs => rw [← List.take_append_drop label.length t]
              rw [httake, heq2]
            generalize hH : u.takeWhile (fun c => c ≠ ')' ∧ ¬ isWsChar c) = href1 at h
            have hHtake : u.take href1.length = href1 := by
              rw [← hH]; exact take_takeWhile_len _
            split at h
            case isTrue => exact Option.noConfusion h
            case isFalse hlab2 =>
              split at h
              case h_2 => exact Option.noConfusion h
              case h_1 e w heq3 =>
                split at h
                case isFalse => exact Option.noConfusion h
                case isTrue he =>
                  subst he
                  injection h with h
                  injection h with hrv hkv
                  have hu2 : u = href1 ++ ')' :: w := by
                    conv_lhs => rw [← List.take_append_drop href1.length u]
                    rw [hHtake, heq3]
                  refine ⟨label, href1, w, ?_, hkv.symm, hrv.symm⟩
                  rw [ht, hu2]

theorem internalLinkReplacer_unresolved {resolve : Str → Option ResolveResult}
    (hres : ∀ t, resolve t = none) (fromRelPath label stage rest : Str) :
    internalLinkReplacer resolve fromRelPath label stage rest =
      '[' :: label ++ str "](" ++ (stage ++ ':' :: rest) ++ str ")" := by
  rw [internalLinkReplacer]
  simp only [hres]

theorem siteHtmlLinkReplacer_unresolved {resolve : Str → Option ResolveResult}
    (hres : ∀ t, resolve t = none) (fromRelPath label href : Str) :
    siteHtmlLinkReplacer resolve fromRelPath label href =
      '[' :: label ++ str "](" ++ href ++ str ")" := by
  rw [siteHtmlLinkReplacer]
  simp only [hres]
  split
  · rfl
  · split
    · rfl
    · split
      · rfl
      · split
        · rfl
        · rfl

theorem tryInternalLink_take_of_unresolved {resolve : Str → Option ResolveResult}
    {fromRelPath s r : Str} {k : Nat} (hres : ∀ t, resolve t = none)
    (h : tryInternalLink resolve fromRelPath s = some (r, k)) :
    r = s.take k ∧ 1 ≤ k := by
  obtain ⟨label, stage, rest, w, hs, hk, hr⟩ := tryInternalLink_spec h
  subst hs; subst hk
  rw [hr, internalLinkReplacer_unresolved hres]
  constructor
  · have hlen : (1 + label.length + 2 + stage.length + 1 + rest.length + 1) =
        ('[' :: (label ++ ']' :: '(' :: (stage ++ ':' :: (rest ++ [')'])))).length := by
      simp
      omega
    have hpre : ('[' :: (label ++ ']' :: '(' :: (stage ++ ':' :: (rest ++ [')'])))) <+:
        ('[' :: (label ++ ']' :: '(' :: (stage ++ ':' :: (rest ++ ')' :: w)))) := by
      refine ⟨w, ?_⟩
      simp
    rw [hlen, ← List.prefix_iff_eq_take.mp hpre]
    have hjl : str "](" = [']', '('] := rfl
    have hcl : str ")" = [')'] := rfl
    rw [hjl, hcl]
    simp
  · omega

theorem trySiteHtmlLink_take_of_unresolved {resolve : Str → Option ResolveResult}
    {fromRelPath s r : Str} {k : Nat} (hres : ∀ t, resolve t = none)
    (h : trySiteHtmlLink resolve fromRelPath s = some (r, k)) :
    r = s.take k ∧ 1 ≤ k := by
  obtain ⟨label, href, w, hs, hk, hr⟩ := trySiteHtmlLink_spec h
  subst hs; subst hk
  rw [hr, siteHtmlLinkReplacer_unresolved hres]
  constructor
  · have hlen : (1 + label.length + 2 + href.length + 1) =
        ('[' :: (label ++ ']' :: '(' :: (href ++ [')']))).length := by
      simp
      omega
    have hpre : ('[' :: (label ++ ']' :: '(' :: (href ++ [')']))) <+:
        ('[' :: (label ++ ']' :: '(' :: (href ++ ')' :: w))) := by
      refine ⟨w, ?_⟩
      simp
    rw [hlen, ← List.prefix_iff_eq_take.mp hpre]
    have hjl : str "](" = [']', '('] := rfl
    have hcl : str ")" = [')'] := rfl
    rw [hjl, hcl]
    simp
  · omega

theorem convertInternalLinks_id_of_unresolved (md fromRelPath : Str)
    (resolve : Str → Option ResolveResult) (hres : ∀ t, resolve t = none) :
    convertInternalLinks md fromRelPath resolve = md :=
  replaceScan_eq_self _ (fun _ _ _ h => tryInternalLink_take_of_unresolved hres h) md

theorem convertSiteHtmlLinks_id_of_unresolved (md fromRelPath : Str)
    (resolve : Str → Option ResolveResult) (hres : ∀ t, resolve t = none) :
    convertSiteHtmlLinks md fromRelPath resolve = md :=
  replaceScan_eq_self _ (fun _ _ _ h => trySiteHtmlLink_take_of_unresolved hres h) md

theorem tryInternalLink_none_of_head_ne {resolve : Str → Option ResolveResult}
    {fromRelPath : Str} {c : Char} {rest : Str} (hc : c ≠ '[') :
    tryInternalLink resolve fromRelPath (c :: rest) = none := by
  rw [tryInternalLink]
  exact if_neg hc

theorem trySiteHtmlLink_none_of_head_ne {resolve : Str → Option ResolveResult}
    {fromRelPath : Str} {c : Char} {rest : Str} (hc : c ≠ '[') :
    trySiteHtmlLink resolve fromRelPath (c :: rest) = none := by
  rw [trySiteHtmlLink]
  exact if_neg hc

theorem convertInternalLinks_id_of_no_bracket (md fromRelPath : Str)
    (resolve : Str → Option ResolveResult) (h : '[' ∉ md) :
    convertInternalLinks md fromRelPath resolve = md :=
  replaceScan_eq_self_of_none _
    (fun _ _ hc => tryInternalLink_none_of_head_ne hc) md h

theorem convertSiteHtmlLinks_id_of_no_bracket (md fromRelPath : Str)
    (resolve : Str → Option ResolveResult) (h : '[' ∉ md) :
    convertSiteHtmlLinks md fromRelPath resolve = md :=
  replaceScan_eq_self_of_none _
    (fun _ _ hc => trySiteHtmlLink_none_of_head_ne hc) md h

/-- A fired internal-link span consumes at least one character. -/
theorem tryInternalLink_pos {resolve : Str → Option ResolveResult}
    {fromRelPath s r : Str} {k : Nat}
    (h : tryInternalLink resolve fromRelPath s = some (r, k)) : 1 ≤ k := by
  obtain ⟨label, stage, rest, w, hs, hk, hr⟩ := tryInternalLink_spec h
  omega

/-- A fired legacy-link span consumes at least one character. -/
theorem trySiteHtmlLink_pos {resolve : Str → Option ResolveResult}
    {fromRelPath s r : Str} {k : Nat}
    (h : trySiteHtmlLink resolve fromRelPath s = some (r, k)) : 1 ≤ k := by
  obtain ⟨label, href, w, hs, hk, hr⟩ := trySiteHtmlLink_spec h
  omega

/-- Every branch of the legacy-link replacer keeps `[label` verbatim. -/
theorem siteHtmlLinkReplacer_shape (resolve : Str → Option ResolveResult)
    (fromRelPath label href : Str) :
    ∃ t2, siteHtmlLinkReplacer resolve fromRelPath label href =
      ('[' :: label) ++ t2 := by
  rw [siteHtmlLinkReplacer]
  repeat' split
  all_goals simp only [List.append_assoc, List.cons_append]
  all_goals try exact ⟨_, rfl⟩
  all_goals split
  all_goals exact ⟨_, rfl⟩

/-- Shape of a fired legacy-link span: the consumed text is the bracketed label and a whitespace-free parenthesized href, and the replacement is the replacer value. -/
theorem trySiteHtmlLink_span {resolve : Str → Option ResolveResult}
    {fromRelPath s r : Str} {k : Nat}
    (h : trySiteHtmlLink resolve fromRelPath s = some (r, k)) :
    ∃ label href,
      s.take k = ('[' :: label) ++ ']' :: ('(' :: (href ++ [')'])) ∧
      (∀ c ∈ href, ¬ isWsChar c) ∧
      r = siteHtmlLinkReplacer resolve fromRelPath label href := by
  match s with
  | [] => simp [trySiteHtmlLink] at h
  | c :: t =>
    rw [trySiteHtmlLink] at h
    split at h
    case isFalse => exact Option.noConfusion h
    case isTrue hc =>
      subst hc
      simp only [] at h
      split at h
      case isTrue => exact Option.noConfusion h
      case isFalse hlab =>
        split at h
        case h_2 => exact Option.noConfusion h
        case h_1 d1 d2 u heq2 =>
          split at h
          case isFalse => exact Option.noConfusion h
          case isTrue hd =>
            obtain ⟨hd1, hd2⟩ := hd
            subst hd1; subst hd2
            generalize hL : t.takeWhile (· ≠ ']') = label at h heq2
            have httake : t.take label.length = label := by
              rw [← hL]; exact take_takeWhile_len _
            have ht : t = label ++ ']' :: '(' :: u := by
              conv_lhs => rw [← List.take_append_drop label.length t]
              rw [httake, heq2]
            generalize hH : u.takeWhile (fun c => c ≠ ')' ∧ ¬ isWsChar c) = href1 at h
            have hHtake : u.take href1.length = href1 := by
              rw [← hH]; exact take_takeWhile_len _
            have hHchars : ∀ c ∈ href1, ¬ isWsChar c := by
              rw [← hH]
              intro c hc2
              have := List.mem_takeWhile_imp hc2
              simp only [decide_eq_true_eq, Bool.and_eq_true, decide_eq_true_eq,
                Bool.not_eq_true'] at this
              simp [this.2]
            split at h
            case isTrue => exact Option.noConfusion h
            case isFalse hlab2 =>
              split at h
              case h_2 => exact Option.noConfusion h
              case h_1 e w heq3 =>
                split at h
                case isFalse => exact Option.noConfusion h
                case isTrue he =>
                  subst he
                  injection h with h
                  injection h with hrv hkv
                  have hu2 : u = href1 ++ ')' :: w := by
                    conv_lhs => rw [← List.take_append_drop href1.length u]
                    rw [hHtake, heq3]
                  have hlen : k = ('[' :: (label ++ ']' :: '(' ::
                      (href1 ++ [')']))).length := by
                    rw [← hkv]
                    simp
                    omega
                  have hpre : ('[' :: (label ++ ']' :: '(' :: (href1 ++ [')']))) <+:
                      ('[' :: t) := by
                    rw [ht, hu2]
                    refine ⟨w, ?_⟩
                    simp
                  have htake : ('[' :: t).take k =
                      '[' :: (label ++ ']' :: '(' :: (href1 ++ [')'])) := by
                    rw [hlen]
                    exact (List.prefix_iff_eq_take.mp hpre).symm
                  refine ⟨label, href1, ?_, hHchars, hrv.symm⟩
                  rw [htake]
                  rfl

/-- The legacy-link pass unconditionally satisfies the span condition: hrefs exclude whitespace, so the remainder of a fired span past its label is newline-free. -/
theorem trySiteHtmlLink_spanOK (resolve : Str → Option ResolveResult)
    (fromRelPath s : Str) :
    SpanOK (trySiteHtmlLink resolve fromRelPath) s := by
  intro i r k h
  obtain ⟨label, href, htake, hch, hr⟩ := trySiteHtmlLink_span h
  right; right
  obtain ⟨t2, ht2⟩ := siteHtmlLinkReplacer_shape resolve fromRelPath label href
  refine ⟨label, '(' :: (href ++ [')']), t2, htake, hr.trans ht2, ?_⟩
  intro hmem
  simp only [List.mem_cons, List.mem_append, List.mem_singleton] at hmem
  rcases hmem with h1 | h1 | h1 | h1
  · exact absurd h1 (by decide)
  · exact absurd h1 (by decide)
  · exact hch _ h1 (by decide)
  · exact absurd h1 (by decide)

/-- A legacy hyperlink whose derived key the resolver cannot map is
reproduced verbatim, for an arbitrary resolver catalog. -/
theorem siteHtmlLinkReplacer_unresolved_key (resolve : Str → Option ResolveResult)
    (fromRelPath label href : Str)
    (hk : ∀ key, siteHtmlKey fromRelPath href = some key → resolve key = none) :
    siteHtmlLinkReplacer resolve fromRelPath label href =
      '[' :: label ++ str "](" ++ href ++ str ")" := by
  simp only [siteHtmlKey] at hk
  simp only [siteHtmlLinkReplacer]
  cases haux : auxHtmlBase (splitOnC '#' href).headI with
  | some base =>
    simp only [haux] at hk ⊢
    rw [hk _ rfl]
  | none =>
    simp only [haux] at hk ⊢
    by_cases hdef : ((splitOnC '#' href).headI = str "defines.html" ∨
        (splitOnC '#' href).headI = str "../defines.html") ∧
        (((splitOnC '#' href).tail.head?.map
          (fun h => (str "defines.").isPrefixOf h)).getD false = true)
    · rw [if_pos hdef] at hk ⊢
      rw [hk _ rfl]
    · rw [if_neg hdef] at hk ⊢
      cases hov : overviewHtmlKind (splitOnC '#' href).headI with
      | some kind =>
        simp only [hov] at hk ⊢
        rw [hk _ rfl]
      | none =>
        simp only [hov] at hk ⊢
        cases hmm : memberHtmlMatch (splitOnC '#' href).headI with
        | some km =>
          simp only [hmm] at hk ⊢
          rw [hk _ rfl]
        | none =>
          simp only [hmm]

/-- A bracket-free `### `-heading marker line of a body survives both link-conversion passes whenever no internal link of the body crosses a line break. -/
theorem converted_marker {resolve : Str → Option ResolveResult} {rel body anc : Str}
    (hspans : singleLineSpans (tryInternalLink resolve rel) body)
    (hanc : ∀ c ∈ anc, c ≠ '[' ∧ c ≠ ']')
    {x y : Str}
    (hbody : body = x ++ '\n' :: ((str "### " ++ anc) ++ '\n' :: y)) :
    ∃ x2 y2, convertSiteHtmlLinks (convertInternalLinks body rel resolve) rel resolve =
      x2 ++ '\n' :: ((str "### " ++ anc) ++ '\n' :: y2) := by
  have hassoc : ∀ w : Str, '\n' :: ((str "### " ++ anc) ++ '\n' :: w) =
      ('\n' :: ((str "### " ++ anc) ++ [Char.ofNat 10])) ++ w := by
    intro w
    simp [List.append_assoc]
  have hbr : ∀ c ∈ ('\n' :: ((str "### " ++ anc) ++ [Char.ofNat 10]) : Str),
      c ≠ '[' ∧ c ≠ ']' := by
    intro c hc
    rcases List.mem_cons.mp hc with rfl | hc2
    · exact ⟨by decide, by decide⟩
    · rcases List.mem_append.mp hc2 with hc3 | hc3
      · rcases List.mem_append.mp hc3 with hc4 | hc4
        · exact (by decide : ∀ c ∈ str "### ", c ≠ '[' ∧ c ≠ ']') c hc4
        · exact hanc c hc4
      · rcases List.mem_singleton.mp hc3 with rfl
        exact ⟨by decide, by decide⟩
  have hbody2 : body = x ++ ('\n' :: ((str "### " ++ anc) ++ [Char.ofNat 10])) ++ y := by
    rw [hbody, hassoc]
    simp [List.append_assoc]
  obtain ⟨x1, y1, h1⟩ := replaceScan_marker (tryInternalLink resolve rel)
    (fun c rest hc => tryInternalLink_none_of_head_ne hc)
    (fun s r k h => tryInternalLink_pos h) hbr
    (x ++ ('\n' :: ((str "### " ++ anc) ++ [Char.ofNat 10])) ++ y).length x y
    (le_refl _) (by rw [← hbody2]; exact spanOK_of_singleLineSpans hspans)
  obtain ⟨x2, y2, h2⟩ := replaceScan_marker (trySiteHtmlLink resolve rel)
    (fun c rest hc => trySiteHtmlLink_none_of_head_ne hc)
    (fun s r k h => trySiteHtmlLink_pos h) hbr
    (x1 ++ ('\n' :: ((str "### " ++ anc) ++ [Char.ofNat 10])) ++ y1).length x1 y1
    (le_refl _) (trySiteHtmlLink_spanOK resolve rel _)
  refine ⟨x2, y2 , ?_⟩
  rw [hassoc y2, ← List.append_assoc, ← h2, ← h1, ← hbody2]
  rfl

/-- Both link-conversion passes preserve a leading `#`. -/
theorem converted_head {resolve : Str → Option ResolveResult} {rel t : Str} :
    ∃ t2, convertSiteHtmlLinks (convertInternalLinks ('#' :: t) rel resolve)
      rel resolve = '#' :: t2 := by
  rw [convertInternalLinks,
    replaceScan_cons_none _ (tryInternalLink_none_of_head_ne (by decide))]
  rw [convertSiteHtmlLinks,
    replaceScan_cons_none _ (trySiteHtmlLink_none_of_head_ne (by decide))]
  exact ⟨_, rfl⟩

theorem ltrimS_head_not_ws {a : Str} {c : Char} {rest : Str}
    (h : ltrimS a = c :: rest) : ¬ isWsChar c := by
  induction a with
  | nil => simp [ltrimS] at h
  | cons x xs ih =>
    by_cases hx : isWsChar x
    · rw [ltrimS_cons_ws _ hx] at h
      exact ih h
    · rw [ltrimS_cons_not_ws _ hx] at h
      injection h with h1 h2
      subst h1
      exact hx

theorem parseCsvFlag_mem {v : Option Str} {e : Str} (h : e ∈ parseCsvFlag v) :
    (∃ x, e = trimS x) ∧ e ≠ [] := by
  simp only [parseCsvFlag, List.mem_filter, List.mem_map] at h
  obtain ⟨⟨x, _, hx⟩, hne⟩ := h
  refine ⟨⟨x, hx.symm⟩, ?_⟩
  simpa using hne

theorem trimS_trimS_ne_nil {x : Str} (h : trimS x ≠ []) : trimS (trimS x) ≠ [] := by
  cases he : trimS x with
  | nil => exact absurd he h
  | cons c rest =>
    have hc : ¬ isWsChar c := @ltrimS_head_not_ws (rtrimS x) c rest he
    apply trimS_ne_nil
    exact ⟨c, List.mem_cons_self _ _, hc⟩

theorem toLowerS_ne_nil {x : Str} (h : x ≠ []) : toLowerS x ≠ [] := by
  cases x with
  | nil => exact absurd rfl h
  | cons c rest => simp [toLowerS]

theorem normalizeFilterValue_ne_nil {v : Option Str} {e : Str}
    (h : e ∈ parseCsvFlag v) : normalizeFilterValue e ≠ [] := by
  obtain ⟨⟨x, rfl⟩, hne⟩ := parseCsvFlag_mem h
  exact toLowerS_ne_nil (trimS_trimS_ne_nil hne)

theorem empty_not_mem_filterSet (v : Option Str) :
    [] ∉ (parseCsvFlag v).map normalizeFilterValue := by
  intro hmem
  obtain ⟨e, he, heq⟩ := List.mem_map.mp hmem
  exact normalizeFilterValue_ne_nil he heq

/-- **C8**: a cross-reference token the resolver cannot map is left unchanged
by link conversion, and conversion is total, so generation continues past
every unresolvable token: an internal-link replacement for an unresolvable
`stage:rest` target reproduces the original `[label](stage:rest)` text; a
legacy-hyperlink replacement whose derived lookup key the resolver cannot map
(including under a populated catalog) reproduces the original `[label](href)`
text; and with a resolver that maps no token at all, both whole-document
conversion passes are the identity. -/
theorem claim_C8 (fromRelPath : Str) (resolve : Str → Option ResolveResult) :
    (∀ label stage rest, resolve (stage ++ ':' :: rest) = none →
      internalLinkReplacer resolve fromRelPath label stage rest =
        '[' :: label ++ str "](" ++ (stage ++ ':' :: rest) ++ str ")") ∧
    (∀ label href,
      (∀ key, siteHtmlKey fromRelPath href = some key → resolve key = none) →
      siteHtmlLinkReplacer resolve fromRelPath label href =
        '[' :: label ++ str "](" ++ href ++ str ")") ∧
    ((∀ t, resolve t = none) →
      ∀ md, convertInternalLinks md fromRelPath resolve = md ∧
        convertSiteHtmlLinks md fromRelPath resolve = md) :=
  ⟨fun label stage rest h => by rw [internalLinkReplacer]; simp only [h],
   fun label href hk =>
    siteHtmlLinkReplacer_unresolved_key resolve fromRelPath label href hk,
   fun hres md =>
    ⟨convertInternalLinks_id_of_unresolved md fromRelPath resolve hres,
     convertSiteHtmlLinks_id_of_unresolved md fromRelPath resolve hres⟩⟩

theorem claim_C8_witness :
    internalLinkReplacer resolveC8 (str "runtime/classes/LuaEntity.md")
        (str "LuaPlayer") (str "runtime") (str "LuaPlayer") =
      '[' :: str "LuaPlayer" ++ str "](" ++ (str "runtime" ++ ':' :: str "LuaPlayer") ++
        str ")" ∧
    siteHtmlLinkReplacer resolveC8 (str "a.md") (str "x") (str "../classes/LuaX.html") =
      '[' :: str "x" ++ str "](" ++ str "../classes/LuaX.html" ++ str ")" ∧
    convertInternalLinks (str "see [LuaX](runtime:LuaX) here") (str "a.md")
        (fun _ => none) = str "see [LuaX](runtime:LuaX) here" ∧
    convertSiteHtmlLinks (str "see [x](../classes/LuaX.html)") (str "a.md")
        (fun _ => none) = str "see [x](../classes/LuaX.html)" :=
  ⟨(claim_C8 (str "runtime/classes/LuaEntity.md") resolveC8).1
      (str "LuaPlayer") (str "runtime") (str "LuaPlayer") (by decide),
   (claim_C8 (str "a.md") resolveC8).2.1 (str "x") (str "../classes/LuaX.html")
      (by
        intro key hk
        have h2 : siteHtmlKey (str "a.md") (str "../classes/LuaX.html") =
            some (str "runtime:LuaX") := by decide
        rw [h2] at hk
        rw [← Option.some.inj hk]
        decide),
   ((claim_C8 (str "a.md") (fun _ => none)).2.2 (fun _ => rfl)
      (str "see [LuaX](runtime:LuaX) here")).1,
   ((claim_C8 (str "a.md") (fun _ => none)).2.2 (fun _ => rfl)
      (str "see [x](../classes/LuaX.html)")).2⟩

/-- **C9**: the generator resolve function is total — for every token it
returns `some` resolved link or `none` and never fails — and a token with no
colon, or with nothing after the first colon, always resolves to `none`; in
particular a bare symbol name without a stage prefix is always unresolved. -/
theorem claim_C9 (m : MapS ResolverEntry) (target : Str) :
    (makeResolve m target = none ∨ ∃ res, makeResolve m target = some res) ∧
    (indexOfC target ':' = none → makeResolve m target = none) ∧
    (∀ i, indexOfC target ':' = some i → target.drop (i + 1) = [] →
      makeResolve m target = none) := by
  refine ⟨?_, ?_, ?_⟩
  · cases h : makeResolve m target with
    | none => exact Or.inl rfl
    | some res => exact Or.inr ⟨res, rfl⟩
  · intro h
    rw [makeResolve]
    simp only [h]
    simp
  · intro i hi hdrop
    rw [makeResolve]
    simp only [hi, hdrop]
    simp

theorem claim_C9_witness :
    makeResolve [] (str "LuaEntity") = none ∧
    makeResolve [] (str "runtime:") = none :=
  ⟨(claim_C9 [] (str "LuaEntity")).2.1 (by decide),
   (claim_C9 [] (str "runtime:")).2.2 7 (by decide) (by decide)⟩

/-- **C10**: with a non-empty `--member` filter set, a chunk record without a
`member` field is always excluded: CSV flag parsing never yields the empty
string, a missing member normalizes to the empty string, so the membership
test fails and the record does not pass the filters. -/
theorem claim_C10 (stage kind nm member : Option Str) (r : ChunkRecordS)
    (hne : (mkSearchFilters stage kind nm member).memberSet ≠ [])
    (hmem : r.member = none) :
    [] ∉ (mkSearchFilters stage kind nm member).memberSet ∧
    passesMemberFilter (mkSearchFilters stage kind nm member).memberSet r = false ∧
    passesFilters (mkSearchFilters stage kind nm member) r = false := by
  have h0 : [] ∉ (mkSearchFilters stage kind nm member).memberSet :=
    empty_not_mem_filterSet member
  have hcont : (mkSearchFilters stage kind nm member).memberSet.contains
      ([] : Str) = false := by
    cases hcb : (mkSearchFilters stage kind nm member).memberSet.contains ([] : Str) with
    | false => rfl
    | true => exact absurd (List.elem_iff.mp hcb) h0
  have h1 : passesMemberFilter (mkSearchFilters stage kind nm member).memberSet r
      = false := by
    simp only [passesMemberFilter, hmem, Option.map_none, Option.getD_none]
    simp [hne, hcont]
    exact h0
  refine ⟨h0, h1, ?_⟩
  simp [passesFilters, h1]

theorem claim_C10_witness :
    (mkSearchFilters none none none (some (str "health"))).memberSet ≠ [] ∧
    passesFilters (mkSearchFilters none none none (some (str "health")))
      { id := str "i", version := str "1", stage := str "runtime",
        kind := str "class", name := str "LuaEntity",
        text := str "health text" } = false :=
  ⟨by decide,
   (claim_C10 none none none (some (str "health"))
      { id := str "i", version := str "1", stage := str "runtime",
        kind := str "class", name := str "LuaEntity",
        text := str "health text" } (by decide) rfl).2.2⟩

theorem getD_map_intCast (x : List Nat) (i : Nat) :
    (((x.map (fun n => (Nat.cast n : Int))).get? i).getD 0) =
      (((x.get? i).getD 0 : Nat) : Int) := by
  induction x generalizing i with
  | nil => simp
  | cons c cs ih =>
    cases i with
    | zero => simp
    | succ j => simpa using ih j

theorem go_zero (pa pb : List Int) (i : Nat) : compareVersions.go pa pb i 0 = 0 := by
  rw [compareVersions.go]

theorem go_succ (pa pb : List Int) (i fuel : Nat) :
    compareVersions.go pa pb i (fuel + 1) =
      if (pa.get? i).getD 0 ≠ (pb.get? i).getD 0
      then (pa.get? i).getD 0 - (pb.get? i).getD 0
      else compareVersions.go pa pb (i + 1) fuel := by
  rw [compareVersions.go]

theorem go_le_iff (na nb : List Nat) : ∀ (fuel i : Nat),
    na.length ≤ i + fuel → nb.length ≤ i + fuel →
    ((compareVersions.go (na.map (fun n => (Nat.cast n : Int)))
        (nb.map (fun n => (Nat.cast n : Int))) i fuel ≤ 0) ↔
      numListLe (na.drop i) (nb.drop i) = true) := by
  intro fuel
  induction fuel with
  | zero =>
    intro i ha hb
    have hna : na.drop i = [] := List.drop_eq_nil_of_le (by omega)
    have hnb : nb.drop i = [] := List.drop_eq_nil_of_le (by omega)
    rw [go_zero, hna, hnb]
    simp [numListLe]
  | succ fuel ih =>
    intro i ha hb
    rw [go_succ, getD_map_intCast, getD_map_intCast]
    have hta : na.drop (i + 1) = (na.drop i).tail := (List.tail_drop na i).symm
    have htb : nb.drop (i + 1) = (nb.drop i).tail := (List.tail_drop nb i).symm
    have ih1 := ih (i + 1) (by omega) (by omega)
    cases hda : na.drop i with
    | nil =>
      have hlena : na.length ≤ i := List.drop_eq_nil_iff_le.mp hda
      have hga : na.get? i = none := List.get?_eq_none.mpr hlena
      cases hdb : nb.drop i with
      | nil =>
        have hlenb : nb.length ≤ i := List.drop_eq_nil_iff_le.mp hdb
        have hgb : nb.get? i = none := List.get?_eq_none.mpr hlenb
        rw [hga, hgb]
        simp only [Option.getD_none, Nat.cast_zero]
        rw [if_neg (by simp)]
        rw [ih1, hta, htb, hda, hdb]
        simp [numListLe]
      | cons c cs =>
        have hgb : nb.get? i = some c := by
          have h0 := List.get?_drop nb i 0
          rw [hdb] at h0
          simpa using h0.symm
        rw [hga, hgb]
        simp only [Option.getD_none, Option.getD_some, Nat.cast_zero]
        by_cases hc : c = 0
        · subst hc
          rw [if_neg (by simp)]
          rw [ih1, hta, htb, hda, hdb]
          simp [numListLe]
        · rw [if_pos (by exact_mod_cast Ne.symm hc)]
          simp only [numListLe]
          rw [if_neg hc]
          constructor
          · intro _
            rfl
          · intro _
            omega
    | cons c cs =>
      have hga : na.get? i = some c := by
        have h0 := List.get?_drop na i 0
        rw [hda] at h0
        simpa using h0.symm
      cases hdb : nb.drop i with
      | nil =>
        have hlenb : nb.length ≤ i := List.drop_eq_nil_iff_le.mp hdb
        have hgb : nb.get? i = none := List.get?_eq_none.mpr hlenb
        rw [hga, hgb]
        simp only [Option.getD_none, Option.getD_some, Nat.cast_zero]
        by_cases hc : c = 0
        · subst hc
          rw [if_neg (by simp)]
          rw [ih1, hta, htb, hda, hdb]
          simp [numListLe]
        · rw [if_pos (by exact_mod_cast hc)]
          simp only [numListLe]
          rw [if_neg hc]
          constructor
          · intro h1
            exact absurd h1 (by omega)
          · intro h1
            exact absurd h1 (by simp)
      | cons d ds =>
        have hgb : nb.get? i = some d := by
          have h0 := List.get?_drop nb i 0
          rw [hdb] at h0
          simpa using h0.symm
        rw [hga, hgb]
        simp only [Option.getD_some]
        by_cases hcd : c = d
        · subst hcd
          rw [if_neg (by simp)]
          rw [ih1, hta, htb, hda, hdb]
          simp [numListLe]
        · rw [if_pos (by exact_mod_cast hcd)]
          simp only [numListLe]
          rw [if_neg hcd]
          simp only [decide_eq_true_eq]
          constructor
          · intro h1
            omega
          · intro h1
            omega

theorem numListLe_nil_left : ∀ z, numListLe [] z = true := by
  intro z
  induction z with
  | nil => simp [numListLe]
  | cons b bs ih =>
    simp only [numListLe]
    by_cases hb : b = 0
    · rw [if_pos hb]
      exact ih
    · rw [if_neg hb]

theorem numListLe_trans :
    ∀ (x y z : List Nat), numListLe x y = true → numListLe y z = true →
      numListLe x z = true := by
  intro x
  induction x with
  | nil => intro y z _ _; exact numListLe_nil_left z
  | cons a as ih =>
    intro y z h1 h2
    cases y with
    | nil =>
      simp only [numListLe] at h1
      by_cases ha : a = 0
      · rw [if_pos ha] at h1
        subst ha
        cases z with
        | nil =>
          simp only [numListLe]
          simpa using h1
        | cons c cs =>
          simp only [numListLe] at h2 ⊢
          by_cases hc : c = 0
          · rw [if_pos hc] at h2
            subst hc
            rw [if_pos rfl]
            exact ih [] cs h1 h2
          · rw [if_neg (by omega : ¬ (0 : Nat) = c)]
            simp only [decide_eq_true_eq]
            omega
      · rw [if_neg ha] at h1
        exact absurd h1 (by simp)
    | cons b bs =>
      cases z with
      | nil =>
        simp only [numListLe] at h1 h2 ⊢
        by_cases hb : b = 0
        · rw [if_pos hb] at h2
          subst hb
          by_cases ha : a = 0
          · rw [if_pos ha] at h1
            rw [if_pos ha]
            exact ih bs [] h1 h2
          · rw [if_neg ha] at h1
            simp only [decide_eq_true_eq] at h1
            omega
        · rw [if_neg hb] at h2
          exact absurd h2 (by simp)
      | cons c cs =>
        simp only [numListLe] at h1 h2 ⊢
        by_cases hab : a = b
        · subst hab
          rw [if_pos rfl] at h1
          by_cases hbc : a = c
          · subst hbc
            rw [if_pos rfl] at h2
            rw [if_pos rfl]
            exact ih bs cs h1 h2
          · rw [if_neg hbc] at h2
            rw [if_neg hbc]
            exact h2
        · rw [if_neg hab] at h1
          simp only [decide_eq_true_eq] at h1
          by_cases hbc : b = c
          · subst hbc
            rw [if_neg hab]
            simp only [decide_eq_true_eq]
            exact h1
          · rw [if_neg hbc] at h2
            simp only [decide_eq_true_eq] at h2
            have hac : a ≠ c := by omega
            rw [if_neg hac]
            simp only [decide_eq_true_eq]
            omega

theorem numListLe_total :
    ∀ (x y : List Nat), numListLe x y = true ∨ numListLe y x = true := by
  intro x
  induction x with
  | nil => intro y; exact Or.inl (numListLe_nil_left y)
  | cons a as ih =>
    intro y
    cases y with
    | nil => exact Or.inr (numListLe_nil_left (a :: as))
    | cons b bs =>
      simp only [numListLe]
      by_cases hab : a = b
      · subst hab
        simpa using ih bs
      · rw [if_neg hab, if_neg (Ne.symm hab)]
        simp only [decide_eq_true_eq]
        omega

theorem compareVersions_le_iff (a b : Str) :
    (compareVersions a b ≤ 0) ↔ numListLe (verParts a) (verParts b) = true := by
  have hpa : ((verParts a).map (fun n => (Nat.cast n : Int))) =
      (splitOnC '.' a).map (fun p => ((digitsVal p : Nat) : Int)) := by
    rw [verParts, List.map_map]
    rfl
  have hpb : ((verParts b).map (fun n => (Nat.cast n : Int))) =
      (splitOnC '.' b).map (fun p => ((digitsVal p : Nat) : Int)) := by
    rw [verParts, List.map_map]
    rfl
  have h := go_le_iff (verParts a) (verParts b)
    (max (verParts a).length (verParts b).length) 0
    (by omega) (by omega)
  rw [hpa, hpb] at h
  simp only [List.drop_zero] at h
  have hlen : max (verParts a).length (verParts b).length =
      max ((splitOnC '.' a).map (fun p => ((digitsVal p : Nat) : Int))).length
          ((splitOnC '.' b).map (fun p => ((digitsVal p : Nat) : Int))).length := by
    simp [verParts]
  rw [hlen] at h
  exact h

theorem sorted_pair_eq {α : Type} {le : α → α → Bool} {x y : α} {l : List α}
    (hp : l.Perm [x, y]) (hs : l.Pairwise (fun a b => le a b = true))
    (hyx : le y x = false) (hne : x ≠ y) : l = [x, y] := by
  have hlen : l.length = 2 := by rw [hp.length_eq]; rfl
  match l, hp, hs, hlen with
  | [u, v], hp, hs, _ =>
    have hu : u ∈ [x, y] := hp.mem_iff.mp (by simp)
    have huv : le u v = true := by
      have h := List.pairwise_cons.mp hs
      exact h.1 v (by simp)
    simp only [List.mem_cons, List.mem_singleton, List.not_mem_nil, or_false] at hu
    rcases hu with hux | huy
    · subst hux
      have hv : [v].Perm [y] := hp.cons_inv
      have : v ∈ [y] := hv.mem_iff.mp (by simp)
      simp at this
      rw [this]
    · subst huy
      have hv : v ∈ [x, u] := hp.mem_iff.mp (by simp)
      simp only [List.mem_cons, List.mem_singleton, List.not_mem_nil, or_false] at hv
      rcases hv with hvx | hvy
      · subst hvx
        rw [hyx] at huv
        exact absurd huv (by simp)
      · subst hvy
        have hx : x ∈ [v, v] := hp.symm.mem_iff.mp (by simp)
        simp only [List.mem_cons, List.mem_singleton, List.not_mem_nil, or_false] at hx
        rcases hx with h1 | h1 <;> exact absurd h1 hne

/-- **C7**: `versions` returns exactly the directory names matching the
three-part numeric pattern, sorted ascending by componentwise numeric
comparison of the dotted components (not lexicographic string order); in
particular `2.0.9` orders before `2.0.71`. -/
theorem claim_C7 (entries : List DirEnt) :
    (listVersions entries).Perm
      ((entries.filter (fun e => e.isDirectory ∧ semverPat e.name)).map DirEnt.name) ∧
    (listVersions entries).Pairwise specVerLe ∧
    listVersions [⟨str "2.0.71", true⟩, ⟨str "2.0.9", true⟩] =
      [str "2.0.9", str "2.0.71"] := by
  have htrans : ∀ (a b c : Str), decide (compareVersions a b ≤ 0) = true →
      decide (compareVersions b c ≤ 0) = true →
      decide (compareVersions a c ≤ 0) = true := by
    intro a b c h1 h2
    simp only [decide_eq_true_eq] at h1 h2 ⊢
    rw [compareVersions_le_iff] at h1 h2 ⊢
    exact numListLe_trans _ _ _ h1 h2
  have htotal : ∀ (a b : Str), (decide (compareVersions a b ≤ 0) ||
      decide (compareVersions b a ≤ 0)) = true := by
    intro a b
    simp only [Bool.or_eq_true, decide_eq_true_eq]
    rcases numListLe_total (verParts a) (verParts b) with h | h
    · exact Or.inl ((compareVersions_le_iff a b).mpr h)
    · exact Or.inr ((compareVersions_le_iff b a).mpr h)
  refine ⟨List.mergeSort_perm _ _, ?_, ?_⟩
  · have hs := List.sorted_mergeSort htrans htotal
      ((entries.filter (fun e => e.isDirectory ∧ semverPat e.name)).map DirEnt.name)
    refine List.Pairwise.imp ?_ hs
    intro a b hab
    simp only [decide_eq_true_eq] at hab
    exact (compareVersions_le_iff a b).mp hab
  · have hs := List.sorted_mergeSort htrans htotal [str "2.0.71", str "2.0.9"]
    have hperm : (listVersions [⟨str "2.0.71", true⟩, ⟨str "2.0.9", true⟩]).Perm
        [str "2.0.9", str "2.0.71"] := by
      refine (List.mergeSort_perm [str "2.0.71", str "2.0.9"] _).trans ?_
      exact List.Perm.swap (str "2.0.9") (str "2.0.71") []
    exact sorted_pair_eq hperm hs (by decide) (by decide)

theorem strLeB_nil_left (y : Str) : strLeB [] y = true := by
  cases y <;> rfl

theorem strLeB_trans :
    ∀ (x y z : Str), strLeB x y = true → strLeB y z = true → strLeB x z = true := by
  intro x
  induction x with
  | nil => intro y z _ _; exact strLeB_nil_left z
  | cons a as ih =>
    intro y z h1 h2
    cases y with
    | nil => simp [strLeB] at h1
    | cons b bs =>
      cases z with
      | nil => simp [strLeB] at h2
      | cons c cs =>
        simp only [strLeB] at h1 h2 ⊢
        by_cases hab : a < b
        · rw [if_pos hab] at h1
          by_cases hbc : b < c
          · rw [if_pos (lt_trans hab hbc)]
          · rw [if_neg hbc] at h2
            by_cases hbc2 : b = c
            · subst hbc2
              rw [if_pos hab]
            · rw [if_neg hbc2] at h2
              exact absurd h2 (by simp)
        · rw [if_neg hab] at h1
          by_cases hab2 : a = b
          · subst hab2
            rw [if_pos rfl] at h1
            by_cases hbc : a < c
            · rw [if_pos hbc]
            · rw [if_neg hbc] at h2 ⊢
              by_cases hbc2 : a = c
              · rw [if_pos hbc2] at h2 ⊢
                exact ih bs cs h1 h2
              · rw [if_neg hbc2] at h2
                exact absurd h2 (by simp)
          · rw [if_neg hab2] at h1
            exact absurd h1 (by simp)

theorem strLeB_total : ∀ (x y : Str), strLeB x y = true ∨ strLeB y x = true := by
  intro x
  induction x with
  | nil => intro y; exact Or.inl (strLeB_nil_left y)
  | cons a as ih =>
    intro y
    cases y with
    | nil => exact Or.inr (strLeB_nil_left (a :: as))
    | cons b bs =>
      simp only [strLeB]
      rcases lt_trichotomy a b with h | h | h
      · left
        rw [if_pos h]
      · subst h
        rcases ih bs with h2 | h2
        · left
          rw [if_neg (lt_irrefl a), if_pos rfl]
          exact h2
        · right
          rw [if_neg (lt_irrefl a), if_pos rfl]
          exact h2
      · right
        rw [if_pos h]

theorem hitLE_trans (a b c : SearchHit) (h1 : hitLE a b = true)
    (h2 : hitLE b c = true) : hitLE a c = true := by
  simp only [hitLE] at h1 h2 ⊢
  by_cases hab : a.score = b.score
  · rw [if_pos hab] at h1
    by_cases hbc : b.score = c.score
    · rw [if_pos hbc] at h2
      rw [if_pos (hab.trans hbc)]
      exact strLeB_trans _ _ _ h1 h2
    · rw [if_neg hbc] at h2
      simp only [decide_eq_true_eq] at h2
      rw [if_neg (by omega)]
      simp only [decide_eq_true_eq]
      omega
  · rw [if_neg hab] at h1
    simp only [decide_eq_true_eq] at h1
    by_cases hbc : b.score = c.score
    · rw [if_neg (by omega)]
      simp only [decide_eq_true_eq]
      omega
    · rw [if_neg hbc] at h2
      simp only [decide_eq_true_eq] at h2
      rw [if_neg (by omega)]
      simp only [decide_eq_true_eq]
      omega

theorem hitLE_total (a b : SearchHit) : (hitLE a b || hitLE b a) = true := by
  simp only [hitLE, Bool.or_eq_true]
  by_cases hab : a.score = b.score
  · rw [if_pos hab, if_pos hab.symm]
    rcases strLeB_total a.id b.id with h | h
    · exact Or.inl h
    · exact Or.inr h
  · rw [if_neg hab, if_neg (Ne.symm hab)]
    simp only [decide_eq_true_eq]
    omega

theorem searchHits_inv (q : Str) (f : SearchFilters) (limit : Nat) :
    ∀ (records : List ChunkRecordS) (hits : List SearchHit),
      (∀ h ∈ hits, 0 < h.score) → hits.length ≤ limit →
      hits.Pairwise (fun a b => hitLE a b = true) →
      (∀ h ∈ records.foldl (searchStep q f limit) hits, 0 < h.score) ∧
      (records.foldl (searchStep q f limit) hits).length ≤ limit ∧
      (records.foldl (searchStep q f limit) hits).Pairwise
        (fun a b => hitLE a b = true) := by
  intro records
  induction records with
  | nil => intro hits h1 h2 h3; exact ⟨h1, h2, h3⟩
  | cons r rs ih =>
    intro hits h1 h2 h3
    simp only [List.foldl_cons]
    by_cases hpass : passesFilters f r = true
    · by_cases hz : chunkScore q r = 0
      · rw [searchStep, if_neg (by simp [hpass]), if_pos hz]
        exact ih hits h1 h2 h3
      · have hstep : searchStep q f limit hits r =
            ((hits ++ [mkHit q r]).mergeSort hitLE).take limit := by
          rw [searchStep, if_neg (by simp [hpass]), if_neg hz]
        rw [hstep]
        apply ih
        · intro h hm
          have hm2 : h ∈ (hits ++ [mkHit q r]).mergeSort hitLE :=
            List.mem_of_mem_take hm
          have hm3 : h ∈ hits ++ [mkHit q r] :=
            (List.mergeSort_perm _ _).mem_iff.mp hm2
          rcases List.mem_append.mp hm3 with hm4 | hm4
          · exact h1 h hm4
          · simp only [List.mem_singleton] at hm4
            subst hm4
            have : (mkHit q r).score = chunkScore q r := rfl
            omega
        · exact List.length_take_le limit _
        · have hs := List.sorted_mergeSort hitLE_trans hitLE_total
            (hits ++ [mkHit q r])
          exact hs.sublist (List.take_sublist _ _)
    · rw [searchStep, if_pos (by simp [hpass])]
      exact ih hits h1 h2 h3

theorem chunkScore_formula (q : Str) (r : ChunkRecordS) :
    chunkScore q r =
      (if containsSub (toLowerS r.id) q then 20 else 0) +
      (if containsSub (toLowerS r.name) q then 10 else 0) +
      (if containsSub ((r.member.map toLowerS).getD []) q then 8 else 0) +
      2 * min 20 (countOccurrences (toLowerS r.text) q) := by
  rw [chunkScore]
  cases hidx : indexOfSub (toLowerS r.text) q with
  | none =>
    have hc : countOccurrences (toLowerS r.text) q = 0 := countOccurrences_eq_zero hidx
    simp [hidx, hc]
  | some i =>
    simp only [hidx, Option.isSome_some, if_true]
    omega

/-- **C4**: for records surviving the filters, the score is 20 for a
case-insensitive id substring match, plus 10 for the name, plus 8 for the
member, plus twice `min 20 (occurrence count in the text)`; zero-score
records leave the hit list unchanged, and the accumulated hit list always
holds at most `limit` entries sorted by score descending with ties broken by
id ascending. -/
theorem claim_C4 (q : Str) (f : SearchFilters) (limit : Nat)
    (records : List ChunkRecordS) :
    (∀ r, chunkScore q r =
      (if containsSub (toLowerS r.id) q then 20 else 0) +
      (if containsSub (toLowerS r.name) q then 10 else 0) +
      (if containsSub ((r.member.map toLowerS).getD []) q then 8 else 0) +
      2 * min 20 (countOccurrences (toLowerS r.text) q)) ∧
    (∀ hits r, passesFilters f r = true → chunkScore q r = 0 →
      searchStep q f limit hits r = hits) ∧
    (∀ h ∈ searchHits q f limit records, 0 < h.score) ∧
    (searchHits q f limit records).length ≤ limit ∧
    (searchHits q f limit records).Pairwise
      (fun a b => b.score < a.score ∨ (a.score = b.score ∧ strLeB a.id b.id = true)) := by
  have hinv := searchHits_inv q f limit records [] (by simp) (by simp) (by simp)
  refine ⟨chunkScore_formula q, ?_, hinv.1, hinv.2.1, ?_⟩
  · intro hits r hp hz
    rw [searchStep, if_neg (by simp [hp]), if_pos hz]
  · refine List.Pairwise.imp ?_ hinv.2.2
    intro a b hab
    rw [hitLE] at hab
    by_cases h : a.score = b.score
    · rw [if_pos h] at hab
      exact Or.inr ⟨h, hab⟩
    · rw [if_neg h] at hab
      simp only [decide_eq_true_eq] at hab
      exact Or.inl hab

theorem claim_C4_witness :
    passesFilters ⟨[], [], [], []⟩
      { id := str "i", version := str "1", stage := str "runtime",
        kind := str "class", name := str "LuaEntity", text := str "nothing" } = true ∧
    chunkScore (str "zz")
      { id := str "i", version := str "1", stage := str "runtime",
        kind := str "class", name := str "LuaEntity", text := str "nothing" } = 0 ∧
    searchStep (str "zz") ⟨[], [], [], []⟩ 10 []
      { id := str "i", version := str "1", stage := str "runtime",
        kind := str "class", name := str "LuaEntity", text := str "nothing" } = [] :=
  ⟨by decide, by decide,
   (claim_C4 (str "zz") ⟨[], [], [], []⟩ 10 []).2.1 []
     { id := str "i", version := str "1", stage := str "runtime",
       kind := str "class", name := str "LuaEntity", text := str "nothing" }
     (by decide) (by decide)⟩

/-- **C6** (amended): the snippet of a hit whose lowercased raw text contains
the query is computed by `makeSnippet` at the first-occurrence index measured
in the raw lowercased text — not at the occurrence position within the
whitespace-collapsed text, as the claim words it — and that index is then
clamped into the trimmed collapsed text; without an occurrence the snippet is
the first 140 characters of the collapsed text. -/
theorem claim_C6 (q : Str) (r : ChunkRecordS) :
    (∀ idx, indexOfSub (toLowerS r.text) q = some idx →
      (occursAt (toLowerS r.text) q idx ∧
        ∀ j, j < idx → ¬ occursAt (toLowerS r.text) q j) ∧
      searchSnippet q r = makeSnippet r.text idx q.length) ∧
    (indexOfSub (toLowerS r.text) q = none →
      searchSnippet q r = (collapseWs r.text).take 140) := by
  constructor
  · intro idx hidx
    refine ⟨indexOfSub_some_spec hidx, ?_⟩
    rw [searchSnippet, hidx]
  · intro hnone
    rw [searchSnippet, hnone]

set_option maxRecDepth 100000 in
theorem claim_C6_counterexample :
    searchSnippet (str "qq") snippetShiftRec ≠
      snippetPerClaim (str "qq") snippetShiftRec := by
  decide

set_option maxRecDepth 100000 in
theorem claim_C6_witness :
    occursAt (toLowerS snippetShiftRec.text) (str "qq") 200 ∧
    searchSnippet (str "qq") snippetShiftRec =
      makeSnippet snippetShiftRec.text 200 (str "qq").length :=
  ⟨(((claim_C6 (str "qq") snippetShiftRec).1 200 (by decide)).1).1,
   ((claim_C6 (str "qq") snippetShiftRec).1 200 (by decide)).2⟩

theorem mget_mset_self {α} (m : MapS α) (k : Str) (v : α) :
    mget (mset m k v) k = some v := by
  simp [mget, mset, List.find?]

theorem mget_mset_ne {α} (m : MapS α) {k k' : Str} (v : α) (h : k' ≠ k) :
    mget (mset m k v) k' = mget m k' := by
  simp only [mget, mset, List.find?]
  rw [decide_eq_false (by simpa using Ne.symm h)]

theorem filterMap_take_succ {lines : List Str} {i : Nat} {l : Str}
    (hl : lines.get? i = some l) :
    (lines.take (i + 1)).filterMap parseHeading =
      (lines.take i).filterMap parseHeading ++ (parseHeading l).toList := by
  have hl2 : lines[i]? = some l := by
    rw [← List.get?_eq_getElem?]
    exact hl
  rw [List.take_succ, hl2, List.filterMap_append]
  cases hph : parseHeading l <;> simp [List.filterMap_cons, hph]

theorem slugOfState_eq_specSlugAt {lines : List Str} {i : Nat} {l : Str}
    {counts : MapS Nat} {level : Nat} {heading : Str}
    (hget : lines.get? i = some l) (hph : parseHeading l = some (level, heading))
    (hcnt : ∀ base, ((mget counts base).getD 0) =
      (((lines.take i).filterMap parseHeading).map
        (fun p => githubSlugBase p.2)).count base) :
    slugOfState counts (githubSlugBase heading) = specSlugAt lines i := by
  rw [specSlugAt, hget]
  simp only [Option.some_bind]
  rw [hph]
  dsimp only
  rw [slugOfState]
  rw [hcnt]
  by_cases hb : githubSlugBase heading = []
  · rw [if_neg (by simpa using hb), if_pos hb]
  · rw [if_pos (by simpa using hb), if_neg hb]
    by_cases hk : (((lines.take i).filterMap parseHeading).map
        (fun p => githubSlugBase p.2)).count (githubSlugBase heading) = 0
    · rw [if_pos (by omega), if_pos hk]
    · rw [if_neg (by omega), if_neg hk]
      simp

theorem get_of_drop_cons {lines rest : List Str} {l : Str} {i : Nat}
    (hdrop : lines.drop i = l :: rest) : lines.get? i = some l := by
  have h0 := List.get?_drop lines i 0
  rw [hdrop] at h0
  simpa using h0.symm

theorem drop_succ_of_drop_cons {lines rest : List Str} {l : Str} {i : Nat}
    (hdrop : lines.drop i = l :: rest) : lines.drop (i + 1) = rest := by
  have h0 := List.tail_drop lines i
  rw [hdrop] at h0
  simpa using h0.symm

theorem scanForAnchor_spec (anchorT : Str) (lines : List Str) :
    ∀ (rest : List Str) (counts : MapS Nat) (i : Nat),
      lines.drop i = rest →
      (∀ base, ((mget counts base).getD 0) =
        (((lines.take i).filterMap parseHeading).map
          (fun p => githubSlugBase p.2)).count base) →
      (∀ j lv, scanForAnchor anchorT rest counts i = some (j, lv) →
        i ≤ j ∧
        (∃ h, (lines.get? j).bind parseHeading = some (lv, h) ∧
          (h = anchorT ∨ specSlugAt lines j = anchorT)) ∧
        (∀ m, i ≤ m → m < j → ¬ specMatches anchorT lines m)) ∧
      (scanForAnchor anchorT rest counts i = none →
        ∀ m, i ≤ m → ¬ specMatches anchorT lines m) := by
  intro rest
  induction rest with
  | nil =>
    intro counts i hdrop hcnt
    constructor
    · intro j lv h
      rw [scanForAnchor] at h
      cases h
    · intro _ m him hm
      obtain ⟨lv, h, hsome, _⟩ := hm
      have hlen : lines.length ≤ i := List.drop_eq_nil_iff_le.mp hdrop
      rw [List.get?_eq_none.mpr (by omega)] at hsome
      simp at hsome
  | cons l rest ih =>
    intro counts i hdrop hcnt
    have hget : lines.get? i = some l := get_of_drop_cons hdrop
    have hdrop1 : lines.drop (i + 1) = rest := drop_succ_of_drop_cons hdrop
    cases hph : parseHeading l with
    | none =>
      have hcnt1 : ∀ base, ((mget counts base).getD 0) =
          (((lines.take (i + 1)).filterMap parseHeading).map
            (fun p => githubSlugBase p.2)).count base := by
        intro base
        rw [filterMap_take_succ hget, hph]
        simpa using hcnt base
      have hnomatch : ¬ specMatches anchorT lines i := by
        rintro ⟨lv', h', hsome', _⟩
        rw [hget] at hsome'
        simp only [Option.some_bind] at hsome'
        rw [hph] at hsome'
        cases hsome'
      have hstep : scanForAnchor anchorT (l :: rest) counts i =
          scanForAnchor anchorT rest counts (i + 1) := by
        rw [scanForAnchor, hph]
      obtain ⟨ihs, ihn⟩ := ih counts (i + 1) hdrop1 hcnt1
      constructor
      · intro j lv hscan
        rw [hstep] at hscan
        obtain ⟨hij, hex, hmin⟩ := ihs j lv hscan
        refine ⟨by omega, hex, ?_⟩
        intro m him hmj
        by_cases hmi : m = i
        · subst hmi
          exact hnomatch
        · exact hmin m (by omega) hmj
      · intro hscan m him
        rw [hstep] at hscan
        by_cases hmi : m = i
        · subst hmi
          exact hnomatch
        · exact ihn hscan m (by omega)
    | some p =>
      obtain ⟨level, heading⟩ := p
      have hslug := slugOfState_eq_specSlugAt hget hph hcnt
      have hstep : scanForAnchor anchorT (l :: rest) counts i =
          (if heading = anchorT ∨
              slugOfState counts (githubSlugBase heading) = anchorT then
            some (i, level)
          else scanForAnchor anchorT rest
            (mset counts (githubSlugBase heading)
              ((mget counts (githubSlugBase heading)).getD 0 + 1)) (i + 1)) := by
        rw [scanForAnchor, hph]
      by_cases hmatch : heading = anchorT ∨
          slugOfState counts (githubSlugBase heading) = anchorT
      · rw [if_pos hmatch] at hstep
        constructor
        · intro j lv hscan
          rw [hstep] at hscan
          injection hscan with hpair
          injection hpair with hj hlv
          subst hj
          subst hlv
          refine ⟨le_refl i, ⟨heading, ?_, ?_⟩, ?_⟩
          · rw [hget]
            simp only [Option.some_bind]
            rw [hph]
          · rcases hmatch with h1 | h1
            · exact Or.inl h1
            · exact Or.inr (hslug ▸ h1)
          · intro m him hmj
            omega
        · intro hscan
          rw [hstep] at hscan
          cases hscan
      · rw [if_neg hmatch] at hstep
        have hnomatch : ¬ specMatches anchorT lines i := by
          rintro ⟨lv', h', hsome', hor⟩
          rw [hget] at hsome'
          simp only [Option.some_bind] at hsome'
          rw [hph] at hsome'
          injection hsome' with hpair
          injection hpair with hlv hh
          subst hh
          rcases hor with h1 | h1
          · exact hmatch (Or.inl h1)
          · exact hmatch (Or.inr (by rw [hslug]; exact h1))
        have hcnt1 : ∀ base, ((mget (mset counts (githubSlugBase heading)
            ((mget counts (githubSlugBase heading)).getD 0 + 1)) base).getD 0) =
            (((lines.take (i + 1)).filterMap parseHeading).map
              (fun p => githubSlugBase p.2)).count base := by
          intro base
          rw [filterMap_take_succ hget, hph]
          by_cases hbb : base = githubSlugBase heading
          · subst hbb
            rw [mget_mset_self]
            simp only [Option.getD_some]
            rw [hcnt]
            simp [List.count_append]
          · rw [mget_mset_ne _ _ hbb]
            rw [hcnt base]
            simp [List.count_append, List.count_cons, hbb]
        obtain ⟨ihs, ihn⟩ := ih _ (i + 1) hdrop1 hcnt1
        constructor
        · intro j lv hscan
          rw [hstep] at hscan
          obtain ⟨hij, hex, hmin⟩ := ihs j lv hscan
          refine ⟨by omega, hex, ?_⟩
          intro m him hmj
          by_cases hmi : m = i
          · subst hmi
            exact hnomatch
          · exact hmin m (by omega) hmj
        · intro hscan m him
          rw [hstep] at hscan
          by_cases hmi : m = i
          · subst hmi
            exact hnomatch
          · exact ihn hscan m (by omega)

/-- **C5**: headings are scanned in order with a per-page counter of base
slugs: the matched heading is the first whose raw text or assigned slug (base
slug for a first occurrence, `base-n` counting earlier occurrences of the
same base) equals the trimmed anchor, and the extracted section consists of
the matched heading line together with the following lines up to (but not
including) the next heading of level at most the matched level, or the end of
the page. -/
theorem claim_C5 (markdown anchor : Str) :
    (∀ i lv,
      scanForAnchor (trimS anchor) (splitLines (normalizeNewlines markdown)) [] 0 =
        some (i, lv) →
      (∃ h, ((splitLines (normalizeNewlines markdown)).get? i).bind parseHeading =
          some (lv, h) ∧
        (h = trimS anchor ∨
          specSlugAt (splitLines (normalizeNewlines markdown)) i = trimS anchor)) ∧
      (∀ m, m < i →
        ¬ specMatches (trimS anchor) (splitLines (normalizeNewlines markdown)) m) ∧
      (trimS anchor ≠ [] →
        extractMarkdownSectionByAnchor markdown anchor =
          (if trimEndS (joinLines
              (specSection (splitLines (normalizeNewlines markdown)) i lv)) = []
           then none
           else some (trimEndS (joinLines
              (specSection (splitLines (normalizeNewlines markdown)) i lv)) ++
                ['\n'])))) ∧
    (scanForAnchor (trimS anchor) (splitLines (normalizeNewlines markdown)) [] 0 =
        none →
      ∀ m, ¬ specMatches (trimS anchor) (splitLines (normalizeNewlines markdown)) m) := by
  have hbase := scanForAnchor_spec (trimS anchor)
    (splitLines (normalizeNewlines markdown))
    (splitLines (normalizeNewlines markdown)) [] 0
    (List.drop_zero _)
    (by
      intro base
      simp [mget])
  obtain ⟨hsome, hnone⟩ := hbase
  constructor
  · intro i lv hscan
    obtain ⟨_, hex, hmin⟩ := hsome i lv hscan
    refine ⟨hex, fun m hm => hmin m (by omega) hm, ?_⟩
    intro hanch
    rw [extractMarkdownSectionByAnchor]
    simp only []
    rw [if_neg hanch, hscan]
    rw [specSection]
  · intro hscan m
    exact hnone hscan m (by omega)

theorem claim_C5_witness :
    (∃ h, ((splitLines (normalizeNewlines (str "## a\nbody"))).get? 0).bind
        parseHeading = some (2, h) ∧
      (h = trimS (str "a") ∨
        specSlugAt (splitLines (normalizeNewlines (str "## a\nbody"))) 0 =
          trimS (str "a"))) ∧
    extractMarkdownSectionByAnchor (str "## a\nbody") (str "a") =
      (if trimEndS (joinLines
          (specSection (splitLines (normalizeNewlines (str "## a\nbody"))) 0 2)) = []
       then none
       else some (trimEndS (joinLines
          (specSection (splitLines (normalizeNewlines (str "## a\nbody"))) 0 2)) ++
            ['\n'])) :=
  ⟨((claim_C5 (str "## a\nbody") (str "a")).1 0 2 (by decide)).1,
   ((claim_C5 (str "## a\nbody") (str "a")).1 0 2 (by decide)).2.2 (by decide)⟩

/-- **C3**: the generator's top-level writes are the chunk sequence, the
copied source JSON files, `README.md`, `SEARCH.md` and `manifest.json` — no
`symbols.json` is ever written, although the specification (and the smoke
test) expect a symbols lookup table alongside the manifest. -/
theorem claim_C3 (inp : GenInput) :
    str "manifest.json" ∈ topLevelOutputNames inp ∧
    str "symbols.json" ∉ topLevelOutputNames inp := by
  constructor
  · rw [topLevelOutputNames]
    simp
  · intro hmem
    rw [topLevelOutputNames] at hmem
    rcases List.mem_append.mp hmem with h | h
    · rcases List.mem_append.mp h with h2 | h2
      · rcases List.mem_append.mp h2 with h3 | h3
        · simp at h3
          exact absurd h3 (by decide)
        · by_cases hrt : inp.runtimeDoc.isSome
          · rw [if_pos hrt] at h3
            simp at h3
            exact absurd h3 (by decide)
          · rw [if_neg hrt] at h3
            simp at h3
      · by_cases hpt : inp.prototypeDoc.isSome
        · rw [if_pos hpt] at h2
          simp at h2
          exact absurd h2 (by decide)
        · rw [if_neg hpt] at h2
          simp at h2
    · simp at h
      rcases h with h1 | h1 | h1 <;> exact absurd h1 (by decide)

theorem emitChunk_id (resolve : Str → Option ResolveResult) (rec : ChunkRecordG) :
    (emitChunk resolve rec).id = rec.id := by
  rw [emitChunk]
  cases rec.relMarkdownPath <;> rfl

theorem allChunkIds_eq (inp : GenInput) :
    allChunkIds inp =
      ((if inp.onlyAuxiliary then (auxPagesSorted inp).map (auxChunk inp) else []) ++
        (match inp.runtimeDoc with
          | some rt => if inp.onlyRuntime then runtimeRawChunks inp rt else []
          | none => []) ++
        (match inp.prototypeDoc with
          | some pt => if inp.onlyPrototype then prototypeRawChunks inp pt else []
          | none => [])).map ChunkRecordG.id := by
  rw [allChunkIds, emittedChunks]
  rw [List.map_map]
  apply List.map_congr_left
  intro r _
  exact emitChunk_id _ r

theorem contains_false_forall {s : Str} {c : Char} (h : ¬ s.contains c = true) :
    ∀ x ∈ s, x ≠ c := by
  intro x hx heq
  subst heq
  exact h (List.elem_eq_true_of_mem hx)

theorem noSlashHash_chars {s : Str} (h : noSlashHash s = true) :
    ∀ x ∈ s, x ≠ '/' ∧ x ≠ '#' := by
  rw [noSlashHash] at h
  simp only [Bool.and_eq_true, decide_eq_true_eq] at h
  intro x hx
  exact ⟨contains_false_forall (by simpa using h.1) x hx,
    contains_false_forall (by simpa using h.2) x hx⟩

theorem occursAt_single_iff {h : Str} {c : Char} {j : Nat} :
    occursAt h [c] j ↔ h.get? j = some c := by
  rw [occursAt]
  cases hd : h.drop j with
  | nil =>
    have hlen : h.length ≤ j := List.drop_eq_nil_iff_le.mp hd
    rw [List.get?_eq_none.mpr hlen]
    simp [List.isPrefixOf]
  | cons x xs =>
    have hget : h.get? j = some x := by
      have h0 := List.get?_drop h j 0
      rw [hd] at h0
      simpa using h0.symm
    rw [hget]
    simp [List.isPrefixOf]
    constructor
    · intro h1
      exact h1.symm
    · intro h1
      exact h1.symm

theorem indexOfSub_hash_none {s : Str} (h : ∀ x ∈ s, x ≠ '#') :
    indexOfSub s ['#'] = none := by
  cases hidx : indexOfSub s ['#'] with
  | none => rfl
  | some i =>
    obtain ⟨hocc, _⟩ := indexOfSub_some_spec hidx
    have hget := occursAt_single_iff.mp hocc
    have hmem : '#' ∈ s := by
      have := List.get?_eq_some.mp hget
      obtain ⟨hlt, hval⟩ := this
      rw [← hval]
      exact List.get_mem _ _ _
    exact absurd rfl (h '#' hmem)

theorem indexOfSub_hash_append {nm mb : Str} (h : ∀ x ∈ nm, x ≠ '#') :
    indexOfSub (nm ++ '#' :: mb) ['#'] = some nm.length := by
  apply indexOfSub_of_least
  · rw [occursAt_single_iff]
    have h0 := List.get?_drop (nm ++ '#' :: mb) nm.length 0
    rw [List.drop_left] at h0
    simpa using h0.symm
  · intro j hj hocc
    rw [occursAt_single_iff] at hocc
    have hget : (nm ++ '#' :: mb).get? j = nm.get? j := by
      rw [List.get?_append (by omega)]
    rw [hget] at hocc
    have hmem : '#' ∈ nm := by
      have := List.get?_eq_some.mp hocc
      obtain ⟨hlt, hval⟩ := this
      rw [← hval]
      exact List.get_mem _ _ _
    exact absurd rfl (h '#' hmem)

theorem splitHashFirst_no_hash {s : Str} (h : ∀ x ∈ s, x ≠ '#') :
    splitHashFirst s = (s, none) := by
  rw [splitHashFirst, indexOfC, indexOfSub_hash_none h]

theorem splitHashFirst_mem {nm mb : Str} (h : ∀ x ∈ nm, x ≠ '#') :
    splitHashFirst (nm ++ '#' :: mb) = (nm, some mb) := by
  have hd : (nm ++ '#' :: mb).drop (nm.length + 1) = mb := by
    have hx : nm ++ '#' :: mb = (nm ++ ['#']) ++ mb := by simp
    rw [hx]
    have h2 : (nm ++ ['#']).length = nm.length + 1 := by simp
    rw [← h2]
    exact List.drop_left _ _
  rw [splitHashFirst, indexOfC, indexOfSub_hash_append h]
  dsimp only
  rw [List.take_left, hd]

theorem keyOfTail_one {s1 nm : Str} (h1 : ∀ x ∈ s1, x ≠ '/')
    (hn : ∀ x ∈ nm, x ≠ '/' ∧ x ≠ '#') :
    keyOfTail (s1 ++ '/' :: nm) = ([s1], (nm, none)) := by
  rw [keyOfTail]
  rw [splitOnC_append_sep, splitOnC_eq_single h1,
    splitOnC_eq_single (fun x hx => (hn x hx).1)]
  show ([s1], splitHashFirst nm) = ([s1], (nm, none))
  rw [splitHashFirst_no_hash (fun x hx => (hn x hx).2)]

theorem keyOfTail_two {s1 s2 nm : Str} (h1 : ∀ x ∈ s1, x ≠ '/')
    (h2 : ∀ x ∈ s2, x ≠ '/') (hn : ∀ x ∈ nm, x ≠ '/' ∧ x ≠ '#') :
    keyOfTail (s1 ++ '/' :: (s2 ++ '/' :: nm)) = ([s1, s2], (nm, none)) := by
  rw [keyOfTail]
  rw [splitOnC_append_sep, splitOnC_append_sep, splitOnC_eq_single h1,
    splitOnC_eq_single h2, splitOnC_eq_single (fun x hx => (hn x hx).1)]
  show ([s1, s2], splitHashFirst nm) = ([s1, s2], (nm, none))
  rw [splitHashFirst_no_hash (fun x hx => (hn x hx).2)]

theorem keyOfTail_two_mem {s1 s2 nm mb : Str} (h1 : ∀ x ∈ s1, x ≠ '/')
    (h2 : ∀ x ∈ s2, x ≠ '/') (hn : ∀ x ∈ nm, x ≠ '/' ∧ x ≠ '#')
    (hm : ∀ x ∈ mb, x ≠ '/' ∧ x ≠ '#') :
    keyOfTail (s1 ++ '/' :: (s2 ++ '/' :: (nm ++ '#' :: mb))) =
      ([s1, s2], (nm, some mb)) := by
  rw [keyOfTail]
  have hlast : ∀ x ∈ nm ++ '#' :: mb, x ≠ '/' := by
    intro x hx
    rcases List.mem_append.mp hx with h | h
    · exact (hn x h).1
    · rcases List.mem_cons.mp h with rfl | h
      · decide
      · exact (hm x h).1
  rw [splitOnC_append_sep, splitOnC_append_sep, splitOnC_eq_single h1,
    splitOnC_eq_single h2, splitOnC_eq_single hlast]
  show ([s1, s2], splitHashFirst (nm ++ '#' :: mb)) = ([s1, s2], (nm, some mb))
  rw [splitHashFirst_mem (fun x hx => (hn x hx).2)]

theorem drop_ver {v t : Str} : (v ++ '/' :: t).drop (v.length + 1) = t := by
  have h1 : v ++ '/' :: t = (v ++ ['/']) ++ t := by simp
  rw [h1]
  have h2 : (v ++ ['/']).length = v.length + 1 := by simp
  rw [← h2]
  exact List.drop_left _ _

theorem idKey_one {v s1 nm : Str} (h1 : ∀ x ∈ s1, x ≠ '/')
    (hn : ∀ x ∈ nm, x ≠ '/' ∧ x ≠ '#') :
    idKey v (v ++ '/' :: (s1 ++ '/' :: nm)) = ([s1], (nm, none)) := by
  rw [idKey, drop_ver]
  exact keyOfTail_one h1 hn

theorem idKey_two {v s1 s2 nm : Str} (h1 : ∀ x ∈ s1, x ≠ '/')
    (h2 : ∀ x ∈ s2, x ≠ '/') (hn : ∀ x ∈ nm, x ≠ '/' ∧ x ≠ '#') :
    idKey v (v ++ '/' :: (s1 ++ '/' :: (s2 ++ '/' :: nm))) = ([s1, s2], (nm, none)) := by
  rw [idKey, drop_ver]
  exact keyOfTail_two h1 h2 hn

theorem idKey_two_mem {v s1 s2 nm mb : Str} (h1 : ∀ x ∈ s1, x ≠ '/')
    (h2 : ∀ x ∈ s2, x ≠ '/') (hn : ∀ x ∈ nm, x ≠ '/' ∧ x ≠ '#')
    (hm : ∀ x ∈ mb, x ≠ '/' ∧ x ≠ '#') :
    idKey v (v ++ '/' :: (s1 ++ '/' :: (s2 ++ '/' :: (nm ++ '#' :: mb)))) =
      ([s1, s2], (nm, some mb)) := by
  rw [idKey, drop_ver]
  exact keyOfTail_two_mem h1 h2 hn hm

theorem idKey_classMember {v cn an : Str} (hn : noSlashHash cn = true)
    (hm : noSlashHash an = true) :
    idKey v (v ++ str "/runtime/class/" ++ cn ++ '#' :: an) =
      ([str "runtime", str "class"], (cn, some an)) := by
  have hsh : v ++ str "/runtime/class/" ++ cn ++ '#' :: an =
      v ++ '/' :: (str "runtime" ++ '/' :: (str "class" ++ '/' :: (cn ++ '#' :: an))) := by
    rw [List.append_assoc, List.append_assoc]
    rfl
  rw [hsh, idKey_two_mem (by decide) (by decide) (noSlashHash_chars hn)
    (noSlashHash_chars hm)]

theorem idKey_classRoot {v cn : Str} (hn : noSlashHash cn = true) :
    idKey v (v ++ str "/runtime/class/" ++ cn) =
      ([str "runtime", str "class"], (cn, none)) := by
  have hsh : v ++ str "/runtime/class/" ++ cn =
      v ++ '/' :: (str "runtime" ++ '/' :: (str "class" ++ '/' :: cn)) := by
    rw [List.append_assoc]
    rfl
  rw [hsh, idKey_two (by decide) (by decide) (noSlashHash_chars hn)]

theorem idKey_concept {v n : Str} (hn : noSlashHash n = true) :
    idKey v (v ++ str "/runtime/concept/" ++ n) =
      ([str "runtime", str "concept"], (n, none)) := by
  have hsh : v ++ str "/runtime/concept/" ++ n =
      v ++ '/' :: (str "runtime" ++ '/' :: (str "concept" ++ '/' :: n)) := by
    rw [List.append_assoc]
    rfl
  rw [hsh, idKey_two (by decide) (by decide) (noSlashHash_chars hn)]

theorem idKey_event {v n : Str} (hn : noSlashHash n = true) :
    idKey v (v ++ str "/runtime/event/" ++ n) =
      ([str "runtime", str "event"], (n, none)) := by
  have hsh : v ++ str "/runtime/event/" ++ n =
      v ++ '/' :: (str "runtime" ++ '/' :: (str "event" ++ '/' :: n)) := by
    rw [List.append_assoc]
    rfl
  rw [hsh, idKey_two (by decide) (by decide) (noSlashHash_chars hn)]

theorem idKey_globalFunction {v n : Str} (hn : noSlashHash n = true) :
    idKey v (v ++ str "/runtime/global_function/" ++ n) =
      ([str "runtime", str "global_function"], (n, none)) := by
  have hsh : v ++ str "/runtime/global_function/" ++ n =
      v ++ '/' :: (str "runtime" ++ '/' :: (str "global_function" ++ '/' :: n)) := by
    rw [List.append_assoc]
    rfl
  rw [hsh, idKey_two (by decide) (by decide) (noSlashHash_chars hn)]

theorem idKey_globalObject {v n : Str} (hn : noSlashHash n = true) :
    idKey v (v ++ str "/runtime/global_object/" ++ n) =
      ([str "runtime", str "global_object"], (n, none)) := by
  have hsh : v ++ str "/runtime/global_object/" ++ n =
      v ++ '/' :: (str "runtime" ++ '/' :: (str "global_object" ++ '/' :: n)) := by
    rw [List.append_assoc]
    rfl
  rw [hsh, idKey_two (by decide) (by decide) (noSlashHash_chars hn)]

theorem idKey_protoProp {v pn prn : Str} (hn : noSlashHash pn = true)
    (hm : noSlashHash prn = true) :
    idKey v (v ++ str "/prototype/prototype/" ++ pn ++ '#' :: prn) =
      ([str "prototype", str "prototype"], (pn, some prn)) := by
  have hsh : v ++ str "/prototype/prototype/" ++ pn ++ '#' :: prn =
      v ++ '/' :: (str "prototype" ++ '/' :: (str "prototype" ++ '/' ::
        (pn ++ '#' :: prn))) := by
    rw [List.append_assoc, List.append_assoc]
    rfl
  rw [hsh, idKey_two_mem (by decide) (by decide) (noSlashHash_chars hn)
    (noSlashHash_chars hm)]

theorem idKey_protoRoot {v pn : Str} (hn : noSlashHash pn = true) :
    idKey v (v ++ str "/prototype/prototype/" ++ pn) =
      ([str "prototype", str "prototype"], (pn, none)) := by
  have hsh : v ++ str "/prototype/prototype/" ++ pn =
      v ++ '/' :: (str "prototype" ++ '/' :: (str "prototype" ++ '/' :: pn)) := by
    rw [List.append_assoc]
    rfl
  rw [hsh, idKey_two (by decide) (by decide) (noSlashHash_chars hn)]

theorem idKey_typeProp {v tn prn : Str} (hn : noSlashHash tn = true)
    (hm : noSlashHash prn = true) :
    idKey v (v ++ str "/prototype/type/" ++ tn ++ '#' :: prn) =
      ([str "prototype", str "type"], (tn, some prn)) := by
  have hsh : v ++ str "/prototype/type/" ++ tn ++ '#' :: prn =
      v ++ '/' :: (str "prototype" ++ '/' :: (str "type" ++ '/' ::
        (tn ++ '#' :: prn))) := by
    rw [List.append_assoc, List.append_assoc]
    rfl
  rw [hsh, idKey_two_mem (by decide) (by decide) (noSlashHash_chars hn)
    (noSlashHash_chars hm)]

theorem idKey_typeRoot {v tn : Str} (hn : noSlashHash tn = true) :
    idKey v (v ++ str "/prototype/type/" ++ tn) =
      ([str "prototype", str "type"], (tn, none)) := by
  have hsh : v ++ str "/prototype/type/" ++ tn =
      v ++ '/' :: (str "prototype" ++ '/' :: (str "type" ++ '/' :: tn)) := by
    rw [List.append_assoc]
    rfl
  rw [hsh, idKey_two (by decide) (by decide) (noSlashHash_chars hn)]

theorem idKey_defineValue {v stg dn vn : Str} (hstg : ∀ x ∈ stg, x ≠ '/')
    (hn : noSlashHash dn = true) (hm : noSlashHash vn = true) :
    idKey v (v ++ '/' :: stg ++ str "/define/" ++ dn ++ '#' :: vn) =
      ([stg, str "define"], (dn, some vn)) := by
  have hsh : v ++ '/' :: stg ++ str "/define/" ++ dn ++ '#' :: vn =
      v ++ '/' :: (stg ++ '/' :: (str "define" ++ '/' :: (dn ++ '#' :: vn))) := by
    simp only [List.append_assoc, List.cons_append]
    rfl
  rw [hsh, idKey_two_mem hstg (by decide) (noSlashHash_chars hn)
    (noSlashHash_chars hm)]

theorem idKey_defineRoot {v stg dn : Str} (hstg : ∀ x ∈ stg, x ≠ '/')
    (hn : noSlashHash dn = true) :
    idKey v (v ++ '/' :: stg ++ str "/define/" ++ dn) =
      ([stg, str "define"], (dn, none)) := by
  have hsh : v ++ '/' :: stg ++ str "/define/" ++ dn =
      v ++ '/' :: (stg ++ '/' :: (str "define" ++ '/' :: dn)) := by
    simp only [List.append_assoc, List.cons_append]
    rfl
  rw [hsh, idKey_two hstg (by decide) (noSlashHash_chars hn)]

theorem idKey_index {v stg kind : Str} (hstg : ∀ x ∈ stg, x ≠ '/')
    (hkind : ∀ x ∈ kind, x ≠ '/') :
    idKey v (v ++ '/' :: stg ++ '/' :: kind ++ str "/index") =
      ([stg, kind], (str "index", none)) := by
  have hsh : v ++ '/' :: stg ++ '/' :: kind ++ str "/index" =
      v ++ '/' :: (stg ++ '/' :: (kind ++ '/' :: str "index")) := by
    simp only [List.append_assoc, List.cons_append]
    rfl
  rw [hsh, idKey_two hstg hkind (by decide)]

theorem idKey_aux {v base : Str} (hn : noSlashHash base = true) :
    idKey v (v ++ str "/auxiliary/" ++ base) =
      ([str "auxiliary"], (base, none)) := by
  have hsh : v ++ str "/auxiliary/" ++ base =
      v ++ '/' :: (str "auxiliary" ++ '/' :: base) := by
    rw [List.append_assoc]
    rfl
  rw [hsh, idKey_one (by decide) (noSlashHash_chars hn)]

theorem sortByOrder_perm {α} (ord : α → Option Int) (l : List α) :
    (sortByOrder ord l).Perm l := List.mergeSort_perm l _

theorem sortByOrder_map_nodup {α β} {ord : α → Option Int} {l : List α}
    {name : α → β} (h : (l.map name).Nodup) :
    ((sortByOrder ord l).map name).Nodup :=
  (((sortByOrder_perm ord l).map name).nodup_iff).mpr h

theorem mem_sortByOrder {α} {ord : α → Option Int} {l : List α} {x : α}
    (h : x ∈ sortByOrder ord l) : x ∈ l :=
  (sortByOrder_perm ord l).mem_iff.mp h

theorem family_keys {α} {l : List α} {f : α → ChunkRecordG}
    {key : Str → List Str × (Str × Option Str)} {tag : List Str} {name : α → Str}
    (hdec : ∀ x ∈ l, key (f x).id = (tag, (name x, none)))
    (hnames : (l.map name).Nodup) :
    ((l.map f).map (fun r => key r.id)).Nodup ∧
    (∀ k ∈ (l.map f).map (fun r => key r.id), ∃ nm, k = (tag, (nm, none))) := by
  rw [List.map_map]
  simp only [Function.comp_def]
  have heq : l.map (fun x => key (f x).id) =
      (l.map name).map (fun nm => (tag, (nm, none))) := by
    rw [List.map_map]
    exact List.map_congr_left hdec
  constructor
  · rw [heq]
    refine hnames.map ?_
    intro a b hab
    simpa using hab
  · intro k hk
    rw [heq] at hk
    obtain ⟨nm, _, rfl⟩ := List.mem_map.mp hk
    exact ⟨nm, rfl⟩

theorem member_family_keys {α} {l : List α} {f : α → ChunkRecordG}
    {key : Str → List Str × (Str × Option Str)} {tag : List Str} {cn : Str}
    {name : α → Str}
    (hdec : ∀ x ∈ l, key (f x).id = (tag, (cn, some (name x))))
    (hnames : (l.map name).Nodup) :
    ((l.map f).map (fun r => key r.id)).Nodup ∧
    (∀ k ∈ (l.map f).map (fun r => key r.id),
      ∃ nm, k = (tag, (cn, some nm)) ∧ nm ∈ l.map name) := by
  rw [List.map_map]
  simp only [Function.comp_def]
  have heq : l.map (fun x => key (f x).id) =
      (l.map name).map (fun nm => (tag, (cn, some nm))) := by
    rw [List.map_map]
    exact List.map_congr_left hdec
  constructor
  · rw [heq]
    refine hnames.map ?_
    intro a b hab
    simpa using hab
  · intro k hk
    rw [heq] at hk
    obtain ⟨nm, hnm, rfl⟩ := List.mem_map.mp hk
    exact ⟨nm, rfl, hnm⟩

theorem two_member_block_keys {α β} {la : List α} {lb : List β}
    {fa : α → ChunkRecordG} {fb : β → ChunkRecordG} {root : ChunkRecordG}
    {key : Str → List Str × (Str × Option Str)} {tag : List Str} {cn : Str}
    {na : α → Str} {nb : β → Str}
    (hdeca : ∀ x ∈ la, key (fa x).id = (tag, (cn, some (na x))))
    (hdecb : ∀ x ∈ lb, key (fb x).id = (tag, (cn, some (nb x))))
    (hroot : key root.id = (tag, (cn, none)))
    (hnames : (la.map na ++ lb.map nb).Nodup) :
    (((la.map fa ++ lb.map fb) ++ [root]).map (fun r => key r.id)).Nodup ∧
    (∀ k ∈ ((la.map fa ++ lb.map fb) ++ [root]).map (fun r => key r.id),
      ∃ mb, k = (tag, (cn, mb))) := by
  obtain ⟨hand, hbnd, hdisj⟩ := List.nodup_append.mp hnames
  obtain ⟨h1a, h2a⟩ := member_family_keys hdeca hand
  obtain ⟨h1b, h2b⟩ := member_family_keys hdecb hbnd
  simp only [List.map_append]
  constructor
  · rw [List.nodup_append]
    refine ⟨?_, by simp, ?_⟩
    · rw [List.nodup_append]
      refine ⟨h1a, h1b, ?_⟩
      intro x hx hx2
      obtain ⟨nm, rfl, hnm⟩ := h2a x hx
      obtain ⟨nm2, heq, hnm2⟩ := h2b _ hx2
      injection heq with e1 e2
      injection e2 with e3 e4
      injection e4 with e5
      subst e5
      exact hdisj hnm hnm2
    · intro x hx hx2
      simp only [List.map_cons, List.map_nil, List.mem_singleton] at hx2
      rcases List.mem_append.mp hx with h | h
      · obtain ⟨nm, rfl, _⟩ := h2a x h
        rw [hroot] at hx2
        injection hx2 with e1 e2
        injection e2 with e3 e4
        cases e4
      · obtain ⟨nm, rfl, _⟩ := h2b x h
        rw [hroot] at hx2
        injection hx2 with e1 e2
        injection e2 with e3 e4
        cases e4
  · intro k hk
    rcases List.mem_append.mp hk with h | h
    · rcases List.mem_append.mp h with h2 | h2
      · obtain ⟨nm, rfl, _⟩ := h2a k h2
        exact ⟨some nm, rfl⟩
      · obtain ⟨nm, rfl, _⟩ := h2b k h2
        exact ⟨some nm, rfl⟩
    · simp only [List.map_cons, List.map_nil, List.mem_singleton] at h
      rw [h, hroot]
      exact ⟨none, rfl⟩

theorem one_member_block_keys {α} {l : List α} {f : α → ChunkRecordG}
    {root : ChunkRecordG}
    {key : Str → List Str × (Str × Option Str)} {tag : List Str} {cn : Str}
    {name : α → Str}
    (hdec : ∀ x ∈ l, key (f x).id = (tag, (cn, some (name x))))
    (hroot : key root.id = (tag, (cn, none)))
    (hnames : (l.map name).Nodup) :
    ((l.map f ++ [root]).map (fun r => key r.id)).Nodup ∧
    (∀ k ∈ (l.map f ++ [root]).map (fun r => key r.id),
      ∃ mb, k = (tag, (cn, mb))) := by
  obtain ⟨h1, h2⟩ := member_family_keys hdec hnames
  rw [List.map_append]
  constructor
  · rw [List.nodup_append]
    refine ⟨h1, by simp, ?_⟩
    intro x hx
    obtain ⟨nm, rfl, _⟩ := h2 x hx
    simp [hroot]
  · intro k hk
    rcases List.mem_append.mp hk with h | h
    · obtain ⟨nm, rfl, _⟩ := h2 k h
      exact ⟨some nm, rfl⟩
    · simp only [List.map_cons, List.map_nil, List.mem_singleton] at h
      rw [h, hroot]
      exact ⟨none, rfl⟩

theorem classChunks_keys (inp : GenInput) (c : RtClass)
    (hcn : noSlashHash c.name = true)
    (hnames : ((c.attributes.map RtAttribute.name) ++
      (c.methods.map RtMethod.name)).Nodup)
    (hattrs : ∀ a ∈ c.attributes, noSlashHash a.name = true)
    (hmeths : ∀ m ∈ c.methods, noSlashHash m.name = true) :
    ((classChunks inp c).map (fun r => idKey inp.version r.id)).Nodup ∧
    (∀ k ∈ (classChunks inp c).map (fun r => idKey inp.version r.id),
      ∃ mb, k = ([str "runtime", str "class"], (c.name, mb))) := by
  have hperm : ((sortByOrder RtAttribute.order c.attributes).map RtAttribute.name ++
      (sortByOrder RtMethod.order c.methods).map RtMethod.name).Nodup := by
    have hp := ((sortByOrder_perm RtAttribute.order c.attributes).map
      RtAttribute.name).append ((sortByOrder_perm RtMethod.order c.methods).map
        RtMethod.name)
    exact hp.nodup_iff.mpr hnames
  rw [classChunks]
  exact two_member_block_keys
    (fun a ha => idKey_classMember hcn (hattrs a (mem_sortByOrder ha)))
    (fun m hm => idKey_classMember hcn (hmeths m (mem_sortByOrder hm)))
    (idKey_classRoot hcn)
    hperm

theorem defineChunks_keys (inp : GenInput) (stg outRel : Str) (d : RtDefine)
    (hstg : ∀ x ∈ stg, x ≠ '/')
    (hn : noSlashHash d.name = true)
    (hvnd : (d.values.map DefineValue.name).Nodup)
    (hvals : ∀ v ∈ d.values, noSlashHash v.name = true) :
    ((defineChunks inp stg outRel d).map (fun r => idKey inp.version r.id)).Nodup ∧
    (∀ k ∈ (defineChunks inp stg outRel d).map (fun r => idKey inp.version r.id),
      ∃ mb, k = ([stg, str "define"], (d.name, mb))) := by
  rw [defineChunks]
  exact one_member_block_keys
    (fun v hv => idKey_defineValue hstg hn (hvals v (mem_sortByOrder hv)))
    (idKey_defineRoot hstg hn)
    (sortByOrder_map_nodup hvnd)

theorem prototypeChunksOf_keys (inp : GenInput) (p : Prototype)
    (hn : noSlashHash p.name = true)
    (hpnd : (p.properties.map ProtoProperty.name).Nodup)
    (hprops : ∀ pr ∈ p.properties, noSlashHash pr.name = true) :
    ((prototypeChunksOf inp p).map (fun r => idKey inp.version r.id)).Nodup ∧
    (∀ k ∈ (prototypeChunksOf inp p).map (fun r => idKey inp.version r.id),
      ∃ mb, k = ([str "prototype", str "prototype"], (p.name, mb))) := by
  rw [prototypeChunksOf]
  exact one_member_block_keys
    (fun pr hpr => idKey_protoProp hn (hprops pr (mem_sortByOrder hpr)))
    (idKey_protoRoot hn)
    (sortByOrder_map_nodup hpnd)

theorem typeChunksOf_keys (inp : GenInput) (t : ProtoType)
    (hn : noSlashHash t.name = true)
    (hpnd : (t.properties.map ProtoProperty.name).Nodup)
    (hprops : ∀ pr ∈ t.properties, noSlashHash pr.name = true) :
    ((typeChunksOf inp t).map (fun r => idKey inp.version r.id)).Nodup ∧
    (∀ k ∈ (typeChunksOf inp t).map (fun r => idKey inp.version r.id),
      ∃ mb, k = ([str "prototype", str "type"], (t.name, mb))) := by
  rw [typeChunksOf]
  exact one_member_block_keys
    (fun pr hpr => idKey_typeProp hn (hprops pr (mem_sortByOrder hpr)))
    (idKey_typeRoot hn)
    (sortByOrder_map_nodup hpnd)

theorem disjoint_of_tag2 {K1 K2 : List (List Str × (Str × Option Str))}
    {S1 S2 : List Str}
    (h1 : ∀ k ∈ K1, k.1.tail.headI ∈ S1)
    (h2 : ∀ k ∈ K2, k.1.tail.headI ∈ S2)
    (hd : ∀ s ∈ S1, s ∉ S2) : K1.Disjoint K2 := by
  intro x hx1 hx2
  exact hd _ (h1 x hx1) (h2 x hx2)

theorem nodup_append_tag2 {K1 K2 : List (List Str × (Str × Option Str))}
    {S1 S2 : List Str}
    (h1 : K1.Nodup) (h2 : K2.Nodup)
    (hs1 : ∀ k ∈ K1, k.1.tail.headI ∈ S1)
    (hs2 : ∀ k ∈ K2, k.1.tail.headI ∈ S2)
    (hd : ∀ s ∈ S1, s ∉ S2) :
    (K1 ++ K2).Nodup ∧ ∀ k ∈ K1 ++ K2, k.1.tail.headI ∈ S1 ++ S2 := by
  constructor
  · exact List.nodup_append.mpr ⟨h1, h2, disjoint_of_tag2 hs1 hs2 hd⟩
  · intro k hk
    rcases List.mem_append.mp hk with h | h
    · exact List.mem_append.mpr (Or.inl (hs1 k h))
    · exact List.mem_append.mpr (Or.inr (hs2 k h))

theorem runtimeRawChunks_keys (inp : GenInput) (rt : RuntimeDoc)
    (hc : cleanRtDoc rt) :
    ((runtimeRawChunks inp rt).map (fun r => idKey inp.version r.id)).Nodup ∧
    (∀ k ∈ (runtimeRawChunks inp rt).map (fun r => idKey inp.version r.id),
      k.1.headI = str "runtime") := by
  obtain ⟨⟨hclsnd, hcls⟩, ⟨hconnd, hcon⟩, ⟨hevnd, hev⟩, ⟨hdefnd, hdef⟩,
    ⟨hgfnd, hgf⟩, ⟨hgond, hgo⟩⟩ := hc
  have hi1 := @idKey_index inp.version (str "runtime") (str "classes")
    (by decide) (by decide)
  have hi2 := @idKey_index inp.version (str "runtime") (str "concepts")
    (by decide) (by decide)
  have hi3 := @idKey_index inp.version (str "runtime") (str "events")
    (by decide) (by decide)
  have hi4 := @idKey_index inp.version (str "runtime") (str "defines")
    (by decide) (by decide)
  rw [runtimeRawChunks]
  simp only [List.map_append, List.map_flatMap, List.map_cons, List.map_nil,
    indexChunk]
  rw [hi1, hi2, hi3, hi4]
  -- per-part Nodup and shape facts
  have hC := fun c (hcm : c ∈ rt.classes) =>
    classChunks_keys inp c (hcls c hcm).1 (hcls c hcm).2.1
      (hcls c hcm).2.2.1 (hcls c hcm).2.2.2
  have hN := @family_keys _ rt.concepts (conceptChunk inp) (idKey inp.version)
    [str "runtime", str "concept"] RtConcept.name
    (fun c hcm => idKey_concept (hcon c hcm)) hconnd
  have hE := @family_keys _ rt.events (eventChunk inp) (idKey inp.version)
    [str "runtime", str "event"] RtEvent.name
    (fun e hem => idKey_event (hev e hem)) hevnd
  have hF := @family_keys _ rt.global_functions (globalFunctionChunk inp)
    (idKey inp.version) [str "runtime", str "global_function"] GlobalFunction.name
    (fun f hfm => idKey_globalFunction (hgf f hfm)) hgfnd
  have hO := @family_keys _ rt.global_objects (globalObjectChunk inp)
    (idKey inp.version) [str "runtime", str "global_object"] GlobalObject.name
    (fun o hom => idKey_globalObject (hgo o hom)) hgond
  have hD := fun d (hdm : d ∈ rt.defines) =>
    defineChunks_keys inp (str "runtime")
      (lookupRel inp (str "runtime:defines." ++ d.name)) d (by decide)
      (hdef d hdm).1 (hdef d hdm).2.1 (hdef d hdm).2.2
  have hAnd : ([([str "runtime", str "classes"], str "index", none),
      ([str "runtime", str "concepts"], str "index", none),
      ([str "runtime", str "events"], str "index", none),
      ([str "runtime", str "defines"], str "index", none)] :
      List (List Str × (Str × Option Str))).Nodup := by decide
  have hBnd : (rt.classes.flatMap fun a =>
      (classChunks inp a).map (fun r => idKey inp.version r.id)).Nodup := by
    rw [List.nodup_flatMap]
    refine ⟨fun c hcm => (hC c hcm).1, ?_⟩
    have hp : (rt.classes.map RtClass.name).Pairwise (fun a b => a ≠ b) := hclsnd
    refine List.Pairwise.imp_of_mem ?_ (List.pairwise_map.mp hp)
    intro a b ha hb hne k hk1 hk2
    obtain ⟨mb, hkeq⟩ := (hC a ha).2 k hk1
    obtain ⟨mb2, hkeq2⟩ := (hC b hb).2 k hk2
    have h3 := hkeq.symm.trans hkeq2
    simp only [Prod.mk.injEq] at h3
    exact hne h3.2.1
  have hDnd : (rt.defines.flatMap fun a =>
      (defineChunks inp (str "runtime")
        (lookupRel inp (str "runtime:defines." ++ a.name)) a).map
        (fun r => idKey inp.version r.id)).Nodup := by
    rw [List.nodup_flatMap]
    refine ⟨fun d hdm => (hD d hdm).1, ?_⟩
    have hp : (rt.defines.map RtDefine.name).Pairwise (fun a b => a ≠ b) := hdefnd
    refine List.Pairwise.imp_of_mem ?_ (List.pairwise_map.mp hp)
    intro a b ha hb hne k hk1 hk2
    obtain ⟨mb, hkeq⟩ := (hD a ha).2 k hk1
    obtain ⟨mb2, hkeq2⟩ := (hD b hb).2 k hk2
    have h3 := hkeq.symm.trans hkeq2
    simp only [Prod.mk.injEq] at h3
    exact hne h3.2.1
  have hsA : ∀ k ∈ ([([str "runtime", str "classes"], str "index", none),
      ([str "runtime", str "concepts"], str "index", none),
      ([str "runtime", str "events"], str "index", none),
      ([str "runtime", str "defines"], str "index", none)] :
      List (List Str × (Str × Option Str))),
      k.1.tail.headI ∈ [str "classes", str "concepts", str "events",
        str "defines"] := by decide
  have hsB : ∀ k ∈ (rt.classes.flatMap fun a =>
      (classChunks inp a).map (fun r => idKey inp.version r.id)),
      k.1.tail.headI ∈ [str "class"] := by
    intro k hk
    obtain ⟨c, hcm, hk2⟩ := List.mem_flatMap.mp hk
    obtain ⟨mb, hkeq⟩ := (hC c hcm).2 k hk2
    subst hkeq
    exact List.Mem.head _
  have hsC : ∀ k ∈ (rt.concepts.map (conceptChunk inp)).map
      (fun r => idKey inp.version r.id), k.1.tail.headI ∈ [str "concept"] := by
    intro k hk
    obtain ⟨nm, hkeq⟩ := hN.2 k hk
    subst hkeq
    exact List.Mem.head _
  have hsD : ∀ k ∈ (rt.events.map (eventChunk inp)).map
      (fun r => idKey inp.version r.id), k.1.tail.headI ∈ [str "event"] := by
    intro k hk
    obtain ⟨nm, hkeq⟩ := hE.2 k hk
    subst hkeq
    exact List.Mem.head _
  have hsE : ∀ k ∈ (rt.defines.flatMap fun a =>
      (defineChunks inp (str "runtime")
        (lookupRel inp (str "runtime:defines." ++ a.name)) a).map
        (fun r => idKey inp.version r.id)),
      k.1.tail.headI ∈ [str "define"] := by
    intro k hk
    obtain ⟨d, hdm, hk2⟩ := List.mem_flatMap.mp hk
    obtain ⟨mb, hkeq⟩ := (hD d hdm).2 k hk2
    subst hkeq
    exact List.Mem.head _
  have hsF : ∀ k ∈ (rt.global_functions.map (globalFunctionChunk inp)).map
      (fun r => idKey inp.version r.id),
      k.1.tail.headI ∈ [str "global_function"] := by
    intro k hk
    obtain ⟨nm, hkeq⟩ := hF.2 k hk
    subst hkeq
    exact List.Mem.head _
  have hsG : ∀ k ∈ (rt.global_objects.map (globalObjectChunk inp)).map
      (fun r => idKey inp.version r.id),
      k.1.tail.headI ∈ [str "global_object"] := by
    intro k hk
    obtain ⟨nm, hkeq⟩ := hO.2 k hk
    subst hkeq
    exact List.Mem.head _
  have h1 := nodup_append_tag2 hAnd hBnd hsA hsB (by decide)
  have h2 := nodup_append_tag2 h1.1 hN.1 h1.2 hsC (by decide)
  have h3 := nodup_append_tag2 h2.1 hE.1 h2.2 hsD (by decide)
  have h4 := nodup_append_tag2 h3.1 hDnd h3.2 hsE (by decide)
  have h5 := nodup_append_tag2 h4.1 hF.1 h4.2 hsF (by decide)
  have h6 := nodup_append_tag2 h5.1 hO.1 h5.2 hsG (by decide)
  refine ⟨h6.1, ?_⟩
  have hhA : ∀ k ∈ ([([str "runtime", str "classes"], str "index", none),
      ([str "runtime", str "concepts"], str "index", none),
      ([str "runtime", str "events"], str "index", none),
      ([str "runtime", str "defines"], str "index", none)] :
      List (List Str × (Str × Option Str))),
      k.1.headI = str "runtime" := by decide
  intro k hk
  simp only [List.mem_append] at hk
  rcases hk with ((((((hk | hk) | hk) | hk) | hk) | hk) | hk)
  · exact hhA k hk
  · obtain ⟨c, hcm, hk2⟩ := List.mem_flatMap.mp hk
    obtain ⟨mb, hkeq⟩ := (hC c hcm).2 k hk2
    subst hkeq
    rfl
  · obtain ⟨nm, hkeq⟩ := hN.2 k hk
    subst hkeq
    rfl
  · obtain ⟨nm, hkeq⟩ := hE.2 k hk
    subst hkeq
    rfl
  · obtain ⟨d, hdm, hk2⟩ := List.mem_flatMap.mp hk
    obtain ⟨mb, hkeq⟩ := (hD d hdm).2 k hk2
    subst hkeq
    rfl
  · obtain ⟨nm, hkeq⟩ := hF.2 k hk
    subst hkeq
    rfl
  · obtain ⟨nm, hkeq⟩ := hO.2 k hk
    subst hkeq
    rfl

theorem prototypeRawChunks_keys (inp : GenInput) (pt : PrototypeDoc)
    (hc : cleanPtDoc pt) :
    ((prototypeRawChunks inp pt).map (fun r => idKey inp.version r.id)).Nodup ∧
    (∀ k ∈ (prototypeRawChunks inp pt).map (fun r => idKey inp.version r.id),
      k.1.headI = str "prototype") := by
  obtain ⟨⟨hpnd, hps⟩, ⟨htnd, hts⟩, ⟨hdnd, hds⟩⟩ := hc
  have hi1 := @idKey_index inp.version (str "prototype") (str "prototypes")
    (by decide) (by decide)
  have hi2 := @idKey_index inp.version (str "prototype") (str "types")
    (by decide) (by decide)
  have hi3 := @idKey_index inp.version (str "prototype") (str "defines")
    (by decide) (by decide)
  rw [prototypeRawChunks]
  simp only [List.map_append, List.map_flatMap, List.map_cons, List.map_nil,
    indexChunk]
  rw [hi1, hi2, hi3]
  have hP := fun p (hm : p ∈ pt.prototypes) =>
    prototypeChunksOf_keys inp p (hps p hm).1 (hps p hm).2.1 (hps p hm).2.2
  have hT := fun t (hm : t ∈ pt.types) =>
    typeChunksOf_keys inp t (hts t hm).1 (hts t hm).2.1 (hts t hm).2.2
  have hD := fun d (hdm : d ∈ pt.defines) =>
    defineChunks_keys inp (str "prototype")
      (lookupRel inp (str "prototype:defines." ++ d.name)) d (by decide)
      (hds d hdm).1 (hds d hdm).2.1 (hds d hdm).2.2
  have hAnd : ([([str "prototype", str "prototypes"], str "index", none),
      ([str "prototype", str "types"], str "index", none),
      ([str "prototype", str "defines"], str "index", none)] :
      List (List Str × (Str × Option Str))).Nodup := by decide
  have hPnd : (pt.prototypes.flatMap fun a =>
      (prototypeChunksOf inp a).map (fun r => idKey inp.version r.id)).Nodup := by
    rw [List.nodup_flatMap]
    refine ⟨fun p hm => (hP p hm).1, ?_⟩
    have hp : (pt.prototypes.map Prototype.name).Pairwise (fun a b => a ≠ b) := hpnd
    refine List.Pairwise.imp_of_mem ?_ (List.pairwise_map.mp hp)
    intro a b ha hb hne k hk1 hk2
    obtain ⟨mb, hkeq⟩ := (hP a ha).2 k hk1
    obtain ⟨mb2, hkeq2⟩ := (hP b hb).2 k hk2
    have h3 := hkeq.symm.trans hkeq2
    simp only [Prod.mk.injEq] at h3
    exact hne h3.2.1
  have hTnd : (pt.types.flatMap fun a =>
      (typeChunksOf inp a).map (fun r => idKey inp.version r.id)).Nodup := by
    rw [List.nodup_flatMap]
    refine ⟨fun t hm => (hT t hm).1, ?_⟩
    have hp : (pt.types.map ProtoType.name).Pairwise (fun a b => a ≠ b) := htnd
    refine List.Pairwise.imp_of_mem ?_ (List.pairwise_map.mp hp)
    intro a b ha hb hne k hk1 hk2
    obtain ⟨mb, hkeq⟩ := (hT a ha).2 k hk1
    obtain ⟨mb2, hkeq2⟩ := (hT b hb).2 k hk2
    have h3 := hkeq.symm.trans hkeq2
    simp only [Prod.mk.injEq] at h3
    exact hne h3.2.1
  have hDnd : (pt.defines.flatMap fun a =>
      (defineChunks inp (str "prototype")
        (lookupRel inp (str "prototype:defines." ++ a.name)) a).map
        (fun r => idKey inp.version r.id)).Nodup := by
    rw [List.nodup_flatMap]
    refine ⟨fun d hdm => (hD d hdm).1, ?_⟩
    have hp : (pt.defines.map RtDefine.name).Pairwise (fun a b => a ≠ b) := hdnd
    refine List.Pairwise.imp_of_mem ?_ (List.pairwise_map.mp hp)
    intro a b ha hb hne k hk1 hk2
    obtain ⟨mb, hkeq⟩ := (hD a ha).2 k hk1
    obtain ⟨mb2, hkeq2⟩ := (hD b hb).2 k hk2
    have h3 := hkeq.symm.trans hkeq2
    simp only [Prod.mk.injEq] at h3
    exact hne h3.2.1
  have hsA : ∀ k ∈ ([([str "prototype", str "prototypes"], str "index", none),
      ([str "prototype", str "types"], str "index", none),
      ([str "prototype", str "defines"], str "index", none)] :
      List (List Str × (Str × Option Str))),
      k.1.tail.headI ∈ [str "prototypes", str "types", str "defines"] := by decide
  have hsP : ∀ k ∈ (pt.prototypes.flatMap fun a =>
      (prototypeChunksOf inp a).map (fun r => idKey inp.version r.id)),
      k.1.tail.headI ∈ [str "prototype"] := by
    intro k hk
    obtain ⟨p, hm, hk2⟩ := List.mem_flatMap.mp hk
    obtain ⟨mb, hkeq⟩ := (hP p hm).2 k hk2
    subst hkeq
    exact List.Mem.head _
  have hsT : ∀ k ∈ (pt.types.flatMap fun a =>
      (typeChunksOf inp a).map (fun r => idKey inp.version r.id)),
      k.1.tail.headI ∈ [str "type"] := by
    intro k hk
    obtain ⟨t, hm, hk2⟩ := List.mem_flatMap.mp hk
    obtain ⟨mb, hkeq⟩ := (hT t hm).2 k hk2
    subst hkeq
    exact List.Mem.head _
  have hsD : ∀ k ∈ (pt.defines.flatMap fun a =>
      (defineChunks inp (str "prototype")
        (lookupRel inp (str "prototype:defines." ++ a.name)) a).map
        (fun r => idKey inp.version r.id)),
      k.1.tail.headI ∈ [str "define"] := by
    intro k hk
    obtain ⟨d, hdm, hk2⟩ := List.mem_flatMap.mp hk
    obtain ⟨mb, hkeq⟩ := (hD d hdm).2 k hk2
    subst hkeq
    exact List.Mem.head _
  have h1 := nodup_append_tag2 hAnd hPnd hsA hsP (by decide)
  have h2 := nodup_append_tag2 h1.1 hTnd h1.2 hsT (by decide)
  have h3' := nodup_append_tag2 h2.1 hDnd h2.2 hsD (by decide)
  refine ⟨h3'.1, ?_⟩
  have hhA : ∀ k ∈ ([([str "prototype", str "prototypes"], str "index", none),
      ([str "prototype", str "types"], str "index", none),
      ([str "prototype", str "defines"], str "index", none)] :
      List (List Str × (Str × Option Str))),
      k.1.headI = str "prototype" := by decide
  intro k hk
  simp only [List.mem_append] at hk
  rcases hk with (((hk | hk) | hk) | hk)
  · exact hhA k hk
  · obtain ⟨p, hm, hk2⟩ := List.mem_flatMap.mp hk
    obtain ⟨mb, hkeq⟩ := (hP p hm).2 k hk2
    subst hkeq
    rfl
  · obtain ⟨t, hm, hk2⟩ := List.mem_flatMap.mp hk
    obtain ⟨mb, hkeq⟩ := (hT t hm).2 k hk2
    subst hkeq
    rfl
  · obtain ⟨d, hdm, hk2⟩ := List.mem_flatMap.mp hk
    obtain ⟨mb, hkeq⟩ := (hD d hdm).2 k hk2
    subst hkeq
    rfl

theorem auxChunks_keys (inp : GenInput)
    (hnd : (inp.auxPages.map AuxPage.base).Nodup)
    (hns : ∀ p ∈ inp.auxPages, noSlashHash p.base = true) :
    (((auxPagesSorted inp).map (auxChunk inp)).map
      (fun r => idKey inp.version r.id)).Nodup ∧
    ∀ k ∈ ((auxPagesSorted inp).map (auxChunk inp)).map
      (fun r => idKey inp.version r.id),
      ∃ nm, k = ([str "auxiliary"], (nm, none)) := by
  have hmem : ∀ p ∈ auxPagesSorted inp, p ∈ inp.auxPages := fun p hp =>
    (List.mergeSort_perm inp.auxPages (fun a b => strLeB a.base b.base)).mem_iff.mp hp
  have hnd2 : ((auxPagesSorted inp).map AuxPage.base).Nodup :=
    (((List.mergeSort_perm inp.auxPages
      (fun a b => strLeB a.base b.base)).map AuxPage.base).nodup_iff).mpr hnd
  exact @family_keys _ (auxPagesSorted inp) (auxChunk inp) (idKey inp.version)
    [str "auxiliary"] AuxPage.base
    (fun p hp => idKey_aux (hns p (hmem p hp))) hnd2

theorem nodup_append_head {K1 K2 : List (List Str × (Str × Option Str))}
    {S1 S2 : List Str}
    (h1 : K1.Nodup) (h2 : K2.Nodup)
    (hs1 : ∀ k ∈ K1, k.1.headI ∈ S1)
    (hs2 : ∀ k ∈ K2, k.1.headI ∈ S2)
    (hd : ∀ s ∈ S1, s ∉ S2) :
    (K1 ++ K2).Nodup ∧ ∀ k ∈ K1 ++ K2, k.1.headI ∈ S1 ++ S2 := by
  constructor
  · refine List.nodup_append.mpr ⟨h1, h2, ?_⟩
    intro x hx1 hx2
    exact hd _ (hs1 x hx1) (hs2 x hx2)
  · intro k hk
    rcases List.mem_append.mp hk with h | h
    · exact List.mem_append.mpr (Or.inl (hs1 k h))
    · exact List.mem_append.mpr (Or.inr (hs2 k h))

/-- **C1** (amended): over inputs whose documents have duplicate-free symbol
names — in particular, within one class the attribute and method names are
jointly duplicate-free — the ids of all emitted chunk records are pairwise
distinct; every class attribute or method chunk's id has the form
`<version>/runtime/class/<class>#<member>`.  The joint attribute/method
condition is needed: the claim as worded promises distinctness for every
run, but an attribute and a method sharing a name yield the same id. -/
theorem claim_C1 (inp : GenInput) (hc : CleanGen inp) :
    (allChunkIds inp).Nodup ∧
    (∀ c outRel a, (classAttrChunk inp c outRel a).id =
      inp.version ++ str "/runtime/class/" ++ c.name ++ '#' :: a.name) ∧
    (∀ c outRel m, (classMethodChunk inp c outRel m).id =
      inp.version ++ str "/runtime/class/" ++ c.name ++ '#' :: m.name) := by
  refine ⟨?_, fun c outRel a => rfl, fun c outRel m => rfl⟩
  rw [allChunkIds_eq]
  apply List.Nodup.of_map (idKey inp.version)
  rw [List.map_map]
  simp only [Function.comp_def, List.map_append]
  have hA : ((if inp.onlyAuxiliary then (auxPagesSorted inp).map (auxChunk inp)
      else []).map (fun r => idKey inp.version r.id)).Nodup ∧
      ∀ k ∈ (if inp.onlyAuxiliary then (auxPagesSorted inp).map (auxChunk inp)
        else []).map (fun r => idKey inp.version r.id),
        k.1.headI ∈ [str "auxiliary"] := by
    by_cases ho : inp.onlyAuxiliary = true
    · rw [if_pos ho]
      have h := auxChunks_keys inp hc.1.1 (fun p hp => hc.1.2 p hp)
      refine ⟨h.1, fun k hk => ?_⟩
      obtain ⟨nm, hkeq⟩ := h.2 k hk
      subst hkeq
      exact List.Mem.head _
    · rw [if_neg ho]
      constructor <;> simp
  have hB : ((match inp.runtimeDoc with
      | some rt => if inp.onlyRuntime then runtimeRawChunks inp rt else []
      | none => []).map (fun (r : ChunkRecordG) => idKey inp.version r.id)).Nodup ∧
      ∀ k ∈ (match inp.runtimeDoc with
        | some rt => if inp.onlyRuntime then runtimeRawChunks inp rt else []
        | none => []).map (fun (r : ChunkRecordG) => idKey inp.version r.id),
        k.1.headI ∈ [str "runtime"] := by
    cases hrt : inp.runtimeDoc with
    | none => constructor <;> simp
    | some rt =>
      show ((if inp.onlyRuntime then runtimeRawChunks inp rt else []).map
          (fun (r : ChunkRecordG) => idKey inp.version r.id)).Nodup ∧
        ∀ k ∈ (if inp.onlyRuntime then runtimeRawChunks inp rt else []).map
          (fun (r : ChunkRecordG) => idKey inp.version r.id),
          k.1.headI ∈ [str "runtime"]
      by_cases ho : inp.onlyRuntime = true
      · rw [if_pos ho]
        have h := runtimeRawChunks_keys inp rt (hc.2.1 rt hrt)
        refine ⟨h.1, fun k hk => ?_⟩
        rw [h.2 k hk]
        exact List.Mem.head _
      · rw [if_neg ho]
        constructor <;> simp
  have hP : ((match inp.prototypeDoc with
      | some pt => if inp.onlyPrototype then prototypeRawChunks inp pt else []
      | none => []).map (fun (r : ChunkRecordG) => idKey inp.version r.id)).Nodup ∧
      ∀ k ∈ (match inp.prototypeDoc with
        | some pt => if inp.onlyPrototype then prototypeRawChunks inp pt else []
        | none => []).map (fun (r : ChunkRecordG) => idKey inp.version r.id),
        k.1.headI ∈ [str "prototype"] := by
    cases hpt : inp.prototypeDoc with
    | none => constructor <;> simp
    | some pt =>
      show ((if inp.onlyPrototype then prototypeRawChunks inp pt else []).map
          (fun (r : ChunkRecordG) => idKey inp.version r.id)).Nodup ∧
        ∀ k ∈ (if inp.onlyPrototype then prototypeRawChunks inp pt else []).map
          (fun (r : ChunkRecordG) => idKey inp.version r.id),
          k.1.headI ∈ [str "prototype"]
      by_cases ho : inp.onlyPrototype = true
      · rw [if_pos ho]
        have h := prototypeRawChunks_keys inp pt (hc.2.2 pt hpt)
        refine ⟨h.1, fun k hk => ?_⟩
        rw [h.2 k hk]
        exact List.Mem.head _
      · rw [if_neg ho]
        constructor <;> simp
  have hAB := nodup_append_head hA.1 hB.1 hA.2 hB.2 (by decide)
  exact (nodup_append_head hAB.1 hP.1 hAB.2 hP.2 (by decide)).1

/-- An attribute and a method sharing the name `x` in class `C` produce two
chunks with the identical id `1.0.0/runtime/class/C#x`. -/
theorem claim_C1_counterexample : ¬ (allChunkIds inpDupMember).Nodup := by
  rw [allChunkIds_eq]
  simp only [inpDupMember, auxPagesSorted, runtimeRawChunks, classChunks, sortByOrder,
    List.mergeSort_nil, List.mergeSort_singleton, List.map_cons, List.map_nil,
    List.flatMap_cons, List.flatMap_nil]
  decide

theorem claim_C1_witness :
    CleanGen inpOneAttr ∧ (allChunkIds inpOneAttr).Nodup := by
  have hcg : CleanGen inpOneAttr := by
    refine ⟨⟨by decide, by decide⟩, fun rt hrt => ?_, fun pt hpt => ?_⟩
    · have h2 : some { classes := [{ name := str "C", attributes := [{ name := str "a" }] }] } =
          some rt := hrt
      injection h2 with h
      subst h
      unfold cleanRtDoc
      decide
    · exact Option.noConfusion hpt
  exact ⟨hcg, (claim_C1 inpOneAttr hcg).1⟩

theorem dropWhile_dropWhile_self {α} (p : α → Bool) (l : List α) :
    (l.dropWhile p).dropWhile p = l.dropWhile p := by
  induction l with
  | nil => rfl
  | cons a t ih =>
    rw [List.dropWhile_cons]
    by_cases ha : p a = true
    · rw [if_pos ha]
      exact ih
    · rw [if_neg ha, List.dropWhile_cons, if_neg ha]

theorem rtrimS_idem (s : Str) : rtrimS (rtrimS s) = rtrimS s := by
  simp only [rtrimS, List.reverse_reverse]
  rw [dropWhile_dropWhile_self]

theorem trimS_rtrimS (s : Str) : trimS (rtrimS s) = trimS s := by
  simp only [trimS, rtrimS_idem]

theorem not_all_ws_of_trimS_ne {m : Str} (h : trimS m ≠ []) :
    ∃ x ∈ m, ¬ isWsChar x := by
  by_contra hall
  push_neg at hall
  apply h
  have h2 := rtrimS_append_all_ws ([] : Str) hall
  rw [List.nil_append] at h2
  have h1 : rtrimS m = [] := h2.trans rfl
  rw [trimS, h1]
  rfl

theorem mem_of_mem_rtrimS {x : Char} {a : Str} (h : x ∈ rtrimS a) : x ∈ a := by
  simp only [rtrimS, List.mem_reverse] at h
  exact List.mem_reverse.mp (List.dropWhile_subset _ h)

theorem not_mem_of_noBracket {s : Str} (h : noBracket s = true) : '[' ∉ s := by
  intro hm
  exact contains_false_forall (by simpa [noBracket] using h) '[' hm rfl

theorem heading_in_page {body m : Str} (F x y : Str)
    (hbody : body = x ++ '\n' :: ((str "### " ++ m) ++ '\n' :: y))
    (hx : ∃ hd tl, x = hd :: tl ∧ ¬ isWsChar hd)
    (hm : ∀ c ∈ m, c ≠ '\r' ∧ c ≠ '\n')
    (hmne : trimS m ≠ []) :
    ∃ l ∈ splitLines (normalizeNewlines (F ++ str "\n" ++ trimS body ++ str "\n")),
      ∃ lv h, parseHeading l = some (lv, h) ∧ h = trimS m := by
  obtain ⟨hd, tl, rfl, hhd⟩ := hx
  have hmne' : m ≠ [] := by
    intro hnil
    rw [hnil] at hmne
    exact hmne rfl
  by_cases hy : ∃ ch ∈ y, ¬ isWsChar ch
  · have hr : rtrimS body =
        (hd :: tl) ++ '\n' :: ((str "### " ++ m) ++ '\n' :: rtrimS y) := by
      rw [hbody]
      have h2 : (hd :: tl) ++ '\n' :: ((str "### " ++ m) ++ '\n' :: y) =
          ((hd :: tl) ++ '\n' :: ((str "### " ++ m) ++ ['\n'])) ++ y := by
        simp [List.append_assoc]
      rw [h2, rtrimS_append_of_not_ws _ hy]
      simp [List.append_assoc]
    have htr : trimS body =
        (hd :: tl) ++ '\n' :: ((str "### " ++ m) ++ '\n' :: rtrimS y) := by
      rw [trimS, hr]
      exact ltrimS_cons_not_ws _ hhd
    refine ⟨str "### " ++ m, ?_, 3, trimS m, parseHeading_member_line hmne', rfl⟩
    apply mem_splitLines_of_marker
    · intro c hc
      rcases List.mem_append.mp hc with h1 | h1
      · exact (by decide : ∀ c ∈ str "### ", c ≠ '\r' ∧ c ≠ '\n') c h1
      · exact hm c h1
    · refine ⟨(F ++ str "\n") ++ (hd :: tl), rtrimS y ++ str "\n", ?_⟩
      rw [htr]
      simp [List.append_assoc]
  · push_neg at hy
    obtain ⟨w, hwm, hww⟩ := not_all_ws_of_trimS_ne hmne
    have hnl : ∀ c ∈ ('\n' :: y : Str), isWsChar c := by
      intro c hc
      rcases List.mem_cons.mp hc with rfl | h3
      · decide
      · exact hy c h3
    have hr : rtrimS body = (hd :: tl) ++ '\n' :: (str "### " ++ rtrimS m) := by
      rw [hbody]
      have h2 : (hd :: tl) ++ '\n' :: ((str "### " ++ m) ++ '\n' :: y) =
          (((hd :: tl) ++ '\n' :: str "### ") ++ m) ++ ('\n' :: y) := by
        simp [List.append_assoc]
      rw [h2, rtrimS_append_all_ws _ hnl,
        rtrimS_append_of_not_ws _ ⟨w, hwm, hww⟩]
      simp [List.append_assoc]
    have htr : trimS body = (hd :: tl) ++ '\n' :: (str "### " ++ rtrimS m) := by
      rw [trimS, hr]
      exact ltrimS_cons_not_ws _ hhd
    have hne2 : rtrimS m ≠ [] := rtrimS_ne_nil ⟨w, hwm, hww⟩
    refine ⟨str "### " ++ rtrimS m, ?_, 3, trimS m, ?_, rfl⟩
    · apply mem_splitLines_of_marker
      · intro c hc
        rcases List.mem_append.mp hc with h1 | h1
        · exact (by decide : ∀ c ∈ str "### ", c ≠ '\r' ∧ c ≠ '\n') c h1
        · exact hm c (mem_of_mem_rtrimS h1)
      · refine ⟨(F ++ str "\n") ++ (hd :: tl), [], ?_⟩
        rw [htr]
        simp [List.append_assoc]
        rfl
    · rw [parseHeading_member_line hne2, trimS_rtrimS]

theorem find?_fst_eq {l : List (Str × Str)} {p c : Str}
    (hnd : (l.map Prod.fst).Nodup) (hm : (p, c) ∈ l) :
    List.find? (fun w => w.1 = p) l = some (p, c) := by
  induction l with
  | nil => cases hm
  | cons a t ih =>
    simp only [List.map_cons, List.nodup_cons] at hnd
    by_cases ha : a.1 = p
    · rw [List.find?_cons_of_pos _ (by simpa using ha)]
      rcases List.mem_cons.mp hm with rfl | hmt
      · rfl
      · exfalso
        apply hnd.1
        rw [ha]
        exact List.mem_map_of_mem Prod.fst hmt
    · rw [List.find?_cons_of_neg _ (by simpa using ha)]
      apply ih hnd.2
      rcases List.mem_cons.mp hm with rfl | hmt
      · exact absurd rfl ha
      · exact hmt

theorem storedAt_eq_of_nodup {writes : List (Str × Str)} {p c : Str}
    (hnd : (writes.map Prod.fst).Nodup) (hmem : (p, c) ∈ writes) :
    storedAt writes p = some c := by
  rw [storedAt]
  have hnd2 : (writes.reverse.map Prod.fst).Nodup := by
    rw [List.map_reverse]
    exact List.nodup_reverse.mpr hnd
  rw [find?_fst_eq hnd2 (List.mem_reverse.mpr hmem)]
  rfl

theorem emitChunk_rel (resolve : Str → Option ResolveResult) (r : ChunkRecordG) :
    (emitChunk resolve r).relMarkdownPath = r.relMarkdownPath := by
  cases hrel : r.relMarkdownPath with
  | none => simp [emitChunk, hrel]
  | some rel => simp [emitChunk, hrel]

theorem emitChunk_anchor (resolve : Str → Option ResolveResult) (r : ChunkRecordG) :
    (emitChunk resolve r).anchor = r.anchor := by
  cases hrel : r.relMarkdownPath with
  | none => simp [emitChunk, hrel]
  | some rel => simp [emitChunk, hrel]

theorem anchored_page_ok {inp : GenInput} {rel anc : Str}
    (stage kind nm src body x y : Str)
    (hw : (rel, writeSymbolMarkdownContent inp stage kind nm rel body src) ∈
      writtenPages inp)
    (hnd : ((writtenPages inp).map Prod.fst).Nodup)
    (hspans : singleLineSpans (tryInternalLink (genResolve inp) rel) body)
    (hbody : body = x ++ '\n' :: ((str "### " ++ anc) ++ '\n' :: y))
    (hx : ∃ tl, x = '#' :: tl)
    (hclean : cleanMemberName anc = true) :
    ∃ page out, storedAt (writtenPages inp) rel = some page ∧
      extractMarkdownSectionByAnchor page anc = some out ∧ out ≠ [] := by
  have hcl : ¬ anc.contains '\n' = true ∧ ¬ anc.contains '\r' = true ∧
      ¬ anc.contains '[' = true ∧ ¬ anc.contains ']' = true ∧ trimS anc ≠ [] := by
    simpa [cleanMemberName] using hclean
  have hm : ∀ c ∈ anc, c ≠ '\r' ∧ c ≠ '\n' := fun c hc =>
    ⟨contains_false_forall hcl.2.1 c hc, contains_false_forall hcl.1 c hc⟩
  have hbrk : ∀ c ∈ anc, c ≠ '[' ∧ c ≠ ']' := fun c hc =>
    ⟨contains_false_forall hcl.2.2.1 c hc, contains_false_forall hcl.2.2.2.1 c hc⟩
  obtain ⟨x2, y2, hconv⟩ := converted_marker hspans hbrk hbody
  obtain ⟨tl, rfl⟩ := hx
  have hbody' : body = '#' :: (tl ++ '\n' :: ((str "### " ++ anc) ++ '\n' :: y)) := by
    rw [hbody]
    rfl
  obtain ⟨t2, hhead⟩ :=
    @converted_head (genResolve inp) rel
      (tl ++ '\n' :: ((str "### " ++ anc) ++ '\n' :: y))
  rw [← hbody'] at hhead
  have hx2 : ∃ tl2, x2 = '#' :: tl2 := by
    have hcomb := hconv.symm.trans hhead
    cases x2 with
    | nil =>
      exfalso
      rw [List.nil_append] at hcomb
      have := List.head_eq_of_cons_eq hcomb
      exact absurd this (by decide)
    | cons c tl2 =>
      rw [List.cons_append] at hcomb
      have := List.head_eq_of_cons_eq hcomb
      exact ⟨tl2, by rw [this]⟩
  have hcontent : writeSymbolMarkdownContent inp stage kind nm rel body src =
      renderFrontmatter [(str "version", inp.version), (str "stage", stage),
        (str "kind", kind), (str "name", nm), (str "source", src)] ++
        str "\n" ++ trimS (convertSiteHtmlLinks
          (convertInternalLinks body rel (genResolve inp)) rel (genResolve inp)) ++
        str "\n" := rfl
  have hline := heading_in_page
    (renderFrontmatter [(str "version", inp.version), (str "stage", stage),
      (str "kind", kind), (str "name", nm), (str "source", src)]) x2 y2
    hconv (by obtain ⟨tl2, rfl⟩ := hx2; exact ⟨'#', tl2, rfl, by decide⟩) hm
    hcl.2.2.2.2
  obtain ⟨out, hout, houtne⟩ :=
    extractMarkdownSectionByAnchor_succeeds hline hcl.2.2.2.2
  refine ⟨_, out, storedAt_eq_of_nodup hnd hw, ?_, houtne⟩
  rw [hcontent]
  exact hout

theorem classAttrSection_marker (a : RtAttribute) :
    ∃ t, classAttrSection a = '\n' :: ((str "### " ++ a.name) ++ '\n' :: t) :=
  ⟨_, by simp only [classAttrSection, List.append_assoc]; rfl⟩

theorem classMethodSection_marker (cn : Str) (m : RtMethod) :
    ∃ t, classMethodSection cn m = '\n' :: ((str "### " ++ m.name) ++ '\n' :: t) :=
  ⟨_, by simp only [classMethodSection, List.append_assoc]; rfl⟩

theorem defineValueSection_marker (v : DefineValue) :
    ∃ t, defineValueSection v = '\n' :: ((str "### " ++ v.name) ++ '\n' :: t) :=
  ⟨_, by simp only [defineValueSection, List.append_assoc]; rfl⟩

theorem protoPropSection_marker (p : ProtoProperty) :
    ∃ t, protoPropSection p = '\n' :: ((str "### " ++ p.name) ++ '\n' :: t) :=
  ⟨_, by simp only [protoPropSection, List.append_assoc]; rfl⟩

theorem typePropSection_marker (p : ProtoProperty) :
    ∃ t, typePropSection p = '\n' :: ((str "### " ++ p.name) ++ '\n' :: t) :=
  ⟨_, by simp only [typePropSection, List.append_assoc]; rfl⟩

theorem classMd_attr_marker {c : RtClass} {a : RtAttribute} (ha : a ∈ c.attributes) :
    ∃ x y, classMd c = x ++ '\n' :: ((str "### " ++ a.name) ++ '\n' :: y) ∧
      ∃ tl, x = '#' :: tl := by
  have hmem : a ∈ sortByOrder RtAttribute.order c.attributes :=
    (sortByOrder_perm _ _).mem_iff.mpr ha
  obtain ⟨u, v, huv⟩ := List.append_of_mem hmem
  have hne : ¬ ((sortByOrder RtAttribute.order c.attributes).isEmpty = true) := by
    rw [huv]
    cases u <;> simp
  obtain ⟨t, ht⟩ := classAttrSection_marker a
  have hflat : (sortByOrder RtAttribute.order c.attributes).flatMap classAttrSection =
      u.flatMap classAttrSection ++ '\n' :: ((str "### " ++ a.name) ++ '\n' ::
        (t ++ v.flatMap classAttrSection)) := by
    rw [huv, List.flatMap_append, List.flatMap_cons, ht]
    simp [List.append_assoc]
  refine ⟨str "# " ++ (c.name ++ (str "\n\n" ++ (c.description.getD [] ++ (str "\n" ++
      ((if jsTruthyStr c.parent then
          mdSection (str "Parent") ++ str "\n- `" ++ c.parent.getD [] ++ str "`\n"
        else []) ++
        (mdSection (str "Attributes") ++ u.flatMap classAttrSection)))))),
    t ++ v.flatMap classAttrSection ++
      (if (sortByOrder RtMethod.order c.methods).isEmpty then []
        else mdSection (str "Methods") ++
          (sortByOrder RtMethod.order c.methods).flatMap (classMethodSection c.name)),
    ?_, _, rfl⟩
  simp only [classMd]
  rw [if_neg hne, hflat]
  simp [List.append_assoc]

theorem classMd_method_marker {c : RtClass} {m : RtMethod} (hm : m ∈ c.methods) :
    ∃ x y, classMd c = x ++ '\n' :: ((str "### " ++ m.name) ++ '\n' :: y) ∧
      ∃ tl, x = '#' :: tl := by
  have hmem : m ∈ sortByOrder RtMethod.order c.methods :=
    (sortByOrder_perm _ _).mem_iff.mpr hm
  obtain ⟨u, v, huv⟩ := List.append_of_mem hmem
  have hne : ¬ ((sortByOrder RtMethod.order c.methods).isEmpty = true) := by
    rw [huv]
    cases u <;> simp
  obtain ⟨t, ht⟩ := classMethodSection_marker c.name m
  have hflat : (sortByOrder RtMethod.order c.methods).flatMap
      (classMethodSection c.name) =
      u.flatMap (classMethodSection c.name) ++ '\n' :: ((str "### " ++ m.name) ++ '\n' ::
        (t ++ v.flatMap (classMethodSection c.name))) := by
    rw [huv, List.flatMap_append, List.flatMap_cons, ht]
    simp [List.append_assoc]
  refine ⟨str "# " ++ (c.name ++ (str "\n\n" ++ (c.description.getD [] ++ (str "\n" ++
      ((if jsTruthyStr c.parent then
          mdSection (str "Parent") ++ str "\n- `" ++ c.parent.getD [] ++ str "`\n"
        else []) ++
        ((if (sortByOrder RtAttribute.order c.attributes).isEmpty then []
          else mdSection (str "Attributes") ++
            (sortByOrder RtAttribute.order c.attributes).flatMap classAttrSection) ++
          (mdSection (str "Methods") ++ u.flatMap (classMethodSection c.name)))))))),
    t ++ v.flatMap (classMethodSection c.name),
    ?_, _, rfl⟩
  simp only [classMd]
  rw [if_neg hne, hflat]
  simp [List.append_assoc]

theorem defineMd_value_marker {d : RtDefine} {v : DefineValue} (hv : v ∈ d.values) :
    ∃ x y, defineMd d = x ++ '\n' :: ((str "### " ++ v.name) ++ '\n' :: y) ∧
      ∃ tl, x = '#' :: tl := by
  have hmem : v ∈ sortByOrder DefineValue.order d.values :=
    (sortByOrder_perm _ _).mem_iff.mpr hv
  obtain ⟨u, w, huv⟩ := List.append_of_mem hmem
  have hne : ¬ ((sortByOrder DefineValue.order d.values).isEmpty = true) := by
    rw [huv]
    cases u <;> simp
  obtain ⟨t, ht⟩ := defineValueSection_marker v
  have hflat : (sortByOrder DefineValue.order d.values).flatMap defineValueSection =
      u.flatMap defineValueSection ++ '\n' :: ((str "### " ++ v.name) ++ '\n' ::
        (t ++ w.flatMap defineValueSection)) := by
    rw [huv, List.flatMap_append, List.flatMap_cons, ht]
    simp [List.append_assoc]
  refine ⟨str "# defines." ++ (d.name ++ (str "\n\n" ++ (d.description.getD [] ++
      (str "\n" ++ (mdSection (str "Values") ++ u.flatMap defineValueSection))))),
    t ++ w.flatMap defineValueSection,
    ?_, _, rfl⟩
  simp only [defineMd]
  rw [if_neg hne, hflat]
  simp [List.append_assoc]

theorem prototypeMd_prop_marker {p : Prototype} {pr : ProtoProperty}
    (hp : pr ∈ p.properties) :
    ∃ x y, prototypeMd p = x ++ '\n' :: ((str "### " ++ pr.name) ++ '\n' :: y) ∧
      ∃ tl, x = '#' :: tl := by
  have hmem : pr ∈ sortByOrder ProtoProperty.order p.properties :=
    (sortByOrder_perm _ _).mem_iff.mpr hp
  obtain ⟨u, w, huv⟩ := List.append_of_mem hmem
  have hne : ¬ ((sortByOrder ProtoProperty.order p.properties).isEmpty = true) := by
    rw [huv]
    cases u <;> simp
  obtain ⟨t, ht⟩ := protoPropSection_marker pr
  have hflat : (sortByOrder ProtoProperty.order p.properties).flatMap protoPropSection =
      u.flatMap protoPropSection ++ '\n' :: ((str "### " ++ pr.name) ++ '\n' ::
        (t ++ w.flatMap protoPropSection)) := by
    rw [huv, List.flatMap_append, List.flatMap_cons, ht]
    simp [List.append_assoc]
  refine ⟨str "# " ++ (p.name ++ (str "\n\n" ++ (p.description.getD [] ++ (str "\n" ++
      ((if jsTruthyStr p.parent then
          mdSection (str "Parent") ++ str "\n- `" ++ p.parent.getD [] ++ str "`\n"
        else []) ++
        (mdSection (str "Properties") ++ u.flatMap protoPropSection)))))),
    t ++ w.flatMap protoPropSection,
    ?_, _, rfl⟩
  simp only [prototypeMd]
  rw [if_neg hne, hflat]
  simp [List.append_assoc]

theorem protoTypeMd_prop_marker {ty : ProtoType} {pr : ProtoProperty}
    (hp : pr ∈ ty.properties) :
    ∃ x y, protoTypeMd ty = x ++ '\n' :: ((str "### " ++ pr.name) ++ '\n' :: y) ∧
      ∃ tl, x = '#' :: tl := by
  have hmem : pr ∈ sortByOrder ProtoProperty.order ty.properties :=
    (sortByOrder_perm _ _).mem_iff.mpr hp
  obtain ⟨u, w, huv⟩ := List.append_of_mem hmem
  have hne : ¬ ((sortByOrder ProtoProperty.order ty.properties).isEmpty = true) := by
    rw [huv]
    cases u <;> simp
  obtain ⟨t, ht⟩ := typePropSection_marker pr
  have hflat : (sortByOrder ProtoProperty.order ty.properties).flatMap typePropSection =
      u.flatMap typePropSection ++ '\n' :: ((str "### " ++ pr.name) ++ '\n' ::
        (t ++ w.flatMap typePropSection)) := by
    rw [huv, List.flatMap_append, List.flatMap_cons, ht]
    simp [List.append_assoc]
  refine ⟨str "# " ++ (ty.name ++ (str "\n\n" ++ (ty.description.getD [] ++ (str "\n" ++
      ((match ty.ttype with
        | some tyj =>
          if jsTruthy tyj then
            mdSection (str "Type") ++ str "\n`" ++ typeToString tyj ++ str "`\n"
          else []
        | none => []) ++
        (mdSection (str "Properties") ++ u.flatMap typePropSection)))))),
    t ++ w.flatMap typePropSection,
    ?_, _, rfl⟩
  simp only [protoTypeMd]
  rw [if_neg hne, hflat]
  simp [List.append_assoc]

theorem writtenPages_runtime_sub {inp : GenInput} {rt : RuntimeDoc}
    (hdo : inp.runtimeDoc = some rt) (ho : inp.onlyRuntime = true)
    {w : Str × Str} (hw : w ∈ runtimePageWrites inp rt) : w ∈ writtenPages inp := by
  rw [writtenPages, hdo]
  refine List.mem_append.mpr (Or.inl (List.mem_append.mpr (Or.inr ?_)))
  show w ∈ (if inp.onlyRuntime then runtimePageWrites inp rt else [])
  rw [if_pos ho]
  exact hw

theorem writtenPages_proto_sub {inp : GenInput} {pt : PrototypeDoc}
    (hdo : inp.prototypeDoc = some pt) (ho : inp.onlyPrototype = true)
    {w : Str × Str} (hw : w ∈ prototypePageWrites inp pt) : w ∈ writtenPages inp := by
  rw [writtenPages, hdo]
  refine List.mem_append.mpr (Or.inr ?_)
  show w ∈ (if inp.onlyPrototype then prototypePageWrites inp pt else [])
  rw [if_pos ho]
  exact hw

theorem class_write_mem {inp : GenInput} {rt : RuntimeDoc} {c : RtClass}
    (hdo : inp.runtimeDoc = some rt) (ho : inp.onlyRuntime = true)
    (hc : c ∈ rt.classes) :
    (lookupRel inp (str "runtime:" ++ c.name),
      writeSymbolMarkdownContent inp (str "runtime") (str "class") c.name
        (lookupRel inp (str "runtime:" ++ c.name)) (classMd c)
        (str "runtime-api.json")) ∈ writtenPages inp := by
  apply writtenPages_runtime_sub hdo ho
  rw [runtimePageWrites]
  refine List.mem_append.mpr (Or.inl (List.mem_append.mpr (Or.inl
    (List.mem_append.mpr (Or.inl (List.mem_append.mpr (Or.inl
    (List.mem_append.mpr (Or.inl (List.mem_append.mpr (Or.inr ?_)))))))))))
  exact List.mem_map_of_mem _ hc

theorem rtDefine_write_mem {inp : GenInput} {rt : RuntimeDoc} {d : RtDefine}
    (hdo : inp.runtimeDoc = some rt) (ho : inp.onlyRuntime = true)
    (hd : d ∈ rt.defines) :
    (lookupRel inp (str "runtime:defines." ++ d.name),
      writeSymbolMarkdownContent inp (str "runtime") (str "define") d.name
        (lookupRel inp (str "runtime:defines." ++ d.name)) (defineMd d)
        (str "runtime-api.json")) ∈ writtenPages inp := by
  apply writtenPages_runtime_sub hdo ho
  rw [runtimePageWrites]
  refine List.mem_append.mpr (Or.inl (List.mem_append.mpr (Or.inl
    (List.mem_append.mpr (Or.inr ?_)))))
  exact List.mem_map_of_mem _ hd

theorem proto_write_mem {inp : GenInput} {pt : PrototypeDoc} {p : Prototype}
    (hdo : inp.prototypeDoc = some pt) (ho : inp.onlyPrototype = true)
    (hp : p ∈ pt.prototypes) :
    (lookupRel inp (str "prototype:" ++ p.name),
      writeSymbolMarkdownContent inp (str "prototype") (str "prototype") p.name
        (lookupRel inp (str "prototype:" ++ p.name)) (prototypeMd p)
        (str "prototype-api.json")) ∈ writtenPages inp := by
  apply writtenPages_proto_sub hdo ho
  rw [prototypePageWrites]
  refine List.mem_append.mpr (Or.inl (List.mem_append.mpr (Or.inl
    (List.mem_append.mpr (Or.inr ?_)))))
  exact List.mem_map_of_mem _ hp

theorem ptype_write_mem {inp : GenInput} {pt : PrototypeDoc} {t : ProtoType}
    (hdo : inp.prototypeDoc = some pt) (ho : inp.onlyPrototype = true)
    (ht : t ∈ pt.types) :
    (lookupRel inp (str "prototype:" ++ t.name),
      writeSymbolMarkdownContent inp (str "prototype") (str "type") t.name
        (lookupRel inp (str "prototype:" ++ t.name)) (protoTypeMd t)
        (str "prototype-api.json")) ∈ writtenPages inp := by
  apply writtenPages_proto_sub hdo ho
  rw [prototypePageWrites]
  refine List.mem_append.mpr (Or.inl (List.mem_append.mpr (Or.inr ?_)))
  exact List.mem_map_of_mem _ ht

theorem ptDefine_write_mem {inp : GenInput} {pt : PrototypeDoc} {d : RtDefine}
    (hdo : inp.prototypeDoc = some pt) (ho : inp.onlyPrototype = true)
    (hd : d ∈ pt.defines) :
    (lookupRel inp (str "prototype:defines." ++ d.name),
      writeSymbolMarkdownContent inp (str "prototype") (str "define") d.name
        (lookupRel inp (str "prototype:defines." ++ d.name)) (defineMd d)
        (str "prototype-api.json")) ∈ writtenPages inp := by
  apply writtenPages_proto_sub hdo ho
  rw [prototypePageWrites]
  exact List.mem_append.mpr (Or.inr (List.mem_map_of_mem _ hd))

/-- **C2** (amended): under the anchors well-formedness conditions — members
with heading-safe bracket-free names, no internal link crossing a line break
on the five anchored page families, and duplicate-free write paths — every
emitted chunk record that
carries both a page path and an anchor admits a successful anchor-based
section extraction against the page stored at that path, returning non-empty
text.  The claim's further assertion that the extracted section contains the
chunk's rendered `text` does not hold: the chunk text is rendered with its
own `# <symbol>` heading and metadata layout that never appears verbatim in
the page section. -/
theorem claim_C2 (inp : GenInput) (hwf : AnchorsWF inp) :
    ∀ ch ∈ emittedChunks inp, ∀ rel anc,
      ch.relMarkdownPath = some rel → ch.anchor = some anc →
      ∃ page out, storedAt (writtenPages inp) rel = some page ∧
        extractMarkdownSectionByAnchor page anc = some out ∧ out ≠ [] := by
  obtain ⟨hrtWF, hptWF, hnd⟩ := hwf
  intro ch hch rel anc hrel hanc
  simp only [emittedChunks] at hch
  obtain ⟨r, hr, rfl⟩ := List.mem_map.mp hch
  rw [emitChunk_rel] at hrel
  rw [emitChunk_anchor] at hanc
  simp only [List.mem_append] at hr
  rcases hr with (hrA | hrR) | hrP
  · by_cases hoA : inp.onlyAuxiliary = true
    · rw [if_pos hoA] at hrA
      obtain ⟨p, hp, rfl⟩ := List.mem_map.mp hrA
      exact Option.noConfusion hanc
    · rw [if_neg hoA] at hrA
      cases hrA
  · cases hdo : inp.runtimeDoc with
    | none =>
      rw [hdo] at hrR
      have hrR2 : r ∈ ([] : List ChunkRecordG) := hrR
      cases hrR2
    | some rt =>
      rw [hdo] at hrR
      have hrR2 : r ∈ (if inp.onlyRuntime then runtimeRawChunks inp rt else []) := hrR
      by_cases hoR : inp.onlyRuntime = true
      · rw [if_pos hoR] at hrR2
        have hWF := hrtWF rt hdo
        rw [runtimeRawChunks] at hrR2
        simp only [List.mem_append] at hrR2
        rcases hrR2 with ((((((hIdx | hCls) | hCon) | hEv) | hDef) | hGf) | hGo)
        · simp only [List.mem_cons, List.not_mem_nil, or_false] at hIdx
          rcases hIdx with rfl | rfl | rfl | rfl <;> exact Option.noConfusion hanc
        · obtain ⟨c, hc, hrc⟩ := List.mem_flatMap.mp hCls
          simp only [classChunks, List.mem_append] at hrc
          rcases hrc with (hAttr | hMeth) | hRoot
          · obtain ⟨a, ha0, rfl⟩ := List.mem_map.mp hAttr
            have ha : a ∈ c.attributes := mem_sortByOrder ha0
            have h5 : some (lookupRel inp (str "runtime:" ++ c.name)) = some rel := hrel
            injection h5 with h5
            subst h5
            have h6 : some a.name = some anc := hanc
            injection h6 with h6
            subst h6
            obtain ⟨x, y, hbody, hx⟩ := classMd_attr_marker ha
            exact anchored_page_ok (str "runtime") (str "class") c.name
              (str "runtime-api.json") (classMd c) x y
              (class_write_mem hdo hoR hc) hnd ((hWF.1 c hc).1) hbody hx
              ((hWF.1 c hc).2.1 a ha)
          · obtain ⟨m, hm0, rfl⟩ := List.mem_map.mp hMeth
            have hm : m ∈ c.methods := mem_sortByOrder hm0
            have h5 : some (lookupRel inp (str "runtime:" ++ c.name)) = some rel := hrel
            injection h5 with h5
            subst h5
            have h6 : some m.name = some anc := hanc
            injection h6 with h6
            subst h6
            obtain ⟨x, y, hbody, hx⟩ := classMd_method_marker hm
            exact anchored_page_ok (str "runtime") (str "class") c.name
              (str "runtime-api.json") (classMd c) x y
              (class_write_mem hdo hoR hc) hnd ((hWF.1 c hc).1) hbody hx
              ((hWF.1 c hc).2.2 m hm)
          · simp only [List.mem_singleton] at hRoot
            subst hRoot
            exact Option.noConfusion hanc
        · obtain ⟨cc, hcc, rfl⟩ := List.mem_map.mp hCon
          exact Option.noConfusion hanc
        · obtain ⟨e, he, rfl⟩ := List.mem_map.mp hEv
          exact Option.noConfusion hanc
        · obtain ⟨d, hd, hrd⟩ := List.mem_flatMap.mp hDef
          simp only [defineChunks, List.mem_append] at hrd
          rcases hrd with hVal | hRoot2
          · obtain ⟨v, hv0, rfl⟩ := List.mem_map.mp hVal
            have hv : v ∈ d.values := mem_sortByOrder hv0
            have h5 : some (lookupRel inp (str "runtime:defines." ++ d.name)) =
                some rel := hrel
            injection h5 with h5
            subst h5
            have h6 : some v.name = some anc := hanc
            injection h6 with h6
            subst h6
            obtain ⟨x, y, hbody, hx⟩ := defineMd_value_marker hv
            exact anchored_page_ok (str "runtime") (str "define") d.name
              (str "runtime-api.json") (defineMd d) x y
              (rtDefine_write_mem hdo hoR hd) hnd ((hWF.2 d hd).1) hbody hx
              ((hWF.2 d hd).2 v hv)
          · simp only [List.mem_singleton] at hRoot2
            subst hRoot2
            exact Option.noConfusion hanc
        · obtain ⟨f, hf, rfl⟩ := List.mem_map.mp hGf
          exact Option.noConfusion hanc
        · obtain ⟨o, hob, rfl⟩ := List.mem_map.mp hGo
          exact Option.noConfusion hanc
      · rw [if_neg hoR] at hrR2
        cases hrR2
  · cases hdo : inp.prototypeDoc with
    | none =>
      rw [hdo] at hrP
      have hrP2 : r ∈ ([] : List ChunkRecordG) := hrP
      cases hrP2
    | some pt =>
      rw [hdo] at hrP
      have hrP2 : r ∈ (if inp.onlyPrototype then prototypeRawChunks inp pt else []) := hrP
      by_cases hoP : inp.onlyPrototype = true
      · rw [if_pos hoP] at hrP2
        have hWF := hptWF pt hdo
        rw [prototypeRawChunks] at hrP2
        simp only [List.mem_append] at hrP2
        rcases hrP2 with ((hIdx | hPro) | hTy) | hDef
        · simp only [List.mem_cons, List.not_mem_nil, or_false] at hIdx
          rcases hIdx with rfl | rfl | rfl <;> exact Option.noConfusion hanc
        · obtain ⟨p, hp, hrp⟩ := List.mem_flatMap.mp hPro
          simp only [prototypeChunksOf, List.mem_append] at hrp
          rcases hrp with hProp | hRoot
          · obtain ⟨pr, hpr0, rfl⟩ := List.mem_map.mp hProp
            have hpr : pr ∈ p.properties := mem_sortByOrder hpr0
            have h5 : some (lookupRel inp (str "prototype:" ++ p.name)) =
                some rel := hrel
            injection h5 with h5
            subst h5
            have h6 : some pr.name = some anc := hanc
            injection h6 with h6
            subst h6
            obtain ⟨x, y, hbody, hx⟩ := prototypeMd_prop_marker hpr
            exact anchored_page_ok (str "prototype") (str "prototype") p.name
              (str "prototype-api.json") (prototypeMd p) x y
              (proto_write_mem hdo hoP hp) hnd ((hWF.1 p hp).1) hbody hx
              ((hWF.1 p hp).2 pr hpr)
          · simp only [List.mem_singleton] at hRoot
            subst hRoot
            exact Option.noConfusion hanc
        · obtain ⟨t, ht, hrt2⟩ := List.mem_flatMap.mp hTy
          simp only [typeChunksOf, List.mem_append] at hrt2
          rcases hrt2 with hProp | hRoot
          · obtain ⟨pr, hpr0, rfl⟩ := List.mem_map.mp hProp
            have hpr : pr ∈ t.properties := mem_sortByOrder hpr0
            have h5 : some (lookupRel inp (str "prototype:" ++ t.name)) =
                some rel := hrel
            injection h5 with h5
            subst h5
            have h6 : some pr.name = some anc := hanc
            injection h6 with h6
            subst h6
            obtain ⟨x, y, hbody, hx⟩ := protoTypeMd_prop_marker hpr
            exact anchored_page_ok (str "prototype") (str "type") t.name
              (str "prototype-api.json") (protoTypeMd t) x y
              (ptype_write_mem hdo hoP ht) hnd ((hWF.2.1 t ht).1) hbody hx
              ((hWF.2.1 t ht).2 pr hpr)
          · simp only [List.mem_singleton] at hRoot
            subst hRoot
            exact Option.noConfusion hanc
        · obtain ⟨d, hd, hrd⟩ := List.mem_flatMap.mp hDef
          simp only [defineChunks, List.mem_append] at hrd
          rcases hrd with hVal | hRoot2
          · obtain ⟨v, hv0, rfl⟩ := List.mem_map.mp hVal
            have hv : v ∈ d.values := mem_sortByOrder hv0
            have h5 : some (lookupRel inp (str "prototype:defines." ++ d.name)) =
                some rel := hrel
            injection h5 with h5
            subst h5
            have h6 : some v.name = some anc := hanc
            injection h6 with h6
            subst h6
            obtain ⟨x, y, hbody, hx⟩ := defineMd_value_marker hv
            exact anchored_page_ok (str "prototype") (str "define") d.name
              (str "prototype-api.json") (defineMd d) x y
              (ptDefine_write_mem hdo hoP hd) hnd ((hWF.2.2 d hd).1) hbody hx
              ((hWF.2.2 d hd).2 v hv)
          · simp only [List.mem_singleton] at hRoot2
            subst hRoot2
            exact Option.noConfusion hanc
      · rw [if_neg hoP] at hrP2
        cases hrP2

theorem oneAttr_classMd : classMd oneAttrClass =
    str "# C\n\n\n\n## Attributes\n\n### a\n\n- Read: `unknown`\n- Write: `unknown`\n- Optional: `false`\n\n" := by
  simp only [classMd, oneAttrClass, sortByOrder, List.mergeSort_singleton,
    List.mergeSort_nil]
  decide

theorem oneAttr_pages_nodup : ((writtenPages inpOneAttr).map Prod.fst).Nodup := by
  simp only [writtenPages, auxPageWrites, auxPagesSorted, inpOneAttr,
    List.mergeSort_nil]
  decide

theorem oneAttr_wf : AnchorsWF inpOneAttr := by
  refine ⟨fun rt hrt => ?_, fun pt hpt => Option.noConfusion hpt,
    oneAttr_pages_nodup⟩
  have h2 : some ({ classes := [oneAttrClass] } : RuntimeDoc) = some rt := hrt
  injection h2 with h2
  subst h2
  constructor
  · intro c hc
    simp only [List.mem_singleton] at hc
    subst hc
    refine ⟨?_, ?_, ?_⟩
    · apply singleLineSpans_of_no_bracket rfl
        (fun c rest hc => tryInternalLink_none_of_head_ne hc)
      rw [oneAttr_classMd]
      decide
    · intro a ha
      simp only [oneAttrClass, List.mem_singleton] at ha
      subst ha
      decide
    · intro m hm
      simp only [oneAttrClass, List.not_mem_nil] at hm
  · intro d hd
    simp only [List.not_mem_nil] at hd

set_option maxRecDepth 100000 in
theorem oneAttr_mem :
    emitChunk (genResolve inpOneAttr) oneAttrChunk ∈ emittedChunks inpOneAttr := by
  simp only [emittedChunks]
  apply List.mem_map_of_mem
  simp only [List.mem_append]
  refine Or.inl (Or.inr ?_)
  show oneAttrChunk ∈ runtimeRawChunks inpOneAttr { classes := [oneAttrClass] }
  rw [runtimeRawChunks]
  simp only [List.mem_append]
  refine Or.inl (Or.inl (Or.inl (Or.inl (Or.inl (Or.inr ?_)))))
  refine List.mem_flatMap.mpr ⟨oneAttrClass, List.mem_cons_self _ _, ?_⟩
  simp only [classChunks, List.mem_append]
  refine Or.inl (Or.inl ?_)
  simp only [oneAttrClass, sortByOrder, List.mergeSort_singleton, List.map_cons,
    List.map_nil, List.mem_singleton]
  decide

theorem claim_C2_witness :
    AnchorsWF inpOneAttr ∧
    (emitChunk (genResolve inpOneAttr) oneAttrChunk).relMarkdownPath =
      some (str "llm-docs/1.0.0/runtime/classes/C.md") ∧
    (emitChunk (genResolve inpOneAttr) oneAttrChunk).anchor = some (str "a") ∧
    ∃ page out, storedAt (writtenPages inpOneAttr)
        (str "llm-docs/1.0.0/runtime/classes/C.md") = some page ∧
      extractMarkdownSectionByAnchor page (str "a") = some out ∧ out ≠ [] :=
  ⟨oneAttr_wf, rfl, rfl,
    claim_C2 inpOneAttr oneAttr_wf _ oneAttr_mem
      (str "llm-docs/1.0.0/runtime/classes/C.md") (str "a") rfl rfl⟩

set_option maxRecDepth 1000000 in
theorem claim_C2_counterexample :
    emitChunk (genResolve inpOneAttr) oneAttrChunk ∈ emittedChunks inpOneAttr ∧
    (emitChunk (genResolve inpOneAttr) oneAttrChunk).relMarkdownPath =
      some (str "llm-docs/1.0.0/runtime/classes/C.md") ∧
    (emitChunk (genResolve inpOneAttr) oneAttrChunk).anchor = some (str "a") ∧
    ∀ page out,
      storedAt (writtenPages inpOneAttr)
        (str "llm-docs/1.0.0/runtime/classes/C.md") = some page →
      extractMarkdownSectionByAnchor page (str "a") = some out →
      containsSub out (emitChunk (genResolve inpOneAttr) oneAttrChunk).text = false := by
  refine ⟨oneAttr_mem, rfl, rfl, ?_⟩
  have hcont : writeSymbolMarkdownContent inpOneAttr (str "runtime") (str "class")
      oneAttrClass.name (lookupRel inpOneAttr (str "runtime:" ++ oneAttrClass.name))
      (classMd oneAttrClass) (str "runtime-api.json") =
      str "---\nversion: 1.0.0\nstage: runtime\nkind: class\nname: C\nsource: runtime-api.json\n---\n\n# C\n\n\n\n## Attributes\n\n### a\n\n- Read: `unknown`\n- Write: `unknown`\n- Optional: `false`\n" := by
    rw [writeSymbolMarkdownContent, oneAttr_classMd]
    rw [convertInternalLinks_id_of_no_bracket _ _ _ (by decide),
      convertSiteHtmlLinks_id_of_no_bracket _ _ _ (by decide)]
    decide
  have hw := class_write_mem
    (rfl : inpOneAttr.runtimeDoc = some { classes := [oneAttrClass] })
    (rfl : inpOneAttr.onlyRuntime = true) (List.mem_cons_self oneAttrClass [])
  rw [hcont] at hw
  rw [show lookupRel inpOneAttr (str "runtime:" ++ oneAttrClass.name) =
    str "llm-docs/1.0.0/runtime/classes/C.md" by decide] at hw
  have hpage := storedAt_eq_of_nodup oneAttr_pages_nodup hw
  intro page out h1 h2
  rw [hpage] at h1
  injection h1 with h1
  subst h1
  have hex : extractMarkdownSectionByAnchor
      (str "---\nversion: 1.0.0\nstage: runtime\nkind: class\nname: C\nsource: runtime-api.json\n---\n\n# C\n\n\n\n## Attributes\n\n### a\n\n- Read: `unknown`\n- Write: `unknown`\n- Optional: `false`\n")
      (str "a") =
      some (str "### a\n\n- Read: `unknown`\n- Write: `unknown`\n- Optional: `false`\n") := by
    decide
  rw [hex] at h2
  injection h2 with h2
  subst h2
  have htext : (emitChunk (genResolve inpOneAttr) oneAttrChunk).text =
      oneAttrChunk.text := by
    show convertSiteHtmlLinks (convertInternalLinks oneAttrChunk.text
        (str "llm-docs/1.0.0/runtime/classes/C.md") (genResolve inpOneAttr))
        (str "llm-docs/1.0.0/runtime/classes/C.md") (genResolve inpOneAttr) =
      oneAttrChunk.text
    rw [convertInternalLinks_id_of_no_bracket _ _ _ (by decide),
      convertSiteHtmlLinks_id_of_no_bracket _ _ _ (by decide)]
  rw [htext]
  decide
